import Mathlib

/-!
Verification of the RenderGraph compiler (shallow embedding).

The definitions below are translated from the repository sources:
  - src/renderGraph/Graph.h and the BFS / TopologicalSort implementation
    (BFS.execute, BFS.hasPath, TopologicalSort.execute),
  - src/renderGraph/RenderGraphCore.h (Pass, Resource, Edge, flags),
  - the RenderGraph method implementations (addPass, insertEdge, deleteEdge,
    containsEdge, containsAnyEdge, getPassById, toNodePtrList, createCopy),
  - src/renderGraph/compiler/RGResourceOptTypes.h (UsagePoint, Range,
    RGOptResource, insertUsagePoints),
  - src/renderGraph/compiler/RGResourceOpt.h (RenderGraphResourceOptimizer
    and RenderGraphCompiler with all its phases).

Pointer handling: the C++ code stores raw pointers to passes and resources.
Following the design notes of the specification, edges and adjacency lists
are embedded with stable integer identifiers resolved through the graph
(pass ids), and edge endpoints carry the id and name of the referenced
resources.  Pointer equality corresponds to id equality for graphs whose
pass ids are unique, which the theorems assume where it matters.

Undefined behaviour: wherever the C++ dereferences a possibly invalid
pointer or iterator (a failed lookup, an end iterator), the embedding
returns none.  A some result of an embedded operation corresponds to a
UB-free C++ execution.

The process-wide IdSequence counter is threaded explicitly: operations
that call IdSequence::next() take the current counter value and return
the updated one.
-/

-- =======================================
-- Data model (RenderGraphCore.h)
-- =======================================

inductive AccessType where
  | None
  | Read
  | Write
deriving DecidableEq, Repr

inductive ResourceType where
  | Unknown
  | Image
  | Buffer
  | External
deriving DecidableEq, Repr

structure ResourceFlags where
  dontOptimize : Bool := false
deriving DecidableEq, Repr

structure Resource where
  id     : Int
  name   : String
  type   : ResourceType
  access : AccessType
  flags  : ResourceFlags := {}
deriving DecidableEq, Repr

structure PassFlags where
  raster    : Bool := false
  compute   : Bool := false
  async     : Bool := false
  neverCull : Bool := false
  sentinel  : Bool := false
deriving DecidableEq, Repr

/-- A pass. `mIncomingEdges` and `mOutgoingEdges` are the C++ adjacency
lists of `Vertex*`, embedded as lists of pass ids (multiplicity kept). -/
structure Pass where
  mId            : Int
  mIncomingEdges : List Int := []
  mOutgoingEdges : List Int := []
  name           : String := ""
  flags          : PassFlags := {}
  dependencies   : List Resource := []
deriving DecidableEq, Repr

/-- An edge.  `srcResId`/`srcResName` embed the C++ resource reference of
the source endpoint (the `pSrcRes` pointer and the legacy id/name fields
read by the optimizer), likewise for the destination. -/
structure Edge where
  id         : Int
  srcId      : Int
  dstId      : Int
  srcResId   : Int
  srcResName : String
  dstResId   : Int
  dstResName : String
deriving DecidableEq, Repr

structure RenderGraph where
  mVertices : List Pass := []
  mEdges    : List Edge := []
deriving DecidableEq, Repr

def rgRootPassName : String := "Root"

-- =======================================
-- Pass operations
-- =======================================

/-- Pass::getResource(name).  The C++ returns the address of the element
found by find_if without checking for the end iterator; when the name is
absent it dereferences the end iterator, which is undefined behaviour,
embedded as none. -/
def Pass.getResource (p : Pass) (resourceName : String) : Option Resource :=
  p.dependencies.find? (fun r => r.name = resourceName)

/-- Pass::getResource(id), same end-iterator caveat as the name overload. -/
def Pass.getResourceById (p : Pass) (resourceId : Int) : Option Resource :=
  p.dependencies.find? (fun r => r.id = resourceId)

-- =======================================
-- RenderGraph operations
-- =======================================

def RenderGraph.getPassById (g : RenderGraph) (id : Int) : Option Pass :=
  g.mVertices.find? (fun p => id = p.mId)

/-- Apply f to the first element satisfying the predicate. -/
def listUpdateFirst (p : Pass → Bool) (f : Pass → Pass) : List Pass → List Pass
  | [] => []
  | x :: t => if p x then f x :: t else x :: listUpdateFirst p f t

/-- Replace the first pass with the given id (the C++ mutates the object
behind the pointer; with unique ids this is the same pass). -/
def RenderGraph.updatePassById (g : RenderGraph) (id : Int) (f : Pass → Pass) :
    RenderGraph :=
  { g with mVertices := listUpdateFirst (fun p => p.mId = id) f g.mVertices }

def RenderGraph.addPass (g : RenderGraph) (p : Pass) : RenderGraph :=
  { g with mVertices := g.mVertices ++ [p] }

/-- RenderGraph::insertEdge.  Returns (graph, counter, success); none is
the undefined behaviour of dereferencing Pass::getResource on an absent
resource name (the C++ null checks never fire, see Pass.getResource). -/
def RenderGraph.insertEdge (g : RenderGraph) (src : Pass) (srcRes : String)
    (dst : Pass) (dstRes : String) (counter : Int) :
    Option (RenderGraph × Int × Bool) :=
  if src.mId = dst.mId then some (g, counter, false)
  else
    match src.getResource srcRes, dst.getResource dstRes with
    | some pSrcRes, some pDstRes =>
        let g1 := g.updatePassById src.mId
          (fun p => { p with mOutgoingEdges := p.mOutgoingEdges ++ [dst.mId] })
        let g2 := g1.updatePassById dst.mId
          (fun p => { p with mIncomingEdges := p.mIncomingEdges ++ [src.mId] })
        let e : Edge := {
          id := counter, srcId := src.mId, dstId := dst.mId,
          srcResId := pSrcRes.id, srcResName := pSrcRes.name,
          dstResId := pDstRes.id, dstResName := pDstRes.name }
        some ({ g2 with mEdges := g2.mEdges ++ [e] }, counter + 1, true)
    | _, _ => none

/-- Erase the first occurrence of x in l (std::vector::erase of the first
matching iterator). -/
def eraseFirst (l : List Int) (x : Int) : List Int :=
  match l with
  | [] => []
  | y :: t => if y = x then t else y :: eraseFirst t x

/-- RenderGraph::deleteEdge(src, srcRes, dst, dstRes).  Note: the source
looks up dstRes on the src pass (src->getResource(dstRes)), reproduced
literally. -/
def RenderGraph.deleteEdge (g : RenderGraph) (src : Pass) (srcRes : String)
    (dst : Pass) (dstRes : String) : Option (RenderGraph × Bool) :=
  if src.mId = dst.mId then some (g, false)
  else
    match src.getResource srcRes, src.getResource dstRes with
    | some pSrcRes, some pDstRes =>
        match g.mEdges.findIdx? (fun e =>
            e.srcId = src.mId ∧ e.dstId = dst.mId ∧
            e.srcResId = pSrcRes.id ∧ e.dstResId = pDstRes.id) with
        | none => some (g, false)
        | some ei =>
            if dst.mId ∈ src.mOutgoingEdges then
              if src.mId ∈ dst.mIncomingEdges then
                let g1 := { g with mEdges := g.mEdges.eraseIdx ei }
                let g2 := g1.updatePassById src.mId
                  (fun p => { p with mOutgoingEdges := eraseFirst p.mOutgoingEdges dst.mId })
                let g3 := g2.updatePassById dst.mId
                  (fun p => { p with mIncomingEdges := eraseFirst p.mIncomingEdges src.mId })
                some (g3, true)
              else some (g, false)
            else some (g, false)
    | _, _ => none

def RenderGraph.containsEdge (g : RenderGraph) (src dst : Pass) : Bool :=
  g.mEdges.any (fun e => e.srcId = src.mId ∧ e.dstId = dst.mId)

def RenderGraph.containsAnyEdge (g : RenderGraph) (a b : Pass) : Bool :=
  g.containsEdge a b || g.containsEdge b a

/-- RenderGraph::toNodePtrList.  The C++ performs no exists check and can
produce null pointers; every caller dereferences the result, so a failed
lookup is collapsed to none here. -/
def RenderGraph.toNodePtrList (g : RenderGraph) (nodeIds : List Int) :
    Option (List Pass) :=
  nodeIds.mapM (fun id => g.getPassById id)

-- =======================================
-- BFS (Graph.h)
-- =======================================

/-- Insert into a sorted duplicate-free id set (std::set of ids). -/
def idsetInsert (s : List Int) (x : Int) : List Int :=
  match s with
  | [] => [x]
  | y :: t => if x < y then x :: y :: t else if x = y then y :: t else y :: idsetInsert t x

/-- One BFS step over the out-neighbours of the current vertex: ids not
yet visited are marked visited and their passes enqueued.  The C++
follows Vertex pointers; here the adjacency ids are resolved through the
graph (an unresolvable id cannot arise from graphs built via the API). -/
def BFS.visitNeighbors (g : RenderGraph) (outIds : List Int)
    (visited : List Int) (pushed : List Pass) : List Int × List Pass :=
  match outIds with
  | [] => (visited, pushed)
  | w :: t =>
      if w ∈ visited then BFS.visitNeighbors g t visited pushed
      else
        match g.getPassById w with
        | some p => BFS.visitNeighbors g t (idsetInsert visited w) (pushed ++ [p])
        | none => BFS.visitNeighbors g t visited pushed

def BFS.loop (g : RenderGraph) : Nat → List Pass → List Int → List Int
  | 0, _, visited => visited
  | _ + 1, [], visited => visited
  | fuel + 1, current :: rest, visited =>
      let st := BFS.visitNeighbors g current.mOutgoingEdges visited []
      BFS.loop g fuel (rest ++ st.2) st.1

/-- BFS::execute: the set of vertex ids visited from the root. -/
def BFS.execute (g : RenderGraph) (root : Pass) : List Int :=
  BFS.loop g (g.mVertices.length + 1) [root] (idsetInsert [] root.mId)

/-- Inner loop of BFS::hasPath: early true when a neighbour is the
destination (pointer comparison in C++, id comparison here). -/
def BFS.scanNeighbors (g : RenderGraph) (dstId : Int) :
    List Int → List Int → List Pass → Bool × List Int × List Pass
  | [], visited, pushed => (false, visited, pushed)
  | w :: t, visited, pushed =>
      if w = dstId then (true, visited, pushed)
      else if w ∈ visited then BFS.scanNeighbors g dstId t visited pushed
      else
        match g.getPassById w with
        | some p => BFS.scanNeighbors g dstId t (idsetInsert visited w) (pushed ++ [p])
        | none => BFS.scanNeighbors g dstId t visited pushed

def BFS.hasPathLoop (g : RenderGraph) (dstId : Int) :
    Nat → List Pass → List Int → Bool
  | 0, _, _ => false
  | _ + 1, [], _ => false
  | fuel + 1, current :: rest, visited =>
      let st := BFS.scanNeighbors g dstId current.mOutgoingEdges visited []
      if st.1 then true
      else BFS.hasPathLoop g dstId fuel (rest ++ st.2.2) st.2.1

/-- BFS::hasPath.  The visited set initially contains the destination
(as in the source); the src == dst pointer comparison is id equality. -/
def BFS.hasPath (g : RenderGraph) (src dst : Pass) : Bool :=
  if src.mId = dst.mId then true
  else BFS.hasPathLoop g dst.mId (g.mVertices.length + 1) [src] (idsetInsert [] dst.mId)

-- =======================================
-- Topological sort (Kahn) from the Graph implementation file
-- =======================================

/-- The std::map of in-degrees, embedded as an association list with at
most one entry per key (lookups and updates address the first entry). -/
abbrev DegMap := List (Int × Int)

def alGetD (m : DegMap) (k : Int) : Int :=
  match m with
  | [] => 0
  | (a, c) :: t => if a = k then c else alGetD t k

/-- inDegrees[k]-- with operator[] default-insertion: an absent key is
created as 0 and decremented; the new value is returned alongside. -/
def alDec (m : DegMap) (k : Int) : DegMap × Int :=
  match m with
  | [] => ([(k, -1)], -1)
  | (a, c) :: t =>
      if a = k then ((a, c - 1) :: t, c - 1)
      else
        let r := alDec t k
        ((a, c) :: r.1, r.2)

/-- std::map::emplace: inserts only when the key is absent. -/
def alEmplace (m : DegMap) (k v : Int) : DegMap :=
  match m with
  | [] => [(k, v)]
  | (a, c) :: t => if a = k then (a, c) :: t else (a, c) :: alEmplace t k v

/-- Termination measure for the Kahn loop fuel: strictly decreases with
each processed queue element. -/
def alMeasure (m : DegMap) : Nat :=
  match m with
  | [] => 0
  | (_, c) :: t => (c + 1).toNat + alMeasure t

inductive TopoError where
  | GraphNotAcyclic
deriving DecidableEq, Repr

/-- The inner for-loop of the Kahn while-loop: decrement the in-degree of
every out-neighbour of the popped vertex and collect the vertices whose
degree reached zero (pushed in edge order).  The C++ dereferences the
find_if iterator without an end check when pushing: none marks that
(unreachable) undefined behaviour. -/
def TopologicalSort.processOut (vertices : List Pass) :
    List Int → DegMap → Option (DegMap × List Pass)
  | [], m => some (m, [])
  | w :: t, m =>
      let r := alDec m w
      if r.2 = 0 then
        match vertices.find? (fun p => p.mId = w) with
        | none => none
        | some p => (TopologicalSort.processOut vertices t r.1).map (fun q => (q.1, p :: q.2))
      else TopologicalSort.processOut vertices t r.1

def TopologicalSort.kahnLoop (vertices : List Pass) :
    Nat → List Pass → DegMap → List Pass → Option (List Pass × DegMap)
  | 0, _, _, _ => none
  | _ + 1, [], m, t => some (t, m)
  | fuel + 1, v :: rest, m, t =>
      match TopologicalSort.processOut vertices v.mOutgoingEdges m with
      | none => none
      | some (m2, pushed) =>
          TopologicalSort.kahnLoop vertices fuel (rest ++ pushed) m2 (t ++ [v])

/-- TopologicalSort::execute.  The fuel bound always suffices (each loop
iteration strictly decreases 2 * alMeasure + queue length, see
kahnLoop_measure below), so the fuel-exhaustion none never occurs. -/
def TopologicalSort.execute (vertices : List Pass) :
    Option (Except TopoError (List Int)) :=
  let m0 := vertices.foldl
    (fun m v => alEmplace m v.mId (Int.ofNat v.mIncomingEdges.length)) []
  let q0 := vertices.filter (fun v => alGetD m0 v.mId == 0)
  match TopologicalSort.kahnLoop vertices (2 * alMeasure m0 + q0.length + 1) q0 m0 [] with
  | none => none
  | some (t, mf) =>
      if vertices.all (fun v => alGetD mf v.mId == 0) then
        some (.ok (t.map (fun v => v.mId)))
      else
        some (.error .GraphNotAcyclic)

/-- RenderGraph::createCopy.  Passes are value-copied with their ids;
edges are re-inserted through insertEdge, which draws fresh edge ids from
the id sequence.  A failed pass lookup feeds a null pointer into
insertEdge (undefined behaviour), hence none. -/
def RenderGraph.createCopyStep (st : RenderGraph × Int) (edge : Edge) :
    Option (RenderGraph × Int) :=
  match st.1.getPassById edge.srcId, st.1.getPassById edge.dstId with
  | some newSrc, some newDst =>
      (st.1.insertEdge newSrc edge.srcResName newDst edge.dstResName st.2).map
        (fun r => (r.1, r.2.1))
  | _, _ => none

def RenderGraph.createCopy (g : RenderGraph) (counter : Int) :
    Option (RenderGraph × Int) :=
  let copy0 : RenderGraph :=
    { mVertices := g.mVertices.map (fun node =>
        { mId := node.mId, name := node.name, flags := node.flags,
          dependencies := node.dependencies }),
      mEdges := [] }
  g.mEdges.foldlM RenderGraph.createCopyStep (copy0, counter)

-- =======================================
-- Compiler data types (RGCompilerTypes.h)
-- =======================================

inductive RGCompilerError where
  | None
  | NoRootNode
  | CyclicDependency
  | NoNodeByGivenId
deriving DecidableEq, Repr

structure RGCompilerOptions where
  allowParallelization : Bool := false
deriving DecidableEq, Repr

structure RGTask where
  pass      : Pass
  asyncPass : Option Pass
deriving DecidableEq, Repr

/-- std::map<Id_t, std::vector<Id_t>>, embedded as a key-sorted
association list with unique keys. -/
abbrev SMap := List (Int × List Int)

def smapFind (m : SMap) (k : Int) : Option (List Int) :=
  (m.find? (fun e => e.1 = k)).map (fun e => e.2)

def smapInsert (m : SMap) (k : Int) (v : List Int) : SMap :=
  match m with
  | [] => [(k, v)]
  | (a, w) :: t =>
      if k < a then (k, v) :: (a, w) :: t
      else if k = a then (k, v) :: t
      else (a, w) :: smapInsert t k v

def smapErase (m : SMap) (k : Int) : SMap :=
  m.filter (fun e => ¬ e.1 = k)

/-- operator[] on the map: returns the mapped vector, default-inserting
an empty one when the key is absent. -/
def smapGetOrInsert (m : SMap) (k : Int) : List Int × SMap :=
  match smapFind m k with
  | some v => (v, m)
  | none => ([], smapInsert m k [])

-- =======================================
-- Resource optimizer data types (RGResourceOptTypes.h)
-- =======================================

def isOptimizableResource (t : ResourceType) : Bool :=
  t == ResourceType.Image

structure ConsumerInfo where
  nodeId       : Int
  nodeIdx      : Int
  nodeName     : String
  resourceId   : Int
  resourceName : String
  access       : AccessType
  node         : Pass
deriving DecidableEq, Repr

structure ResourceInfo where
  originNodeId     : Int
  originNodeIdx    : Int
  originNode       : Pass
  originResourceId : Int
  originResource   : Resource
  originAccess     : AccessType
  type             : ResourceType
  optimizable      : Bool
  consumers        : List ConsumerInfo
deriving DecidableEq, Repr

def ResourceInfo.createFrom (pass : Pass) (resource : Resource) (execOrder : Int) :
    ResourceInfo :=
  { originNodeId := pass.mId, originNodeIdx := execOrder, originNode := pass,
    originResourceId := resource.id, originResource := resource,
    originAccess := resource.access, type := resource.type,
    optimizable := isOptimizableResource resource.type, consumers := [] }

structure UsagePoint where
  point      : Int
  userResId  : Int
  usedAs     : String
  userNodeId : Int
  usedBy     : String
  access     : AccessType
deriving DecidableEq, Repr

def UsagePoint.ofConsumer (ci : ConsumerInfo) : UsagePoint :=
  { point := ci.nodeIdx, userResId := ci.resourceId, usedAs := ci.resourceName,
    userNodeId := ci.nodeId, usedBy := ci.nodeName, access := ci.access }

def UsagePoint.ofInfo (ri : ResourceInfo) : UsagePoint :=
  { point := ri.originNodeIdx, userResId := ri.originResourceId,
    usedAs := ri.originResource.name, userNodeId := ri.originNodeId,
    usedBy := ri.originNode.name, access := ri.originResource.access }

/-- Insert into the std::set<UsagePoint>: ordering and equality are on
the timeline point alone, an equal point is not inserted (first wins). -/
def upsInsert (s : List UsagePoint) (u : UsagePoint) : List UsagePoint :=
  match s with
  | [] => [u]
  | p :: t =>
      if u.point < p.point then u :: p :: t
      else if u.point = p.point then p :: t
      else p :: upsInsert t u

/-- Inclusive timeline range.  The C++ field named end is called stop
here (end is reserved); Range(start > end) throws in the C++ and is
never constructed on the embedded paths. -/
structure Range where
  start : Int
  stop  : Int
deriving DecidableEq, Repr

def Range.overlaps (a b : Range) : Bool :=
  max a.start b.start ≤ min a.stop b.stop

/-- Range of a set of usage points: [min point, max point].  The C++
throws on an empty set (min_element of an empty range is UB); the
optimizer only builds ranges of nonempty sets. -/
def rangeOfPoints (pts : List UsagePoint) : Range :=
  match pts with
  | [] => { start := 0, stop := 0 }
  | p :: t =>
      { start := t.foldl (fun a q => min a q.point) p.point,
        stop := t.foldl (fun a q => max a q.point) p.point }

/-- An aliased slot.  The members field is a specification-only ghost:
it records, in placement order, the original resource id and live range
of every ResourceInfo whose usage points were placed into this slot.
The algorithm never reads it. -/
structure RGOptResource where
  id               : Int
  usagePoints      : List UsagePoint
  originalResource : Resource
  originalNode     : Int
  type             : ResourceType
  members          : List (Int × Range) := []
deriving DecidableEq, Repr

def RGOptResource.getUsageRange (r : RGOptResource) : Range :=
  rangeOfPoints r.usagePoints

/-- RGOptResource::insertUsagePoints: reject when any incoming point
collides with an occupied timeline index, otherwise insert all. -/
def RGOptResource.insertUsagePoints (slot : RGOptResource) (points : List UsagePoint) :
    RGOptResource × Bool :=
  if points.any (fun p => slot.usagePoints.any (fun q => q.point = p.point)) then
    (slot, false)
  else
    ({ slot with usagePoints := points.foldl upsInsert slot.usagePoints }, true)

structure RGResOptOutput where
  generatedResources : List RGOptResource
  originalResources  : List Resource
  nonOptimizables    : Int
  reduction          : Int
  preCount           : Int
  postCount          : Int
  timelineRange      : Range
deriving DecidableEq, Repr

-- =======================================
-- Resource optimizer (RGResourceOpt.h)
-- =======================================

def taskIndexOf (tasks : List RGTask) (nodeId : Int) : Option Nat :=
  tasks.findIdx? (fun task =>
    task.pass.mId == nodeId || task.asyncPass.any (fun a => a.mId == nodeId))

/-- First loop of evaluateRequiredResources: one ResourceInfo per Write
resource of each pass, stamped with the index of the task running the
pass (std::distance to the find result; the list length when absent). -/
def RenderGraphResourceOptimizer.producers (g : RenderGraph) (tasks : List RGTask) :
    List ResourceInfo :=
  g.mVertices.foldl (fun acc node =>
    acc ++ (node.dependencies.filter (fun r => r.access = AccessType.Write)).map
      (fun r =>
        let i : Int :=
          match taskIndexOf tasks node.mId with
          | some i => Int.ofNat i
          | none => Int.ofNat tasks.length
        ResourceInfo.createFrom node r i)) []

/-- Second loop of evaluateRequiredResources for one ResourceInfo: scan
the edges and record a ConsumerInfo per matching edge.  The C++
dereferences the destination pass pointer, the find_if over its
dependencies and the find_if over the tasks without end checks: none. -/
def RenderGraphResourceOptimizer.consumersFor (g : RenderGraph) (tasks : List RGTask)
    (info : ResourceInfo) : Option (List ConsumerInfo) :=
  g.mEdges.foldlM (fun (acc : List ConsumerInfo) edge =>
    if ¬ info.originNodeId = edge.srcId ∨ info.originNodeId = edge.dstId ∨
       ¬ info.originResource.id = edge.srcResId then
      some acc
    else
      match g.getPassById edge.dstId with
      | none => none
      | some dstPass =>
        match dstPass.dependencies.find? (fun r => r.id = edge.dstResId) with
        | none => none
        | some consumerResource =>
          match tasks.findIdx? (fun task =>
              task.pass.mId == edge.dstId || task.asyncPass.any (fun a => a.mId == edge.dstId)) with
          | none => none
          | some ti =>
            match tasks[ti]? with
            | none => none
            | some task =>
              match (if task.pass.mId = edge.dstId then some task.pass else task.asyncPass) with
              | none => none
              | some consumerNode =>
                  some (acc ++ [{
                    nodeId := edge.dstId, nodeIdx := Int.ofNat ti,
                    nodeName := consumerNode.name,
                    resourceId := consumerResource.id,
                    resourceName := edge.dstResName,
                    access := consumerResource.access,
                    node := consumerNode }])) []

def RenderGraphResourceOptimizer.evaluateRequiredResources (g : RenderGraph)
    (tasks : List RGTask) : Option (List ResourceInfo) :=
  (RenderGraphResourceOptimizer.producers g tasks).mapM (fun info =>
    (RenderGraphResourceOptimizer.consumersFor g tasks info).map
      (fun cs => { info with consumers := cs }))

/-- getUsagePointsForResourceInfo: the producer point then one per
consumer, with set semantics on the timeline index. -/
def getUsagePointsForResourceInfo (info : ResourceInfo) : List UsagePoint :=
  info.consumers.foldl (fun s c => upsInsert s (UsagePoint.ofConsumer c))
    (upsInsert [] (UsagePoint.ofInfo info))

/-- First-fit scan over the existing slots: insert into the first slot
whose current live range does not overlap the incoming one and whose
occupied points admit the insertion. -/
def RenderGraphResourceOptimizer.tryInsert (points : List UsagePoint)
    (incomingRange : Range) (resId : Int) :
    List RGOptResource → List RGOptResource × Bool
  | [] => ([], false)
  | slot :: rest =>
      if slot.getUsageRange.overlaps incomingRange = false then
        let r := slot.insertUsagePoints points
        if r.2 then
          ({ r.1 with members := r.1.members ++ [(resId, incomingRange)] } :: rest, true)
        else
          let q := RenderGraphResourceOptimizer.tryInsert points incomingRange resId rest
          (slot :: q.1, q.2)
      else
        let q := RenderGraphResourceOptimizer.tryInsert points incomingRange resId rest
        (slot :: q.1, q.2)

/-- The loop body of RenderGraphResourceOptimizer::run.  State: (slots,
nonOptimizable count, id counter); the candidate slot draws an id every
iteration. -/
def RenderGraphResourceOptimizer.runStep (st : List RGOptResource × Int × Int)
    (res : ResourceInfo) : List RGOptResource × Int × Int :=
  let usagePoints := getUsagePointsForResourceInfo res
  let incomingRange := rangeOfPoints usagePoints
  let resource : RGOptResource := {
    id := st.2.2, usagePoints := usagePoints,
    originalResource := res.originResource,
    originalNode := res.originNode.mId,
    type := res.type,
    members := [(res.originResource.id, incomingRange)] }
  let c2 := st.2.2 + 1
  if res.optimizable = false ∨ res.originResource.flags.dontOptimize then
    (st.1 ++ [resource], st.2.1 + 1, c2)
  else if st.1 = [] then
    (st.1 ++ [resource], st.2.1, c2)
  else
    let q := RenderGraphResourceOptimizer.tryInsert usagePoints incomingRange
      res.originResource.id st.1
    if q.2 then (q.1, st.2.1, c2)
    else (q.1 ++ [resource], st.2.1, c2)

/-- RenderGraphResourceOptimizer::run. -/
def RenderGraphResourceOptimizer.run (g : RenderGraph) (tasks : List RGTask)
    (counter : Int) : Option (RGResOptOutput × Int) :=
  match RenderGraphResourceOptimizer.evaluateRequiredResources g tasks with
  | none => none
  | some infos =>
      let st := infos.foldl RenderGraphResourceOptimizer.runStep ([], 0, counter)
      some ({ generatedResources := st.1,
              originalResources := infos.map (fun ri => ri.originResource),
              nonOptimizables := st.2.1,
              reduction := Int.ofNat infos.length - Int.ofNat st.1.length,
              preCount := Int.ofNat infos.length,
              postCount := Int.ofNat st.1.length,
              timelineRange := { start := 0, stop := Int.ofNat g.mVertices.length } },
            st.2.2)

-- =======================================
-- Compiler phases (RGResourceOpt.h, RenderGraphCompiler)
-- =======================================

structure RGResourceLink where
  srcPass     : Int
  dstPass     : Int
  srcResource : Int
  dstResource : Int
  access      : AccessType
deriving DecidableEq, Repr

structure RGResourceTemplate where
  id    : Int
  type  : ResourceType
  links : List RGResourceLink
deriving DecidableEq, Repr

structure RGCompilerPhaseOutputs where
  cullNodes            : List Int
  serialExecutionOrder : List Int
  parallelizableNodes  : SMap
  taskOrder            : List RGTask
  resourceOptimizer    : RGResOptOutput
deriving DecidableEq, Repr

structure RGCompilerOutput where
  resourceTemplates : List RGResourceTemplate := []
  hasFailed         : Bool := false
  failReason        : RGCompilerError := RGCompilerError.None
  phaseOutputs      : Option RGCompilerPhaseOutputs := none
  options           : RGCompilerOptions := {}
deriving DecidableEq, Repr

/-- createErrorOutput: a default-constructed output with only the
failure fields set (options stay at their default). -/
def RenderGraphCompiler.createErrorOutput (err : RGCompilerError) : RGCompilerOutput :=
  { hasFailed := true, failReason := err }

def RenderGraphCompiler.getRootNode (g : RenderGraph) : Option Pass :=
  g.mVertices.find? (fun p => p.flags.sentinel ∧ p.name = rgRootPassName)

/-- Step 1: reachable-from-root ids united with the neverCull ids; the
std::set yields a sorted duplicate-free id list. -/
def RenderGraphCompiler.cullNodes (g : RenderGraph) :
    Except RGCompilerError (List Int) :=
  match RenderGraphCompiler.getRootNode g with
  | none => .error .NoRootNode
  | some root =>
      let remaining0 := (g.mVertices.filter (fun p => p.flags.neverCull)).foldl
        (fun s p => idsetInsert s p.mId) []
      let reachable := BFS.execute g root
      .ok (reachable.foldl (fun s id => idsetInsert s id) remaining0)

/-- Step 2.1: topological sort of the resolved surviving passes; a sort
failure becomes CyclicDependency. -/
def RenderGraphCompiler.getSerialExecutionOrder (g : RenderGraph) (nodeIds : List Int) :
    Option (Except RGCompilerError (List Int)) :=
  match g.toNodePtrList nodeIds with
  | none => none
  | some nodePtrs =>
      match TopologicalSort.execute nodePtrs with
      | none => none
      | some (.error _) => some (.error .CyclicDependency)
      | some (.ok order) => some (.ok order)

/-- The multi-edge collection of step 2.2, with the literal predicate of
the source: edge.id differs, edge.src equals e.src and edge.dst equals
e.src (the second comparison reads e.src, not e.dst). -/
def RenderGraphCompiler.duplicateEdges (g : RenderGraph) : List Edge :=
  g.mEdges.foldl (fun acc edge =>
    acc ++ g.mEdges.filter (fun e =>
      ¬ edge.id = e.id ∧ edge.srcId = e.srcId ∧ edge.dstId = e.srcId)) []

/-- The shadow graph of step 2.2 after deleting the collected
multi-edges from the deep copy (the deleted edges reference the
original pass objects, resolved in the input graph). -/
def RenderGraphCompiler.shadowAfterDedup (g : RenderGraph) (counter : Int) :
    Option (RenderGraph × Int) :=
  match RenderGraph.createCopy g counter with
  | none => none
  | some (shadow0, c1) =>
      ((RenderGraphCompiler.duplicateEdges g).foldlM (fun (sh : RenderGraph) (edge : Edge) =>
          match g.getPassById edge.srcId, g.getPassById edge.dstId with
          | some src, some dst =>
              (sh.deleteEdge src edge.srcResName dst edge.dstResName).map
                (fun (r : RenderGraph × Bool) => r.1)
          | _, _ => none) shadow0).map (fun sh => (sh, c1))

/-- Inner loop of the transitive-closure step: for a fixed source pass,
add a direct edge to every distinct pass reachable from it, connecting
dependencies[0] of both endpoints (none when a dependency list is
empty: the C++ indexes out of bounds there). -/
def RenderGraphCompiler.closureInner (aId : Int) :
    List Int → RenderGraph → Int → Option (RenderGraph × Int)
  | [], sh, c => some (sh, c)
  | bId :: t, sh, c =>
      match sh.getPassById aId, sh.getPassById bId with
      | some pa, some pb =>
          if ¬ aId = bId ∧ BFS.hasPath sh pa pb = true then
            match pa.dependencies.head?, pb.dependencies.head? with
            | some ra, some rb =>
                match sh.insertEdge pa ra.name pb rb.name c with
                | some (sh2, c2, _) => RenderGraphCompiler.closureInner aId t sh2 c2
                | none => none
            | _, _ => none
          else RenderGraphCompiler.closureInner aId t sh c
      | _, _ => none

def RenderGraphCompiler.closureOuter (ids : List Int) :
    List Int → RenderGraph → Int → Option (RenderGraph × Int)
  | [], sh, c => some (sh, c)
  | aId :: t, sh, c =>
      match RenderGraphCompiler.closureInner aId ids sh c with
      | some (sh2, c2) => RenderGraphCompiler.closureOuter ids t sh2 c2
      | none => none

/-- Pairwise scan of step 2.2 over the shadow nodes in serial order. -/
def RenderGraphCompiler.scanParallel (sh : RenderGraph) (en : List (Nat × Pass)) : SMap :=
  en.foldl (fun m pair =>
    if pair.2.flags.sentinel then m
    else
      smapInsert m pair.2.mId
        ((en.filter (fun q =>
            ¬ (pair.2.mId = q.2.mId ∨ q.2.flags.sentinel = true ∨ q.1 < pair.1 ∨
               sh.containsAnyEdge pair.2 q.2 = true))).map (fun q => q.2.mId))) []

/-- Removal of the empty entries at the end of step 2.2. -/
def RenderGraphCompiler.removeEmpty (m : SMap) : SMap :=
  (m.map (fun e => e.1)).foldl (fun acc k =>
    if (smapFind acc k).getD [] = ([] : List Int) then smapErase acc k else acc) m

/-- Step 2.2: getParallelizableTasks. -/
def RenderGraphCompiler.getParallelizableTasks (g : RenderGraph) (nodeIds : List Int)
    (counter : Int) : Option (SMap × Int) :=
  match RenderGraphCompiler.shadowAfterDedup g counter with
  | none => none
  | some (shadow0, c1) =>
      let ids := shadow0.mVertices.map (fun p => p.mId)
      match RenderGraphCompiler.closureOuter ids ids shadow0 c1 with
      | none => none
      | some (shadow, c2) =>
          match nodeIds.mapM (fun id => shadow.getPassById id) with
          | none => none
          | some shadowNodes =>
              some (RenderGraphCompiler.removeEmpty
                      (RenderGraphCompiler.scanParallel shadow shadowNodes.enum), c2)

/-- The walk of step 2.3 building the task list.  State: emitted tasks,
the consumed id set, the parallel task counter and the map (mutated by
operator[] default-insertions, which the caller observes). -/
def RenderGraphCompiler.taskWalk (g : RenderGraph) (chances : Int) :
    List Pass → List RGTask → List Int → Int → SMap → Option (List RGTask × SMap)
  | [], tasks, _, _, m => some (tasks, m)
  | node :: rest, tasks, consumed, count, m =>
      if node.mId ∈ consumed then
        RenderGraphCompiler.taskWalk g chances rest tasks consumed count m
      else if ¬ (smapFind m node.mId).isSome ∧ chances ≤ count then
        RenderGraphCompiler.taskWalk g chances rest
          (tasks ++ [{ pass := node, asyncPass := none }])
          (idsetInsert consumed node.mId) count m
      else
        let gi := smapGetOrInsert m node.mId
        match gi.1.mapM (fun oid => (g.getPassById oid).map (fun p => (oid, p))) with
        | none => none
        | some resolved =>
            let filtered := resolved.filter (fun q => q.2.flags.async)
            match filtered.head? with
            | some sel =>
                RenderGraphCompiler.taskWalk g chances rest
                  (tasks ++ [{ pass := node, asyncPass := some sel.2 }])
                  (idsetInsert (idsetInsert consumed node.mId) sel.1) (count + 1) gi.2
            | none =>
                RenderGraphCompiler.taskWalk g chances rest
                  (tasks ++ [{ pass := node, asyncPass := none }])
                  (idsetInsert consumed node.mId) (count + 1) gi.2

/-- Step 2.3: getFinalTaskOrder. -/
def RenderGraphCompiler.getFinalTaskOrder (g : RenderGraph)
    (serialExecutionOrder : List Int) (parallelizableTasks : SMap)
    (opts : RGCompilerOptions) : Option (List RGTask × SMap) :=
  match g.toNodePtrList serialExecutionOrder with
  | none => none
  | some nodes =>
      if opts.allowParallelization = false then
        some (nodes.map (fun n => { pass := n, asyncPass := none }), parallelizableTasks)
      else
        RenderGraphCompiler.taskWalk g (Int.ofNat parallelizableTasks.length)
          nodes [] [] 0 parallelizableTasks

/-- Step 4.1: one template per generated slot, one link per usage
point of the slot. -/
def RenderGraphCompiler.getResourceTemplates (g : RenderGraph)
    (optimizerOutput : RGResOptOutput) : Option (List RGResourceTemplate) :=
  optimizerOutput.generatedResources.mapM (fun genRes =>
    (g.getPassById genRes.originalNode).map (fun originNode =>
      { id := genRes.id, type := genRes.type,
        links := genRes.usagePoints.map (fun consumer =>
          { srcPass := originNode.mId, dstPass := consumer.userNodeId,
            srcResource := genRes.originalResource.id,
            dstResource := consumer.userResId,
            access := consumer.access }) }))

/-- RenderGraphCompiler::compile: the phase pipeline, short-circuiting
on the first failing phase. -/
def RenderGraphCompiler.compile (g : RenderGraph) (opts : RGCompilerOptions)
    (counter : Int) : Option RGCompilerOutput :=
  match RenderGraphCompiler.cullNodes g with
  | .error err => some (RenderGraphCompiler.createErrorOutput err)
  | .ok cullIds =>
    match RenderGraphCompiler.getSerialExecutionOrder g cullIds with
    | none => none
    | some (.error err) => some (RenderGraphCompiler.createErrorOutput err)
    | some (.ok serialOrder) =>
      match RenderGraphCompiler.getParallelizableTasks g serialOrder counter with
      | none => none
      | some (parallelizable, c1) =>
        match RenderGraphCompiler.getFinalTaskOrder g serialOrder parallelizable opts with
        | none => none
        | some (tasks, parallelizable2) =>
          match RenderGraphResourceOptimizer.run g tasks c1 with
          | none => none
          | some (optOut, _) =>
            match RenderGraphCompiler.getResourceTemplates g optOut with
            | none => none
            | some templates =>
                some { resourceTemplates := templates,
                       hasFailed := false,
                       failReason := RGCompilerError.None,
                       phaseOutputs := some {
                         cullNodes := cullIds,
                         serialExecutionOrder := serialOrder,
                         parallelizableNodes := parallelizable2,
                         taskOrder := tasks,
                         resourceOptimizer := optOut },
                       options := opts }

-- =======================================
-- The repository example graph (createExampleGraph, id sequence from 0)
-- =======================================

def mkRes (id : Int) (name : String) (type : ResourceType) (access : AccessType) : Resource :=
  { id := id, name := name, type := type, access := access }

def exBeginPass : Pass :=
  { mId := 0, name := "Root", flags := { neverCull := true, sentinel := true },
    dependencies := [mkRes 1 "scene" .External .None] }

def exGBufferPass : Pass :=
  { mId := 2, name := "G-Buffer Pass", flags := { raster := true },
    dependencies := [mkRes 3 "scene" .External .None,
                     mkRes 4 "positionImage" .Image .Write,
                     mkRes 5 "normalImage" .Image .Write,
                     mkRes 6 "albedoImage" .Image .Write,
                     mkRes 7 "motionVectors" .Image .Write] }

def exLightingPass : Pass :=
  { mId := 8, name := "Lighting Pass", flags := { raster := true },
    dependencies := [mkRes 9 "positionImage" .Image .Read,
                     mkRes 10 "normalImage" .Image .Read,
                     mkRes 11 "albedoImage" .Image .Read,
                     mkRes 12 "lightingResult" .Image .Write] }

def exAoPass : Pass :=
  { mId := 13, name := "Ambient Occlusion Pass",
    flags := { raster := true, compute := true, async := true },
    dependencies := [mkRes 14 "positionImage" .Image .Read,
                     mkRes 15 "normalImage" .Image .Read,
                     mkRes 16 "ambientOcclusionImage" .Image .Write] }

def exCompPass : Pass :=
  { mId := 17, name := "Composition Pass", flags := { raster := true },
    dependencies := [mkRes 18 "imageA" .Image .Read,
                     mkRes 19 "imageB" .Image .Read,
                     mkRes 20 "combined" .Image .Write] }

def exPresentPass : Pass :=
  { mId := 21, name := "Present", flags := { raster := true, neverCull := true, sentinel := true },
    dependencies := [mkRes 22 "presentImage" .Image .Read] }

def exampleBase : RenderGraph :=
  { mVertices := [exBeginPass, exGBufferPass, exLightingPass, exAoPass,
                  exCompPass, exPresentPass], mEdges := [] }

/-- The example graph of the repository, built through insertEdge in the
order of createExampleGraph with the edge ids 23..31 the id sequence
would produce. -/
def exampleGraphO : Option (RenderGraph × Int) :=
  (exampleBase.insertEdge exBeginPass "scene" exGBufferPass "scene" 23).bind (fun r1 =>
  (r1.1.insertEdge exGBufferPass "positionImage" exLightingPass "positionImage" r1.2.1).bind (fun r2 =>
  (r2.1.insertEdge exGBufferPass "normalImage" exLightingPass "normalImage" r2.2.1).bind (fun r3 =>
  (r3.1.insertEdge exGBufferPass "albedoImage" exLightingPass "albedoImage" r3.2.1).bind (fun r4 =>
  (r4.1.insertEdge exGBufferPass "positionImage" exAoPass "positionImage" r4.2.1).bind (fun r5 =>
  (r5.1.insertEdge exGBufferPass "normalImage" exAoPass "normalImage" r5.2.1).bind (fun r6 =>
  (r6.1.insertEdge exLightingPass "lightingResult" exCompPass "imageA" r6.2.1).bind (fun r7 =>
  (r7.1.insertEdge exAoPass "ambientOcclusionImage" exCompPass "imageB" r7.2.1).bind (fun r8 =>
  (r8.1.insertEdge exCompPass "combined" exPresentPass "presentImage" r8.2.1).map (fun r9 =>
  (r9.1, r9.2.1))))))))))

def exampleGraph : RenderGraph :=
  ((exampleGraphO.map (fun r => r.1)).getD { mVertices := [], mEdges := [] })


-- =======================================
-- Specification-side notions
-- =======================================

/-- Well-formedness of a render graph as maintained by the builder API:
unique pass ids, adjacency lists that agree with the edge multiset, and
edge endpoints that are members. -/
def RenderGraph.WF (g : RenderGraph) : Prop :=
  (g.mVertices.map Pass.mId).Nodup ∧
  (∀ v ∈ g.mVertices,
    v.mIncomingEdges.Perm
      ((g.mEdges.filter (fun e => e.dstId = v.mId)).map (fun e => e.srcId)) ∧
    v.mOutgoingEdges.Perm
      ((g.mEdges.filter (fun e => e.srcId = v.mId)).map (fun e => e.dstId))) ∧
  (∀ e ∈ g.mEdges,
    (∃ p ∈ g.mVertices, p.mId = e.srcId) ∧ (∃ p ∈ g.mVertices, p.mId = e.dstId))

instance (g : RenderGraph) : Decidable g.WF := by
  unfold RenderGraph.WF
  infer_instance

/-- A directed edge of the graph between two surviving pass ids. -/
def EdgeRelOn (g : RenderGraph) (keep : List Int) (a b : Int) : Prop :=
  a ∈ keep ∧ b ∈ keep ∧ ∃ e ∈ g.mEdges, e.srcId = a ∧ e.dstId = b

/-- The sub-graph induced by the surviving ids contains a directed
cycle: some id reaches itself through a nonempty chain of induced
edges. -/
def InducedCycle (g : RenderGraph) (keep : List Int) : Prop :=
  ∃ a, Relation.TransGen (EdgeRelOn g keep) a a

-- =======================================
-- Concrete input graphs for the counterexamples and witnesses
-- =======================================

/-- C1 counterexample graph: Root feeds three independent passes a, b, q
(only q async), all feeding Present. -/
def gC1 : RenderGraph :=
  { mVertices := [
      { mId := 0, name := "Root", flags := { neverCull := true, sentinel := true },
        dependencies := [mkRes 1 "scene" .External .None],
        mOutgoingEdges := [2, 4, 6], mIncomingEdges := [] },
      { mId := 2, name := "a", flags := { raster := true },
        dependencies := [mkRes 3 "ar" .Image .Read],
        mOutgoingEdges := [8], mIncomingEdges := [0] },
      { mId := 4, name := "b", flags := { raster := true },
        dependencies := [mkRes 5 "br" .Image .Read],
        mOutgoingEdges := [8], mIncomingEdges := [0] },
      { mId := 6, name := "q", flags := { compute := true, async := true },
        dependencies := [mkRes 7 "qr" .Image .Read],
        mOutgoingEdges := [8], mIncomingEdges := [0] },
      { mId := 8, name := "Present", flags := { raster := true, neverCull := true, sentinel := true },
        dependencies := [mkRes 9 "presentImage" .Image .Read],
        mOutgoingEdges := [], mIncomingEdges := [2, 4, 6] }],
    mEdges := [
      { id := 10, srcId := 0, dstId := 2, srcResId := 1, srcResName := "scene",
        dstResId := 3, dstResName := "ar" },
      { id := 11, srcId := 0, dstId := 4, srcResId := 1, srcResName := "scene",
        dstResId := 5, dstResName := "br" },
      { id := 12, srcId := 0, dstId := 6, srcResId := 1, srcResName := "scene",
        dstResId := 7, dstResName := "qr" },
      { id := 13, srcId := 2, dstId := 8, srcResId := 3, srcResName := "ar",
        dstResId := 9, dstResName := "presentImage" },
      { id := 14, srcId := 4, dstId := 8, srcResId := 5, srcResName := "br",
        dstResId := 9, dstResName := "presentImage" },
      { id := 15, srcId := 6, dstId := 8, srcResId := 7, srcResName := "qr",
        dstResId := 9, dstResName := "presentImage" }] }

/-- C3 counterexample graph: Root reaches A; the unreachable cullable
pass X also has an edge into A. -/
def gC3 : RenderGraph :=
  { mVertices := [
      { mId := 0, name := "Root", flags := { neverCull := true, sentinel := true },
        dependencies := [mkRes 1 "scene" .External .None],
        mOutgoingEdges := [2], mIncomingEdges := [] },
      { mId := 2, name := "A", flags := { raster := true },
        dependencies := [mkRes 3 "a0" .Image .Read],
        mOutgoingEdges := [], mIncomingEdges := [0, 4] },
      { mId := 4, name := "X", flags := { raster := true },
        dependencies := [mkRes 5 "x0" .Image .Write],
        mOutgoingEdges := [2], mIncomingEdges := [] }],
    mEdges := [
      { id := 6, srcId := 0, dstId := 2, srcResId := 1, srcResName := "scene",
        dstResId := 3, dstResName := "a0" },
      { id := 7, srcId := 4, dstId := 2, srcResId := 5, srcResName := "x0",
        dstResId := 3, dstResName := "a0" }] }

/-- C6 counterexample graph: a chain whose early Buffer write and late
Image write have disjoint live ranges. -/
def gC6 : RenderGraph :=
  { mVertices := [
      { mId := 0, name := "Root", flags := { neverCull := true, sentinel := true },
        dependencies := [mkRes 1 "scene" .External .None],
        mOutgoingEdges := [2], mIncomingEdges := [] },
      { mId := 2, name := "P1", flags := { raster := true },
        dependencies := [mkRes 3 "scene" .External .Read, mkRes 4 "buf" .Buffer .Write],
        mOutgoingEdges := [5], mIncomingEdges := [0] },
      { mId := 5, name := "P2", flags := { raster := true },
        dependencies := [mkRes 6 "buf" .Buffer .Read, mkRes 7 "link" .Image .None],
        mOutgoingEdges := [8], mIncomingEdges := [2] },
      { mId := 8, name := "P3", flags := { raster := true },
        dependencies := [mkRes 9 "link" .Image .Read, mkRes 10 "img" .Image .Write],
        mOutgoingEdges := [11], mIncomingEdges := [5] },
      { mId := 11, name := "Present", flags := { raster := true, neverCull := true, sentinel := true },
        dependencies := [mkRes 12 "presentImage" .Image .Read],
        mOutgoingEdges := [], mIncomingEdges := [8] }],
    mEdges := [
      { id := 13, srcId := 0, dstId := 2, srcResId := 1, srcResName := "scene",
        dstResId := 3, dstResName := "scene" },
      { id := 14, srcId := 2, dstId := 5, srcResId := 4, srcResName := "buf",
        dstResId := 6, dstResName := "buf" },
      { id := 15, srcId := 5, dstId := 8, srcResId := 7, srcResName := "link",
        dstResId := 9, dstResName := "link" },
      { id := 16, srcId := 8, dstId := 11, srcResId := 10, srcResName := "img",
        dstResId := 12, dstResName := "presentImage" }] }

/-- The serial task list of gC6 (each pass on the main queue, no async
companions), used to drive the optimizer directly. -/
def tasksC6 : List RGTask :=
  gC6.mVertices.map (fun p => { pass := p, asyncPass := none })

/-- C2 counterexample graph: two parallel edges between the same passes
on different resources. -/
def gC2 : RenderGraph :=
  { mVertices := [
      { mId := 0, name := "A",
        dependencies := [mkRes 1 "r" .Image .Write, mkRes 2 "r2" .Image .Write],
        mOutgoingEdges := [3, 3], mIncomingEdges := [] },
      { mId := 3, name := "B",
        dependencies := [mkRes 4 "s" .Image .Read],
        mOutgoingEdges := [], mIncomingEdges := [0, 0] }],
    mEdges := [
      { id := 10, srcId := 0, dstId := 3, srcResId := 1, srcResName := "r",
        dstResId := 4, dstResName := "s" },
      { id := 11, srcId := 0, dstId := 3, srcResId := 2, srcResName := "r2",
        dstResId := 4, dstResName := "s" }] }

/-- C7 counterexample graph: a single edge with id 500. -/
def gC7 : RenderGraph :=
  { mVertices := [
      { mId := 10, name := "P", dependencies := [mkRes 100 "r" .Image .Write],
        mOutgoingEdges := [11], mIncomingEdges := [] },
      { mId := 11, name := "Q", dependencies := [mkRes 101 "s" .Image .Read],
        mOutgoingEdges := [], mIncomingEdges := [10] }],
    mEdges := [
      { id := 500, srcId := 10, dstId := 11, srcResId := 100, srcResName := "r",
        dstResId := 101, dstResName := "s" }] }

def gC8passA : Pass :=
  { mId := 0, name := "A", dependencies := [mkRes 1 "x" .Image .Write] }

def gC8passB : Pass :=
  { mId := 2, name := "B", dependencies := [mkRes 3 "y" .Image .Read] }

def gC8 : RenderGraph := { mVertices := [gC8passA, gC8passB], mEdges := [] }

/-- C9 witness graph: a single non-sentinel pass named X. -/
def gC9 : RenderGraph :=
  { mVertices := [{ mId := 0, name := "X", dependencies := [mkRes 1 "r" .Image .Write] }],
    mEdges := [] }


-- =======================================
-- Proof-support definitions
-- =======================================

/-- The immutable projection of a pass (everything except the adjacency
lists, which edge operations mutate). -/
def passProj (p : Pass) : Int × String × PassFlags × List Resource :=
  (p.mId, p.name, p.flags, p.dependencies)

/-- The endpoint and resource projection of an edge (everything except
the edge id). -/
def edgeSig (e : Edge) : Int × String × Int × String × Int × Int :=
  (e.srcId, e.srcResName, e.dstId, e.dstResName, e.srcResId, e.dstResId)

/-- Number of decrements the id k has received from the emitted list T
(one per occurrence of k in an out-adjacency of a member of T). -/
def decs (T : List Pass) (k : Int) : Nat :=
  (T.map (fun t => t.mOutgoingEdges.count k)).sum

/-- The initial in-degree the Kahn map assigns to the id k. -/
def baseDeg (vertices : List Pass) (k : Int) : Nat :=
  match vertices.find? (fun p => p.mId = k) with
  | some v => v.mIncomingEdges.length
  | none => 0

/-- Two ranges of a slot member list do not overlap. -/
def membersDisjoint (ms : List (Int × Range)) : Prop :=
  List.Pairwise (fun a b => (a.2.overlaps b.2) = false) ms

/-- Invariant of a generated slot: the ghost member ranges are pairwise
non-overlapping, the slot is nonempty, and the current live range of
the slot covers every member range. -/
def slotInv (slot : RGOptResource) : Prop :=
  membersDisjoint slot.members ∧ slot.members ≠ [] ∧ slot.usagePoints ≠ [] ∧
  ∀ m ∈ slot.members,
    (rangeOfPoints slot.usagePoints).start ≤ m.2.start ∧
    m.2.stop ≤ (rangeOfPoints slot.usagePoints).stop

/-- Sanity of the edge records as guaranteed by the builder API: no
self-edges, both endpoint passes resolve, and the referenced resource of
each endpoint is found by name on its pass with the recorded id. -/
def RenderGraph.edgesResolveB (g : RenderGraph) : Bool :=
  g.mEdges.all (fun e =>
    !(e.srcId == e.dstId) &&
    ((g.getPassById e.srcId).any (fun s => (s.getResource e.srcResName).any
        (fun rs => rs.id == e.srcResId && rs.name == e.srcResName))) &&
    ((g.getPassById e.dstId).any (fun d => (d.getResource e.dstResName).any
        (fun rd => rd.id == e.dstResId && rd.name == e.dstResName))))

/-- Invariant of the Kahn loop state.  T is the emitted order so far, Q
the pending queue, m the in-degree map.
  val: every id carries its initial degree minus the received decrements;
  ndp: no id occurs twice across emitted and queued vertices;
  mem: emitted and queued vertices come from the input list;
  zer: a vertex whose counter is non-positive was emitted or queued;
  low: emitted and queued vertices have non-positive counters;
  ord: an emitted vertex had received decrements covering its whole
       initial in-degree from the vertices emitted before it. -/
structure KInv (vertices Q : List Pass) (m : DegMap) (T : List Pass) : Prop where
  val : ∀ k, alGetD m k = Int.ofNat (baseDeg vertices k) - Int.ofNat (decs T k)
  ndp : ((T ++ Q).map Pass.mId).Nodup
  mem : ∀ x ∈ T ++ Q, x ∈ vertices
  zer : ∀ v ∈ vertices, alGetD m v.mId ≤ 0 → v.mId ∈ (T ++ Q).map Pass.mId
  low : ∀ x ∈ T ++ Q, alGetD m x.mId ≤ 0
  ord : ∀ (t1 : List Pass) (b : Pass) (t2 : List Pass), T = t1 ++ b :: t2 →
        baseDeg vertices b.mId ≤ decs t1 b.mId

/-- Candidate soundness of a parallelizability map with respect to a
serial order: every mapped candidate is distinct from its key and sits at
the same or a later serial position than the key. -/
def MProp (serial : List Int) (m : SMap) : Prop :=
  ∀ k l, smapFind m k = some l → ∀ q ∈ l, ¬ q = k ∧
    ∃ i j, i ≤ j ∧ serial.get? i = some k ∧ serial.get? j = some q

-- =======================================
-- C8: insertEdge failure behaviour
-- =======================================

/-- Claim C8 (code defect): insertEdge is claimed to return false when a
named resource is absent, leaving the graph unchanged.  In the source,
Pass::getResource returns the dereferenced find_if iterator without an
end check, so the null guards in insertEdge are dead code: with the
resource name z absent from pass A, the call dereferences the end
iterator (undefined behaviour, embedded as none) instead of returning
false. -/
theorem c8_insertEdge_absent_resource_ub :
    RenderGraph.insertEdge gC8 gC8passA "z" gC8passB "y" 50 = none ∧
    Pass.getResource gC8passA "z" = none ∧
    (RenderGraph.insertEdge gC8 gC8passA "x" gC8passA "x" 50 = some (gC8, 50, false)) := by
  decide

-- =======================================
-- C7: createCopy and edge identities
-- =======================================

/-- Claim C7 counterexample: the deep copy re-creates every edge through
insertEdge, which draws a fresh id from the id sequence.  The original
graph gC7 has the single edge id 500; its copy (counter at 900) has the
single edge id 900, so no edge of the copy carries the original edge
id. -/
theorem c7_counterexample :
    gC7.mEdges.map Edge.id = [500] ∧
    (RenderGraph.createCopy gC7 900).map
      (fun r => r.1.mEdges.map Edge.id) = some [900] := by
  decide

-- =======================================
-- C2: the multi-edge removal step removes nothing
-- =======================================

/-- Claim C2 counterexample: gC2 has two input edges with the same
(src.id, dst.id) pair; after the multi-edge removal step both are still
present in the shadow graph, so it is not true that all but one were
deleted. -/
theorem c2_counterexample :
    (RenderGraphCompiler.shadowAfterDedup gC2 50).map
      (fun r => (r.1.mEdges.filter (fun e => e.srcId = 0 ∧ e.dstId = 3)).length) =
      some 2 := by
  decide

-- =======================================
-- C1: a pass can appear in two tasks (as async partner)
-- =======================================

/-- Claim C1 counterexample: compiling gC1 with parallelization allowed
succeeds and emits the task list (Root, -), (a, q), (b, q), (Present, -):
the async pass q (id 6) occurs in two different tasks, because the
async-partner selection never consults the consumed set. -/
theorem c1_counterexample :
    (RenderGraphCompiler.compile gC1 { allowParallelization := true } 100).map
      (fun o => (o.hasFailed,
        o.phaseOutputs.map (fun p =>
          p.taskOrder.map (fun t => (t.pass.mId, t.asyncPass.map Pass.mId))))) =
    some (false, some [(0, none), (2, some 6), (4, some 6), (8, none)]) := by
  decide

-- =======================================
-- C6: a non-optimizable slot receives another resource
-- =======================================

/-- Claim C6 counterexample: compiling gC6 succeeds and produces a single
aliased slot: the slot appended for the non-optimizable Buffer resource
buf (id 4) also received the usage points of the Image resource img
(id 10), because the first-fit scan iterates over all slots including
the non-optimizable ones. -/
theorem c6_counterexample :
    (RenderGraphCompiler.compile gC6 {} 100).map
      (fun o => (o.hasFailed,
        o.phaseOutputs.map (fun p =>
          p.resourceOptimizer.generatedResources.map (fun s =>
            (s.type, s.originalResource.id,
             s.members.map (fun m => m.1),
             s.usagePoints.map (fun u => u.userResId)))))) =
    some (false, some [(ResourceType.Buffer, 4, [4, 10], [4, 6, 10, 12])]) := by
  rfl

-- =======================================
-- Generic helper lemmas
-- =======================================

theorem foldl_append_nil {α β : Type} (f : α → List β) :
    ∀ (l : List α) (acc : List β), (∀ x ∈ l, f x = []) →
      l.foldl (fun acc x => acc ++ f x) acc = acc := by
  intro l
  induction l with
  | nil => intro acc _; rfl
  | cons x t ih =>
      intro acc h
      simp only [List.foldl_cons, h x (List.mem_cons_self x t), List.append_nil]
      exact ih acc (fun y hy => h y (List.mem_cons_of_mem x hy))

-- =======================================
-- C2: amended — the removal step deletes nothing
-- =======================================

/-- Helper: the multi-edge removal step of getParallelizableTasks is a
no-op on graphs without self-edges. -/
theorem dedupStep_eq_createCopy (g : RenderGraph) (c : Int)
    (h : ∀ e ∈ g.mEdges, ¬ e.srcId = e.dstId) :
    RenderGraphCompiler.duplicateEdges g = [] ∧
    RenderGraphCompiler.shadowAfterDedup g c = RenderGraph.createCopy g c := by
  have hdup : RenderGraphCompiler.duplicateEdges g = [] := by
    unfold RenderGraphCompiler.duplicateEdges
    apply foldl_append_nil
    intro edge hedge
    rw [List.filter_eq_nil]
    intro e _
    simp only [decide_eq_true_eq, not_and]
    intro _ h1 h2
    exact h edge hedge (h1.trans h2.symm)
  refine ⟨hdup, ?_⟩
  unfold RenderGraphCompiler.shadowAfterDedup
  rw [hdup]
  cases hcc : RenderGraph.createCopy g c with
  | none => rfl
  | some r =>
      cases r with
      | mk sh c1 => simp [List.foldlM]

/-- Claim C2 (amended): due to the literal predicate comparing the
second endpoint against the first edge source, the multi-edge list is
empty for every graph without self-edges, so the shadow graph entering
the transitive-closure step is exactly the deep copy, with every
parallel edge retained. -/
theorem c2_amended (g : RenderGraph) (c : Int)
    (h : ∀ e ∈ g.mEdges, ¬ e.srcId = e.dstId) :
    RenderGraphCompiler.duplicateEdges g = [] ∧
    RenderGraphCompiler.shadowAfterDedup g c = RenderGraph.createCopy g c :=
  dedupStep_eq_createCopy g c h

/-- Witness for c2_amended at the concrete graph gC2. -/
theorem c2_amended_witness :
    RenderGraphCompiler.duplicateEdges gC2 = [] ∧
    RenderGraphCompiler.shadowAfterDedup gC2 50 = RenderGraph.createCopy gC2 50 :=
  c2_amended gC2 50 (by decide)

-- =======================================
-- C9: error propagation of the compile driver
-- =======================================

theorem cullNodes_error_shape {g : RenderGraph} {err : RGCompilerError}
    (h : RenderGraphCompiler.cullNodes g = .error err) :
    err = RGCompilerError.NoRootNode := by
  unfold RenderGraphCompiler.cullNodes at h
  cases hroot : RenderGraphCompiler.getRootNode g with
  | none => rw [hroot] at h; simp at h; exact h.symm
  | some root => rw [hroot] at h; simp at h

theorem serialOrder_error_shape {g : RenderGraph} {ids : List Int}
    {err : RGCompilerError}
    (h : RenderGraphCompiler.getSerialExecutionOrder g ids = some (.error err)) :
    err = RGCompilerError.CyclicDependency := by
  unfold RenderGraphCompiler.getSerialExecutionOrder at h
  split at h
  · simp at h
  · split at h
    · simp at h
    · simp only [Option.some.injEq, Except.error.injEq] at h
      exact h.symm
    · simp at h

/-- Claim C9: a graph without a sentinel Root pass compiles to a failed
output carrying NoRootNode and no phase outputs; and in general every
failed compile output carries a non-None failure reason and no phase
outputs (the driver short-circuits on the first failing phase). -/
theorem c9_compile_error_shape :
    (∀ (g : RenderGraph) (opts : RGCompilerOptions) (c : Int),
       (∀ p ∈ g.mVertices, ¬ (p.flags.sentinel = true ∧ p.name = rgRootPassName)) →
       RenderGraphCompiler.compile g opts c =
         some { hasFailed := true, failReason := RGCompilerError.NoRootNode }) ∧
    (∀ (g : RenderGraph) (opts : RGCompilerOptions) (c : Int)
       (out : RGCompilerOutput),
       RenderGraphCompiler.compile g opts c = some out → out.hasFailed = true →
       out.phaseOutputs = none ∧ ¬ out.failReason = RGCompilerError.None) := by
  constructor
  · intro g opts c hno
    have hroot : RenderGraphCompiler.getRootNode g = none := by
      unfold RenderGraphCompiler.getRootNode
      rw [List.find?_eq_none]
      intro p hp
      simp only [decide_eq_true_eq, not_and]
      intro hs hn
      exact hno p hp ⟨hs, hn⟩
    have hcull : RenderGraphCompiler.cullNodes g = .error RGCompilerError.NoRootNode := by
      unfold RenderGraphCompiler.cullNodes
      rw [hroot]
    unfold RenderGraphCompiler.compile
    rw [hcull]
    rfl
  · intro g opts c out h hfail
    unfold RenderGraphCompiler.compile at h
    split at h
    · next err heq =>
        simp only [Option.some.injEq] at h
        have herr := cullNodes_error_shape heq
        subst herr
        rw [← h]
        exact ⟨rfl, by simp [RenderGraphCompiler.createErrorOutput]⟩
    · next cullIds heq =>
        split at h
        · simp at h
        · next err heq2 =>
            simp only [Option.some.injEq] at h
            have herr := serialOrder_error_shape heq2
            subst herr
            rw [← h]
            exact ⟨rfl, by simp [RenderGraphCompiler.createErrorOutput]⟩
        · next serialOrder heq2 =>
            split at h
            · simp at h
            · next parMap c1 heq3 =>
                split at h
                · simp at h
                · next tasks parMap2 heq4 =>
                    split at h
                    · simp at h
                    · next optOut c2 heq5 =>
                        split at h
                        · simp at h
                        · next templates heq6 =>
                            simp only [Option.some.injEq] at h
                            rw [← h] at hfail
                            simp at hfail

/-- Witness for c9_compile_error_shape at the rootless graph gC9. -/
theorem c9_witness :
    RenderGraphCompiler.compile gC9 { allowParallelization := false } 7 =
      some { hasFailed := true, failReason := RGCompilerError.NoRootNode } :=
  c9_compile_error_shape.1 gC9 { allowParallelization := false } 7 (by decide)

-- =======================================
-- Projection lemmas for graph mutation
-- =======================================

theorem listUpdateFirst_map_proj (p : Pass → Bool) (f : Pass → Pass)
    (hf : ∀ x, passProj (f x) = passProj x) :
    ∀ l : List Pass, (listUpdateFirst p f l).map passProj = l.map passProj := by
  intro l
  induction l with
  | nil => rfl
  | cons x t ih =>
      unfold listUpdateFirst
      by_cases hx : p x
      · simp [hx, hf x]
      · simp [hx, ih]

theorem updatePassById_proj (g : RenderGraph) (id : Int) (f : Pass → Pass)
    (hf : ∀ x, passProj (f x) = passProj x) :
    (g.updatePassById id f).mVertices.map passProj = g.mVertices.map passProj ∧
    (g.updatePassById id f).mEdges = g.mEdges :=
  ⟨listUpdateFirst_map_proj _ f hf g.mVertices, rfl⟩

theorem find?_congr_proj (q : Int × String × PassFlags × List Resource → Bool) :
    ∀ (l1 l2 : List Pass), l1.map passProj = l2.map passProj →
      (l1.find? (fun a => q (passProj a))).map passProj =
        (l2.find? (fun a => q (passProj a))).map passProj := by
  intro l1
  induction l1 with
  | nil =>
      intro l2 h
      cases l2 with
      | nil => rfl
      | cons b t2 => simp at h
  | cons a t1 ih =>
      intro l2 h
      cases l2 with
      | nil => simp at h
      | cons b t2 =>
          simp only [List.map_cons, List.cons.injEq] at h
          simp only [List.find?_cons]
          rw [h.1]
          by_cases hq : q (passProj b)
          · simp [hq, h.1]
          · simp only [hq, Bool.false_eq_true, if_neg, cond_false]
            exact ih t2 h.2

theorem getPassById_proj {g1 g2 : RenderGraph} (id : Int)
    (h : g1.mVertices.map passProj = g2.mVertices.map passProj) :
    (g1.getPassById id).map passProj = (g2.getPassById id).map passProj :=
  find?_congr_proj (fun x => decide (id = x.1)) g1.mVertices g2.mVertices h

theorem getPassById_mId {g : RenderGraph} {id : Int} {p : Pass}
    (h : g.getPassById id = some p) : p.mId = id ∧ p ∈ g.mVertices := by
  unfold RenderGraph.getPassById at h
  have h1 := List.find?_some h
  have h2 := List.mem_of_find?_eq_some h
  simp only [decide_eq_true_eq] at h1
  exact ⟨h1.symm, h2⟩

theorem insertEdge_some_spec (g : RenderGraph) (c : Int) {src : Pass}
    {srcRes : String} {dst : Pass} {dstRes : String} {rs rd : Resource}
    (hne : ¬ src.mId = dst.mId)
    (hs : src.getResource srcRes = some rs) (hd : dst.getResource dstRes = some rd) :
    ∃ g', g.insertEdge src srcRes dst dstRes c = some (g', c + 1, true) ∧
      g'.mVertices.map passProj = g.mVertices.map passProj ∧
      g'.mEdges = g.mEdges ++
        [(⟨c, src.mId, dst.mId, rs.id, rs.name, rd.id, rd.name⟩ : Edge)] := by
  unfold RenderGraph.insertEdge
  rw [if_neg hne, hs, hd]
  refine ⟨_, rfl, ?_, ?_⟩
  · have h1 := updatePassById_proj g src.mId
      (fun p => { p with mOutgoingEdges := p.mOutgoingEdges ++ [dst.mId] })
      (fun x => rfl)
    have h2 := updatePassById_proj (g.updatePassById src.mId
        (fun p => { p with mOutgoingEdges := p.mOutgoingEdges ++ [dst.mId] })) dst.mId
      (fun p => { p with mIncomingEdges := p.mIncomingEdges ++ [src.mId] })
      (fun x => rfl)
    exact h2.1.trans h1.1
  · have h1 := updatePassById_proj g src.mId
      (fun p => { p with mOutgoingEdges := p.mOutgoingEdges ++ [dst.mId] })
      (fun x => rfl)
    have h2 := updatePassById_proj (g.updatePassById src.mId
        (fun p => { p with mOutgoingEdges := p.mOutgoingEdges ++ [dst.mId] })) dst.mId
      (fun p => { p with mIncomingEdges := p.mIncomingEdges ++ [src.mId] })
      (fun x => rfl)
    simp only [h2.2, h1.2]

/-- Unpack the Bool edge-sanity check into its propositional content. -/
theorem edgesResolve_spec {g : RenderGraph} (h : g.edgesResolveB = true) :
    ∀ e ∈ g.mEdges, ¬ e.srcId = e.dstId ∧
      (∃ s rs, g.getPassById e.srcId = some s ∧ s.getResource e.srcResName = some rs ∧
         rs.id = e.srcResId ∧ rs.name = e.srcResName) ∧
      (∃ d rd, g.getPassById e.dstId = some d ∧ d.getResource e.dstResName = some rd ∧
         rd.id = e.dstResId ∧ rd.name = e.dstResName) := by
  intro e he
  unfold RenderGraph.edgesResolveB at h
  rw [List.all_eq_true] at h
  have he2 := h e he
  simp only [Bool.and_eq_true, Bool.not_eq_true'] at he2
  obtain ⟨⟨hne, hsrc⟩, hdst⟩ := he2
  refine ⟨by simpa using hne, ?_, ?_⟩
  · cases hgs : g.getPassById e.srcId with
    | none => rw [hgs] at hsrc; simp [Option.any] at hsrc
    | some s =>
        rw [hgs] at hsrc
        simp only [Option.any_some] at hsrc
        cases hrs : s.getResource e.srcResName with
        | none => rw [hrs] at hsrc; simp [Option.any] at hsrc
        | some rs =>
            rw [hrs] at hsrc
            simp only [Option.any_some, Bool.and_eq_true, beq_iff_eq] at hsrc
            exact ⟨s, rs, rfl, hrs, hsrc.1, hsrc.2⟩
  · cases hgd : g.getPassById e.dstId with
    | none => rw [hgd] at hdst; simp [Option.any] at hdst
    | some d =>
        rw [hgd] at hdst
        simp only [Option.any_some] at hdst
        cases hrd : d.getResource e.dstResName with
        | none => rw [hrd] at hdst; simp [Option.any] at hdst
        | some rd =>
            rw [hrd] at hdst
            simp only [Option.any_some, Bool.and_eq_true, beq_iff_eq] at hdst
            exact ⟨d, rd, rfl, hrd, hdst.1, hdst.2⟩

/-- getResource only reads the dependencies, which passProj exposes. -/
theorem getResource_proj {p q : Pass} (h : passProj p = passProj q) (n : String) :
    p.getResource n = q.getResource n := by
  unfold Pass.getResource
  have : p.dependencies = q.dependencies := congrArg (fun x => x.2.2.2) h
  rw [this]

theorem proj_mId {p q : Pass} (h : passProj p = passProj q) : p.mId = q.mId :=
  congrArg (fun x => x.1) h

/-- The edge loop of createCopy: under the edge-sanity hypothesis it
runs to completion, preserves the pass projections, reproduces every
edge signature and stamps the consecutive counter values as edge ids. -/
theorem createCopy_loop (g : RenderGraph) (hE : g.edgesResolveB = true) :
    ∀ (rest : List Edge) (cur : RenderGraph) (c : Int),
      (∀ e ∈ rest, e ∈ g.mEdges) →
      cur.mVertices.map passProj = g.mVertices.map passProj →
      ∃ copy, rest.foldlM RenderGraph.createCopyStep (cur, c) =
          some (copy, c + Int.ofNat rest.length) ∧
        copy.mVertices.map passProj = g.mVertices.map passProj ∧
        copy.mEdges.map edgeSig = cur.mEdges.map edgeSig ++ rest.map edgeSig ∧
        copy.mEdges.map Edge.id =
          cur.mEdges.map Edge.id ++ (List.range rest.length).map (fun i => c + Int.ofNat i) := by
  intro rest
  induction rest with
  | nil =>
      intro cur c _ hproj
      exact ⟨cur, by simp, hproj, by simp, by simp⟩
  | cons e rest' ih =>
      intro cur c hmem hproj
      obtain ⟨hne, ⟨s, rs, hgs, hrs, hrsid, hrsname⟩, ⟨d, rd, hgd, hrd, hrdid, hrdname⟩⟩ :=
        edgesResolve_spec hE e (hmem e (List.mem_cons_self e rest'))
      have hps := getPassById_proj e.srcId hproj
      rw [hgs] at hps
      have hpd := getPassById_proj e.dstId hproj
      rw [hgd] at hpd
      cases hcs : cur.getPassById e.srcId with
      | none => rw [hcs] at hps; simp at hps
      | some s2 =>
      cases hcd : cur.getPassById e.dstId with
      | none => rw [hcd] at hpd; simp at hpd
      | some d2 =>
      rw [hcs] at hps
      rw [hcd] at hpd
      replace hps : passProj s2 = passProj s := by simpa using hps
      replace hpd : passProj d2 = passProj d := by simpa using hpd
      have hs2 : s2.getResource e.srcResName = some rs :=
        (getResource_proj hps e.srcResName).trans hrs
      have hd2 : d2.getResource e.dstResName = some rd :=
        (getResource_proj hpd e.dstResName).trans hrd
      have hs2id : s2.mId = e.srcId := (getPassById_mId hcs).1
      have hd2id : d2.mId = e.dstId := (getPassById_mId hcd).1
      have hne2 : ¬ s2.mId = d2.mId := by
        rw [hs2id, hd2id]; exact hne
      obtain ⟨g2, hins, hproj2, hedges2⟩ := insertEdge_some_spec cur c hne2 hs2 hd2
      have hstep : RenderGraph.createCopyStep (cur, c) e = some (g2, c + 1) := by
        unfold RenderGraph.createCopyStep
        simp only [hcs, hcd]
        rw [hins]
        rfl
      obtain ⟨copy, hfold, hproj3, hsig3, hids3⟩ :=
        ih g2 (c + 1) (fun x hx => hmem x (List.mem_cons_of_mem e hx))
          (hproj2.trans hproj)
      refine ⟨copy, ?_, hproj3, ?_, ?_⟩
      · rw [List.foldlM_cons, hstep]
        simp only [Option.bind_eq_bind, Option.some_bind]
        rw [hfold]
        congr 2
        simp only [List.length_cons, Int.ofNat_eq_natCast]
        push_cast
        ring
      · rw [hsig3, hedges2]
        simp only [List.map_append, List.map_cons, List.map_nil, List.append_assoc,
          List.cons_append, List.nil_append]
        congr 2
        unfold edgeSig
        simp only [hs2id, hd2id, hrsid, hrsname, hrdid, hrdname]
      · rw [hids3, hedges2]
        simp only [List.map_append, List.map_cons, List.map_nil, List.length_cons,
          List.append_assoc, List.cons_append, List.nil_append]
        congr 1
        rw [List.range_succ_eq_map, List.map_cons, List.map_map]
        congr 1
        · simp
        · apply List.map_congr_left
          intro a _
          simp only [Function.comp_apply, Int.ofNat_eq_natCast]
          push_cast
          ring

/-- Helper: full specification of createCopy under the edge-sanity
hypothesis. -/
theorem createCopy_spec (g : RenderGraph) (c : Int) (hE : g.edgesResolveB = true) :
    ∃ copy, RenderGraph.createCopy g c = some (copy, c + Int.ofNat g.mEdges.length) ∧
      copy.mVertices.map passProj = g.mVertices.map passProj ∧
      copy.mEdges.map edgeSig = g.mEdges.map edgeSig ∧
      copy.mEdges.map Edge.id =
        (List.range g.mEdges.length).map (fun i => c + Int.ofNat i) := by
  have hproj0 : (g.mVertices.map (fun node =>
      ({ mId := node.mId, name := node.name, flags := node.flags,
         dependencies := node.dependencies } : Pass))).map passProj =
      g.mVertices.map passProj := by
    rw [List.map_map]
    rfl
  obtain ⟨copy, hfold, hproj, hsig, hids⟩ :=
    createCopy_loop g hE g.mEdges
      { mVertices := g.mVertices.map (fun node =>
          { mId := node.mId, name := node.name, flags := node.flags,
            dependencies := node.dependencies }),
        mEdges := [] } c (fun _ hx => hx) hproj0
  exact ⟨copy, hfold, hproj, by simpa using hsig, by simpa using hids⟩

/-- Claim C7 (amended): the deep copy preserves the pass data (ids,
names, flags, declared resources) and reproduces every edge with the
same endpoints and resource ids and names (edgeSig); the copied edges
carry fresh consecutive ids drawn from the id sequence instead of the
original edge ids. -/
theorem c7_amended (g : RenderGraph) (c : Int) (hE : g.edgesResolveB = true) :
    ∃ copy, RenderGraph.createCopy g c = some (copy, c + Int.ofNat g.mEdges.length) ∧
      copy.mVertices.map passProj = g.mVertices.map passProj ∧
      copy.mEdges.map edgeSig = g.mEdges.map edgeSig ∧
      copy.mEdges.map Edge.id =
        (List.range g.mEdges.length).map (fun i => c + Int.ofNat i) :=
  createCopy_spec g c hE

/-- Witness for c7_amended at the concrete graph gC7. -/
theorem c7_amended_witness :
    ∃ copy, RenderGraph.createCopy gC7 900 = some (copy, 900 + Int.ofNat gC7.mEdges.length) ∧
      copy.mVertices.map passProj = gC7.mVertices.map passProj ∧
      copy.mEdges.map edgeSig = gC7.mEdges.map edgeSig ∧
      copy.mEdges.map Edge.id =
        (List.range gC7.mEdges.length).map (fun i => 900 + Int.ofNat i) :=
  c7_amended gC7 900 (by decide)

-- =======================================
-- C10: totality of the parallelism analysis
-- =======================================

theorem getPassById_isSome_iff {g : RenderGraph} {x : Int} :
    (g.getPassById x).isSome = true ↔ ∃ p ∈ g.mVertices, p.mId = x := by
  unfold RenderGraph.getPassById
  rw [List.find?_isSome]
  constructor
  · rintro ⟨p, hp, hpred⟩
    simp only [decide_eq_true_eq] at hpred
    exact ⟨p, hp, hpred.symm⟩
  · rintro ⟨p, hp, hpred⟩
    exact ⟨p, hp, by simp [hpred]⟩

theorem getPassById_isSome_proj {g1 g2 : RenderGraph} (x : Int)
    (h : g1.mVertices.map passProj = g2.mVertices.map passProj) :
    (g1.getPassById x).isSome = (g2.getPassById x).isSome := by
  have := getPassById_proj x h
  cases h1 : g1.getPassById x with
  | none => cases h2 : g2.getPassById x with
    | none => rfl
    | some p => rw [h1, h2] at this; simp at this
  | some p => cases h2 : g2.getPassById x with
    | none => rw [h1, h2] at this; simp at this
    | some q => rfl

theorem deps_nonempty_proj {g1 g2 : RenderGraph}
    (h : g1.mVertices.map passProj = g2.mVertices.map passProj)
    (hd : ∀ p ∈ g2.mVertices, p.dependencies ≠ []) :
    ∀ p ∈ g1.mVertices, p.dependencies ≠ [] := by
  intro p hp
  have hx : passProj p ∈ g2.mVertices.map passProj := by
    rw [← h]
    exact List.mem_map_of_mem passProj hp
  obtain ⟨q, hq, hqe⟩ := List.mem_map.mp hx
  have : p.dependencies = q.dependencies := congrArg (fun x => x.2.2.2) hqe.symm
  rw [this]
  exact hd q hq

/-- A pass always finds its own first dependency by name. -/
theorem getResource_head {p : Pass} {r : Resource} (h : p.dependencies.head? = some r) :
    (p.getResource r.name).isSome = true := by
  unfold Pass.getResource
  rw [List.find?_isSome]
  exact ⟨r, List.mem_of_mem_head? h, by simp⟩

theorem closureInner_total (aId : Int) :
    ∀ (bs : List Int) (sh : RenderGraph) (c : Int),
      (sh.getPassById aId).isSome = true →
      (∀ b ∈ bs, (sh.getPassById b).isSome = true) →
      (∀ p ∈ sh.mVertices, p.dependencies ≠ []) →
      ∃ sh2 c2, RenderGraphCompiler.closureInner aId bs sh c = some (sh2, c2) ∧
        sh2.mVertices.map passProj = sh.mVertices.map passProj := by
  intro bs
  induction bs with
  | nil =>
      intro sh c _ _ _
      exact ⟨sh, c, rfl, rfl⟩
  | cons b t ih =>
      intro sh c ha hb hd
      obtain ⟨pa, hpa⟩ := Option.isSome_iff_exists.mp ha
      obtain ⟨pb, hpb⟩ := Option.isSome_iff_exists.mp (hb b (List.mem_cons_self b t))
      unfold RenderGraphCompiler.closureInner
      simp only [hpa, hpb]
      by_cases hcond : ¬ aId = b ∧ BFS.hasPath sh pa pb = true
      · rw [if_pos hcond]
        have hmem := (getPassById_mId hpa).2
        have hmemb := (getPassById_mId hpb).2
        cases hdep : pa.dependencies with
        | nil => exact absurd hdep (hd pa hmem)
        | cons ra ta =>
        cases hdepb : pb.dependencies with
        | nil => exact absurd hdepb (hd pb hmemb)
        | cons rb tb =>
        have hra : pa.dependencies.head? = some ra := by rw [hdep]; rfl
        have hrb : pb.dependencies.head? = some rb := by rw [hdepb]; rfl
        simp only [List.head?_cons]
        obtain ⟨rs, hrs⟩ := Option.isSome_iff_exists.mp (getResource_head hra)
        obtain ⟨rd, hrd⟩ := Option.isSome_iff_exists.mp (getResource_head hrb)
        have hne : ¬ pa.mId = pb.mId := by
          rw [(getPassById_mId hpa).1, (getPassById_mId hpb).1]
          exact hcond.1
        obtain ⟨g2, hins, hproj2, _⟩ := insertEdge_some_spec sh c hne hrs hrd
        simp only [hins]
        obtain ⟨sh3, c3, hrec, hproj3⟩ := ih g2 (c + 1)
          (by rw [getPassById_isSome_proj aId hproj2]; exact ha)
          (fun x hx => by
            rw [getPassById_isSome_proj x hproj2]
            exact hb x (List.mem_cons_of_mem b hx))
          (deps_nonempty_proj hproj2 hd)
        exact ⟨sh3, c3, hrec, hproj3.trans hproj2⟩
      · rw [if_neg hcond]
        exact ih sh c ha (fun x hx => hb x (List.mem_cons_of_mem b hx)) hd

theorem closureOuter_total (ids : List Int) :
    ∀ (as2 : List Int) (sh : RenderGraph) (c : Int),
      (∀ a ∈ as2, (sh.getPassById a).isSome = true) →
      (∀ b ∈ ids, (sh.getPassById b).isSome = true) →
      (∀ p ∈ sh.mVertices, p.dependencies ≠ []) →
      ∃ sh2 c2, RenderGraphCompiler.closureOuter ids as2 sh c = some (sh2, c2) ∧
        sh2.mVertices.map passProj = sh.mVertices.map passProj := by
  intro as2
  induction as2 with
  | nil =>
      intro sh c _ _ _
      exact ⟨sh, c, rfl, rfl⟩
  | cons a t ih =>
      intro sh c ha hb hd
      obtain ⟨sh2, c2, hin, hproj⟩ :=
        closureInner_total a ids sh c (ha a (List.mem_cons_self a t)) hb hd
      unfold RenderGraphCompiler.closureOuter
      simp only [hin]
      obtain ⟨sh3, c3, hout, hproj3⟩ := ih sh2 c2
        (fun x hx => by
          rw [getPassById_isSome_proj x hproj]
          exact ha x (List.mem_cons_of_mem a hx))
        (fun x hx => by
          rw [getPassById_isSome_proj x hproj]
          exact hb x hx)
        (deps_nonempty_proj hproj hd)
      exact ⟨sh3, c3, hout, hproj3.trans hproj⟩

theorem mapM_isSome {α β : Type} (f : α → Option β) :
    ∀ l : List α, (∀ x ∈ l, (f x).isSome = true) → ∃ ys, l.mapM f = some ys := by
  intro l
  induction l with
  | nil => exact fun _ => ⟨[], rfl⟩
  | cons x t ih =>
      intro h
      obtain ⟨y, hy⟩ := Option.isSome_iff_exists.mp (h x (List.mem_cons_self x t))
      obtain ⟨ys, hys⟩ := ih (fun z hz => h z (List.mem_cons_of_mem x hz))
      refine ⟨y :: ys, ?_⟩
      rw [List.mapM_cons, hy, hys]
      rfl

/-- Claim C10: with every pass declaring at least one resource (and the
builder-guaranteed edge sanity and resolvable serial ids), the
transitive closure step dereferences dependencies[0] only in bounds and
getParallelizableTasks is total: the undefined-behaviour branch of the
embedding is unreachable. -/
theorem c10_parallelizable_total (g : RenderGraph) (serialIds : List Int) (c : Int)
    (hdeps : ∀ p ∈ g.mVertices, p.dependencies ≠ [])
    (hE : g.edgesResolveB = true)
    (hS : ∀ s ∈ serialIds, (g.getPassById s).isSome = true) :
    (RenderGraphCompiler.getParallelizableTasks g serialIds c).isSome = true := by
  have hself : ∀ e ∈ g.mEdges, ¬ e.srcId = e.dstId :=
    fun e he => (edgesResolve_spec hE e he).1
  obtain ⟨copy, hcc, hproj, _, _⟩ := createCopy_spec g c hE
  have hshadow : RenderGraphCompiler.shadowAfterDedup g c =
      some (copy, c + Int.ofNat g.mEdges.length) := by
    rw [(dedupStep_eq_createCopy g c hself).2, hcc]
  unfold RenderGraphCompiler.getParallelizableTasks
  simp only [hshadow]
  have hids : ∀ b ∈ copy.mVertices.map (fun p => p.mId),
      (copy.getPassById b).isSome = true := by
    intro b hb
    obtain ⟨p, hp, hpe⟩ := List.mem_map.mp hb
    exact getPassById_isSome_iff.mpr ⟨p, hp, hpe⟩
  obtain ⟨sh2, c2, hout, hproj2⟩ :=
    closureOuter_total (copy.mVertices.map (fun p => p.mId))
      (copy.mVertices.map (fun p => p.mId)) copy (c + Int.ofNat g.mEdges.length)
      hids hids (deps_nonempty_proj hproj hdeps)
  simp only [hout]
  obtain ⟨ns, hns⟩ := mapM_isSome (fun id => sh2.getPassById id) serialIds
    (fun s hs => by
      rw [getPassById_isSome_proj s (hproj2.trans hproj)]
      exact hS s hs)
  simp only [hns]
  rfl

/-- Witness for c10_parallelizable_total at the repository example. -/
theorem c10_witness :
    (RenderGraphCompiler.getParallelizableTasks exampleGraph [0, 2, 8, 13, 17, 21] 100).isSome
      = true :=
  c10_parallelizable_total exampleGraph [0, 2, 8, 13, 17, 21] 100
    (by decide) (by decide) (by decide)

-- =======================================
-- Usage-point set lemmas
-- =======================================

theorem upsInsert_subset_left {s : List UsagePoint} {x : UsagePoint} (u : UsagePoint)
    (h : x ∈ s) : x ∈ upsInsert s u := by
  induction s with
  | nil => simp at h
  | cons p t ih =>
      unfold upsInsert
      by_cases h1 : u.point < p.point
      · simp only [if_pos h1]
        exact List.mem_cons_of_mem u h
      · simp only [if_neg h1]
        by_cases h2 : u.point = p.point
        · simp only [if_pos h2]
          exact h
        · simp only [if_neg h2]
          rcases List.mem_cons.mp h with h3 | h3
          · exact h3 ▸ List.mem_cons_self p _
          · exact List.mem_cons_of_mem p (ih h3)

theorem upsInsert_nonempty (s : List UsagePoint) (u : UsagePoint) :
    upsInsert s u ≠ [] := by
  cases s with
  | nil => simp [upsInsert]
  | cons p t =>
      unfold upsInsert
      by_cases h1 : u.point < p.point
      · simp [if_pos h1]
      · simp only [if_neg h1]
        by_cases h2 : u.point = p.point
        · simp [if_pos h2]
        · simp [if_neg h2]

theorem upsInsert_point (s : List UsagePoint) (u : UsagePoint) :
    ∃ y ∈ upsInsert s u, y.point = u.point := by
  induction s with
  | nil => exact ⟨u, by simp [upsInsert], rfl⟩
  | cons p t ih =>
      unfold upsInsert
      by_cases h1 : u.point < p.point
      · exact ⟨u, by simp [if_pos h1], rfl⟩
      · simp only [if_neg h1]
        by_cases h2 : u.point = p.point
        · exact ⟨p, by simp [if_pos h2], h2.symm⟩
        · simp only [if_neg h2]
          obtain ⟨y, hy, hyp⟩ := ih
          exact ⟨y, List.mem_cons_of_mem p hy, hyp⟩

theorem foldl_upsInsert_subset_left (pts : List UsagePoint) :
    ∀ (s : List UsagePoint) (x : UsagePoint), x ∈ s → x ∈ pts.foldl upsInsert s := by
  induction pts with
  | nil => exact fun s x h => h
  | cons p t ih =>
      intro s x h
      exact ih (upsInsert s p) x (upsInsert_subset_left p h)

theorem foldl_upsInsert_nonempty (pts : List UsagePoint) :
    ∀ s : List UsagePoint, s ≠ [] → pts.foldl upsInsert s ≠ [] := by
  induction pts with
  | nil => exact fun s h => h
  | cons p t ih =>
      intro s _
      exact ih (upsInsert s p) (upsInsert_nonempty s p)

theorem foldl_upsInsert_point (pts : List UsagePoint) :
    ∀ (s : List UsagePoint) (q : UsagePoint), q ∈ pts →
      ∃ y ∈ pts.foldl upsInsert s, y.point = q.point := by
  induction pts with
  | nil => intro s q h; simp at h
  | cons p t ih =>
      intro s q hq
      rcases List.mem_cons.mp hq with h | h
      · obtain ⟨y, hy, hyp⟩ := upsInsert_point s p
        exact ⟨y, foldl_upsInsert_subset_left t (upsInsert s p) y hy, by rw [hyp, h]⟩
      · exact ih (upsInsert s p) q h

-- =======================================
-- Range lemmas
-- =======================================

theorem foldl_minP_le_init (t : List UsagePoint) :
    ∀ a : Int, t.foldl (fun a q => min a q.point) a ≤ a := by
  induction t with
  | nil => exact fun a => le_refl a
  | cons p r ih =>
      intro a
      exact le_trans (ih (min a p.point)) (min_le_left a p.point)

theorem foldl_minP_le_mem (t : List UsagePoint) :
    ∀ (a : Int) (q : UsagePoint), q ∈ t →
      t.foldl (fun a q => min a q.point) a ≤ q.point := by
  induction t with
  | nil => intro a q h; simp at h
  | cons p r ih =>
      intro a q hq
      rcases List.mem_cons.mp hq with h | h
      · subst h
        exact le_trans (foldl_minP_le_init r (min a q.point)) (min_le_right a q.point)
      · exact ih (min a p.point) q h

theorem foldl_maxP_init_le (t : List UsagePoint) :
    ∀ a : Int, a ≤ t.foldl (fun a q => max a q.point) a := by
  induction t with
  | nil => exact fun a => le_refl a
  | cons p r ih =>
      intro a
      exact le_trans (le_max_left a p.point) (ih (max a p.point))

theorem foldl_maxP_mem_le (t : List UsagePoint) :
    ∀ (a : Int) (q : UsagePoint), q ∈ t →
      q.point ≤ t.foldl (fun a q => max a q.point) a := by
  induction t with
  | nil => intro a q h; simp at h
  | cons p r ih =>
      intro a q hq
      rcases List.mem_cons.mp hq with h | h
      · subst h
        exact le_trans (le_max_right a q.point) (foldl_maxP_init_le r (max a q.point))
      · exact ih (max a p.point) q h

theorem foldl_minP_attained (t : List UsagePoint) :
    ∀ a : Int, t.foldl (fun a q => min a q.point) a = a ∨
      ∃ q ∈ t, t.foldl (fun a q => min a q.point) a = q.point := by
  induction t with
  | nil => exact fun a => Or.inl rfl
  | cons p r ih =>
      intro a
      rcases ih (min a p.point) with h | ⟨q, hq, hqe⟩
      · rcases min_cases a p.point with ⟨hm, _⟩ | ⟨hm, _⟩
        · exact Or.inl (by rw [List.foldl_cons, h, hm])
        · exact Or.inr ⟨p, List.mem_cons_self p r, by rw [List.foldl_cons, h, hm]⟩
      · exact Or.inr ⟨q, List.mem_cons_of_mem p hq, by rw [List.foldl_cons, hqe]⟩

theorem foldl_maxP_attained (t : List UsagePoint) :
    ∀ a : Int, t.foldl (fun a q => max a q.point) a = a ∨
      ∃ q ∈ t, t.foldl (fun a q => max a q.point) a = q.point := by
  induction t with
  | nil => exact fun a => Or.inl rfl
  | cons p r ih =>
      intro a
      rcases ih (max a p.point) with h | ⟨q, hq, hqe⟩
      · rcases max_cases a p.point with ⟨hm, _⟩ | ⟨hm, _⟩
        · exact Or.inl (by rw [List.foldl_cons, h, hm])
        · exact Or.inr ⟨p, List.mem_cons_self p r, by rw [List.foldl_cons, h, hm]⟩
      · exact Or.inr ⟨q, List.mem_cons_of_mem p hq, by rw [List.foldl_cons, hqe]⟩

theorem rangeOfPoints_start_le {pts : List UsagePoint} {q : UsagePoint} (h : q ∈ pts) :
    (rangeOfPoints pts).start ≤ q.point := by
  cases pts with
  | nil => simp at h
  | cons p t =>
      unfold rangeOfPoints
      rcases List.mem_cons.mp h with h1 | h1
      · subst h1
        exact foldl_minP_le_init t q.point
      · exact foldl_minP_le_mem t p.point q h1

theorem rangeOfPoints_le_stop {pts : List UsagePoint} {q : UsagePoint} (h : q ∈ pts) :
    q.point ≤ (rangeOfPoints pts).stop := by
  cases pts with
  | nil => simp at h
  | cons p t =>
      unfold rangeOfPoints
      rcases List.mem_cons.mp h with h1 | h1
      · subst h1
        exact foldl_maxP_init_le t q.point
      · exact foldl_maxP_mem_le t p.point q h1

theorem rangeOfPoints_start_attained {pts : List UsagePoint} (h : pts ≠ []) :
    ∃ q ∈ pts, q.point = (rangeOfPoints pts).start := by
  cases pts with
  | nil => exact absurd rfl h
  | cons p t =>
      unfold rangeOfPoints
      rcases foldl_minP_attained t p.point with h1 | ⟨q, hq, hqe⟩
      · exact ⟨p, List.mem_cons_self p t, h1.symm⟩
      · exact ⟨q, List.mem_cons_of_mem p hq, hqe.symm⟩

theorem rangeOfPoints_stop_attained {pts : List UsagePoint} (h : pts ≠ []) :
    ∃ q ∈ pts, q.point = (rangeOfPoints pts).stop := by
  cases pts with
  | nil => exact absurd rfl h
  | cons p t =>
      unfold rangeOfPoints
      rcases foldl_maxP_attained t p.point with h1 | ⟨q, hq, hqe⟩
      · exact ⟨p, List.mem_cons_self p t, h1.symm⟩
      · exact ⟨q, List.mem_cons_of_mem p hq, hqe.symm⟩

theorem overlaps_of_within {A H B : Range} (h1 : H.start ≤ A.start)
    (h2 : A.stop ≤ H.stop) (h : H.overlaps B = false) : A.overlaps B = false := by
  simp only [Range.overlaps, decide_eq_false_iff_not, not_le] at h
  simp only [Range.overlaps, decide_eq_false_iff_not, not_le]
  omega

-- =======================================
-- Slot invariant through the first-fit scan
-- =======================================

theorem head?_append_of_ne_nil {α : Type} {l : List α} (l2 : List α) (h : l ≠ []) :
    (l ++ l2).head? = l.head? := by
  cases l with
  | nil => exact absurd rfl h
  | cons x t => rfl

theorem foldl_upsInsertF_nonempty {α : Type} (f : α → UsagePoint) (l : List α) :
    ∀ s : List UsagePoint, s ≠ [] → l.foldl (fun s c => upsInsert s (f c)) s ≠ [] := by
  induction l with
  | nil => exact fun s h => h
  | cons x t ih =>
      intro s _
      exact ih (upsInsert s (f x)) (upsInsert_nonempty s (f x))

theorem getUsagePoints_nonempty (info : ResourceInfo) :
    getUsagePointsForResourceInfo info ≠ [] := by
  unfold getUsagePointsForResourceInfo
  exact foldl_upsInsertF_nonempty UsagePoint.ofConsumer info.consumers
    (upsInsert [] (UsagePoint.ofInfo info)) (upsInsert_nonempty [] (UsagePoint.ofInfo info))

theorem insertUsagePoints_true {slot : RGOptResource} {pts : List UsagePoint}
    (hins : (slot.insertUsagePoints pts).2 = true) :
    slot.insertUsagePoints pts =
      ({ slot with usagePoints := pts.foldl upsInsert slot.usagePoints }, true) := by
  unfold RGOptResource.insertUsagePoints at hins ⊢
  by_cases hcol : pts.any (fun p => slot.usagePoints.any (fun q => q.point = p.point)) = true
  · rw [if_pos hcol] at hins; simp at hins
  · rw [if_neg hcol]

theorem insertUsagePoints_false {slot : RGOptResource} {pts : List UsagePoint}
    (hins : (slot.insertUsagePoints pts).2 = false) :
    slot.insertUsagePoints pts = (slot, false) := by
  unfold RGOptResource.insertUsagePoints at hins ⊢
  by_cases hcol : pts.any (fun p => slot.usagePoints.any (fun q => q.point = p.point)) = true
  · rw [if_pos hcol]
  · rw [if_neg hcol] at hins; simp at hins

theorem tryInsert_inv (pts : List UsagePoint) (resId : Int) (hpts : pts ≠ []) :
    ∀ slots : List RGOptResource, (∀ s ∈ slots, slotInv s) →
      (∀ s ∈ (RenderGraphResourceOptimizer.tryInsert pts (rangeOfPoints pts) resId slots).1,
         slotInv s) ∧
      (∀ s ∈ slots,
         ∃ s2 ∈ (RenderGraphResourceOptimizer.tryInsert pts (rangeOfPoints pts) resId slots).1,
           s2.originalResource = s.originalResource ∧ s2.members.head? = s.members.head?) := by
  intro slots
  induction slots with
  | nil => exact fun _ => ⟨fun s h => by simp [RenderGraphResourceOptimizer.tryInsert] at h,
      fun s h => by simp at h⟩
  | cons slot rest ih =>
      intro hinv
      obtain ⟨hdisj, hmne, hune, hcover⟩ := hinv slot (List.mem_cons_self slot rest)
      obtain ⟨ihA, ihB⟩ := ih (fun s hs => hinv s (List.mem_cons_of_mem slot hs))
      unfold RenderGraphResourceOptimizer.tryInsert
      by_cases hov : slot.getUsageRange.overlaps (rangeOfPoints pts) = false
      · rw [if_pos hov]
        by_cases hins : (slot.insertUsagePoints pts).2 = true
        · -- the points fit into this slot
          rw [insertUsagePoints_true hins]
          simp only [if_pos]
          set newPts := pts.foldl upsInsert slot.usagePoints with hnew
          have hsubL : ∀ x ∈ slot.usagePoints, x ∈ newPts :=
            fun x hx => foldl_upsInsert_subset_left pts slot.usagePoints x hx
          have hne2 : newPts ≠ [] := foldl_upsInsert_nonempty pts slot.usagePoints hune
          have hstartOld : (rangeOfPoints newPts).start ≤ (rangeOfPoints slot.usagePoints).start := by
            obtain ⟨q, hq, hqe⟩ := rangeOfPoints_start_attained hune
            rw [← hqe]
            exact rangeOfPoints_start_le (hsubL q hq)
          have hstopOld : (rangeOfPoints slot.usagePoints).stop ≤ (rangeOfPoints newPts).stop := by
            obtain ⟨q, hq, hqe⟩ := rangeOfPoints_stop_attained hune
            rw [← hqe]
            exact rangeOfPoints_le_stop (hsubL q hq)
          have hstartInc : (rangeOfPoints newPts).start ≤ (rangeOfPoints pts).start := by
            obtain ⟨q, hq, hqe⟩ := rangeOfPoints_start_attained hpts
            obtain ⟨y, hy, hype⟩ := foldl_upsInsert_point pts slot.usagePoints q hq
            calc (rangeOfPoints newPts).start ≤ y.point := rangeOfPoints_start_le hy
              _ = q.point := hype
              _ = (rangeOfPoints pts).start := hqe
          have hstopInc : (rangeOfPoints pts).stop ≤ (rangeOfPoints newPts).stop := by
            obtain ⟨q, hq, hqe⟩ := rangeOfPoints_stop_attained hpts
            obtain ⟨y, hy, hype⟩ := foldl_upsInsert_point pts slot.usagePoints q hq
            calc (rangeOfPoints pts).stop = q.point := hqe.symm
              _ = y.point := hype.symm
              _ ≤ (rangeOfPoints newPts).stop := rangeOfPoints_le_stop hy
          constructor
          · intro s hs
            rcases List.mem_cons.mp hs with hhead | htail
            · subst hhead
              refine ⟨?_, by simp [hmne], hne2, ?_⟩
              · unfold membersDisjoint
                rw [List.pairwise_append]
                refine ⟨hdisj, List.pairwise_singleton _ _, ?_⟩
                intro m hm x hx
                simp only [List.mem_singleton] at hx
                subst hx
                exact overlaps_of_within (hcover m hm).1 (hcover m hm).2
                  (by simpa [RGOptResource.getUsageRange] using hov)
              · intro m hm
                rcases List.mem_append.mp hm with hm1 | hm2
                · exact ⟨le_trans hstartOld (hcover m hm1).1,
                    le_trans (hcover m hm1).2 hstopOld⟩
                · simp only [List.mem_singleton] at hm2
                  subst hm2
                  exact ⟨hstartInc, hstopInc⟩
            · exact hinv s (List.mem_cons_of_mem slot htail)
          · intro s hs
            rcases List.mem_cons.mp hs with hhead | htail
            · subst hhead
              exact ⟨_, List.mem_cons_self _ _, rfl, head?_append_of_ne_nil _ hmne⟩
            · exact ⟨s, List.mem_cons_of_mem _ htail, rfl, rfl⟩
        · -- rejected by the collision check: slot unchanged, recurse
          rw [Bool.not_eq_true] at hins
          rw [insertUsagePoints_false hins]
          simp only [Bool.false_eq_true, if_false]
          constructor
          · intro s hs
            rcases List.mem_cons.mp hs with hhead | htail
            · exact hhead ▸ hinv slot (List.mem_cons_self slot rest)
            · exact ihA s htail
          · intro s hs
            rcases List.mem_cons.mp hs with hhead | htail
            · exact ⟨slot, List.mem_cons_self _ _, by rw [hhead], by rw [hhead]⟩
            · obtain ⟨s2, hs2, he1, he2⟩ := ihB s htail
              exact ⟨s2, List.mem_cons_of_mem _ hs2, he1, he2⟩
      · -- overlapping hull: skip this slot, recurse
        rw [if_neg hov]
        constructor
        · intro s hs
          rcases List.mem_cons.mp hs with hhead | htail
          · exact hhead ▸ hinv slot (List.mem_cons_self slot rest)
          · exact ihA s htail
        · intro s hs
          rcases List.mem_cons.mp hs with hhead | htail
          · exact ⟨slot, List.mem_cons_self _ _, by rw [hhead], by rw [hhead]⟩
          · obtain ⟨s2, hs2, he1, he2⟩ := ihB s htail
            exact ⟨s2, List.mem_cons_of_mem _ hs2, he1, he2⟩

-- =======================================
-- Slot invariant through the run loop
-- =======================================

theorem runStep_inv (st : List RGOptResource × Int × Int) (res : ResourceInfo)
    (hinv : ∀ s ∈ st.1, slotInv s) :
    (∀ s ∈ (RenderGraphResourceOptimizer.runStep st res).1, slotInv s) ∧
    (∀ s ∈ st.1, ∃ s2 ∈ (RenderGraphResourceOptimizer.runStep st res).1,
       s2.originalResource = s.originalResource ∧ s2.members.head? = s.members.head?) := by
  have hfresh : slotInv {
      id := st.2.2, usagePoints := getUsagePointsForResourceInfo res,
      originalResource := res.originResource,
      originalNode := res.originNode.mId,
      type := res.type,
      members := [(res.originResource.id,
        rangeOfPoints (getUsagePointsForResourceInfo res))] } := by
    refine ⟨List.pairwise_singleton _ _, by simp, getUsagePoints_nonempty res, ?_⟩
    intro m hm
    simp only [List.mem_singleton] at hm
    subst hm
    exact ⟨le_refl _, le_refl _⟩
  unfold RenderGraphResourceOptimizer.runStep
  by_cases h1 : res.optimizable = false ∨ res.originResource.flags.dontOptimize = true
  · rw [if_pos (by simpa using h1)]
    refine ⟨?_, ?_⟩
    · intro s hs
      rcases List.mem_append.mp hs with h | h
      · exact hinv s h
      · simp only [List.mem_singleton] at h
        subst h
        exact hfresh
    · intro s hs
      exact ⟨s, List.mem_append_left _ hs, rfl, rfl⟩
  · rw [if_neg (by simpa using h1)]
    by_cases h2 : st.1 = []
    · rw [if_pos h2]
      refine ⟨?_, ?_⟩
      · intro s hs
        rcases List.mem_append.mp hs with h | h
        · exact hinv s h
        · simp only [List.mem_singleton] at h
          subst h
          exact hfresh
      · intro s hs
        exact ⟨s, List.mem_append_left _ hs, rfl, rfl⟩
    · rw [if_neg h2]
      obtain ⟨tiA, tiB⟩ := tryInsert_inv (getUsagePointsForResourceInfo res)
        res.originResource.id (getUsagePoints_nonempty res) st.1 hinv
      by_cases h3 : (RenderGraphResourceOptimizer.tryInsert
          (getUsagePointsForResourceInfo res)
          (rangeOfPoints (getUsagePointsForResourceInfo res))
          res.originResource.id st.1).2 = true
      · rw [if_pos h3]
        exact ⟨tiA, tiB⟩
      · rw [if_neg h3]
        refine ⟨?_, ?_⟩
        · intro s hs
          rcases List.mem_append.mp hs with h | h
          · exact tiA s h
          · simp only [List.mem_singleton] at h
            subst h
            exact hfresh
        · intro s hs
          obtain ⟨s2, hs2, he1, he2⟩ := tiB s hs
          exact ⟨s2, List.mem_append_left _ hs2, he1, he2⟩

theorem runFold_inv (infos : List ResourceInfo) :
    ∀ st : List RGOptResource × Int × Int, (∀ s ∈ st.1, slotInv s) →
      (∀ s ∈ (infos.foldl RenderGraphResourceOptimizer.runStep st).1, slotInv s) ∧
      (∀ s ∈ st.1, ∃ s2 ∈ (infos.foldl RenderGraphResourceOptimizer.runStep st).1,
         s2.originalResource = s.originalResource ∧ s2.members.head? = s.members.head?) := by
  induction infos with
  | nil => exact fun st h => ⟨h, fun s hs => ⟨s, hs, rfl, rfl⟩⟩
  | cons res t ih =>
      intro st hinv
      obtain ⟨sA, sB⟩ := runStep_inv st res hinv
      obtain ⟨fA, fB⟩ := ih (RenderGraphResourceOptimizer.runStep st res) sA
      refine ⟨fA, ?_⟩
      intro s hs
      obtain ⟨s2, hs2, he1, he2⟩ := sB s hs
      obtain ⟨s3, hs3, he3, he4⟩ := fB s2 hs2
      exact ⟨s3, hs3, he3.trans he1, he4.trans he2⟩

theorem runStep_creates (st : List RGOptResource × Int × Int) (res : ResourceInfo)
    (hres : res.optimizable = false ∨ res.originResource.flags.dontOptimize = true) :
    ∃ s ∈ (RenderGraphResourceOptimizer.runStep st res).1,
      s.originalResource = res.originResource ∧
      s.members.head? = some (res.originResource.id,
        rangeOfPoints (getUsagePointsForResourceInfo res)) := by
  unfold RenderGraphResourceOptimizer.runStep
  rw [if_pos (by simpa using hres)]
  exact ⟨_, List.mem_append_right _ (List.mem_singleton_self _), rfl, rfl⟩

theorem runFold_creates (infos : List ResourceInfo) :
    ∀ st : List RGOptResource × Int × Int, (∀ s ∈ st.1, slotInv s) →
      ∀ info ∈ infos,
        (info.optimizable = false ∨ info.originResource.flags.dontOptimize = true) →
        ∃ s ∈ (infos.foldl RenderGraphResourceOptimizer.runStep st).1,
          s.originalResource = info.originResource ∧
          s.members.head? = some (info.originResource.id,
            rangeOfPoints (getUsagePointsForResourceInfo info)) := by
  induction infos with
  | nil => intro st _ info h; simp at h
  | cons res t ih =>
      intro st hinv info hin hres
      obtain ⟨sA, _⟩ := runStep_inv st res hinv
      rcases List.mem_cons.mp hin with h | h
      · subst h
        obtain ⟨s, hs, he1, he2⟩ := runStep_creates st info hres
        obtain ⟨_, fB⟩ := runFold_inv t (RenderGraphResourceOptimizer.runStep st info) sA
        obtain ⟨s2, hs2, he3, he4⟩ := fB s hs
        exact ⟨s2, hs2, he3.trans he1, he4.trans he2⟩
      · exact ih (RenderGraphResourceOptimizer.runStep st res) sA info h hres

-- =======================================
-- C5 and C6
-- =======================================

/-- Claim C5: whenever the resource aliaser completes, the live ranges
of the distinct original resources placed into any single generated
slot (recorded in the ghost members field) are pairwise
non-overlapping. -/
theorem c5_alias_disjoint (g : RenderGraph) (tasks : List RGTask) (c : Int)
    (out : RGResOptOutput) (c2 : Int)
    (h : RenderGraphResourceOptimizer.run g tasks c = some (out, c2)) :
    ∀ slot ∈ out.generatedResources, membersDisjoint slot.members := by
  unfold RenderGraphResourceOptimizer.run at h
  cases hev : RenderGraphResourceOptimizer.evaluateRequiredResources g tasks with
  | none => rw [hev] at h; simp at h
  | some infos =>
      rw [hev] at h
      simp only [Option.some.injEq, Prod.mk.injEq] at h
      have hgen : out.generatedResources =
          (infos.foldl RenderGraphResourceOptimizer.runStep ([], 0, c)).1 := by
        rw [← h.1]
      rw [hgen]
      intro slot hslot
      exact ((runFold_inv infos ([], 0, c) (fun s hs => by simp at hs)).1 slot hslot).1

/-- Witness for c5_alias_disjoint: the optimizer on gC6 with its serial
task list. -/
theorem c5_witness :
    ∃ out c2, RenderGraphResourceOptimizer.run gC6 tasksC6 100 = some (out, c2) ∧
      ∀ slot ∈ out.generatedResources, membersDisjoint slot.members :=
  ⟨_, _, rfl, c5_alias_disjoint gC6 tasksC6 100 _ _ rfl⟩

/-- Claim C6 (amended): every non-optimizable ResourceInfo begins a slot
of its own: the aliaser appends a fresh slot whose first placed member
is exactly that resource with its live range (it is never placed into a
pre-existing slot).  The slot may however later receive the usage
points of other, optimizable resources, as the counterexample shows. -/
theorem c6_amended (g : RenderGraph) (tasks : List RGTask) (c : Int)
    (infos : List ResourceInfo) (out : RGResOptOutput) (c2 : Int)
    (hev : RenderGraphResourceOptimizer.evaluateRequiredResources g tasks = some infos)
    (h : RenderGraphResourceOptimizer.run g tasks c = some (out, c2)) :
    ∀ info ∈ infos,
      (info.optimizable = false ∨ info.originResource.flags.dontOptimize = true) →
      ∃ slot ∈ out.generatedResources,
        slot.originalResource = info.originResource ∧
        slot.members.head? = some (info.originResource.id,
          rangeOfPoints (getUsagePointsForResourceInfo info)) := by
  unfold RenderGraphResourceOptimizer.run at h
  rw [hev] at h
  simp only [Option.some.injEq, Prod.mk.injEq] at h
  have hgen : out.generatedResources =
      (infos.foldl RenderGraphResourceOptimizer.runStep ([], 0, c)).1 := by
    rw [← h.1]
  rw [hgen]
  exact runFold_creates infos ([], 0, c) (fun s hs => by simp at hs)

/-- Witness for c6_amended: the optimizer on gC6, whose Buffer write is
non-optimizable. -/
theorem c6_amended_witness :
    ∃ infos out c2,
      RenderGraphResourceOptimizer.evaluateRequiredResources gC6 tasksC6 = some infos ∧
      RenderGraphResourceOptimizer.run gC6 tasksC6 100 = some (out, c2) ∧
      ∀ info ∈ infos,
        (info.optimizable = false ∨ info.originResource.flags.dontOptimize = true) →
        ∃ slot ∈ out.generatedResources,
          slot.originalResource = info.originResource ∧
          slot.members.head? = some (info.originResource.id,
            rangeOfPoints (getUsagePointsForResourceInfo info)) :=
  ⟨_, _, _, rfl, rfl, c6_amended gC6 tasksC6 100 _ _ _ rfl rfl⟩

-- =======================================
-- Degree-map lemmas
-- =======================================

theorem alGetD_alDec (k j : Int) :
    ∀ m : DegMap, alGetD (alDec m k).1 j = if j = k then alGetD m k - 1 else alGetD m j := by
  intro m
  induction m with
  | nil =>
      by_cases h : j = k
      · subst h; simp [alDec, alGetD]
      · simp only [alDec, alGetD, if_neg h]
        rw [if_neg (fun hh => h hh.symm)]
  | cons e t ih =>
      obtain ⟨a, c⟩ := e
      by_cases hak : a = k
      · subst hak
        by_cases hj : a = j
        · subst hj; simp [alDec, alGetD]
        · simp only [alDec, if_pos rfl, alGetD, if_neg hj]
          rw [if_neg (fun hh => hj hh.symm)]
      · simp only [alDec, if_neg hak, alGetD]
        by_cases hja : a = j
        · subst hja
          rw [if_pos rfl, if_neg (fun hh : a = k => hak hh), if_pos rfl]
        · rw [if_neg hja, if_neg hja, ih]

theorem alDec_snd (k : Int) : ∀ m : DegMap, (alDec m k).2 = alGetD m k - 1 := by
  intro m
  induction m with
  | nil => simp [alDec, alGetD]
  | cons e t ih =>
      obtain ⟨a, c⟩ := e
      by_cases hak : a = k
      · subst hak; simp [alDec, alGetD]
      · simp only [alDec, if_neg hak, alGetD, ih]

theorem alMeasure_alDec_le (k : Int) :
    ∀ m : DegMap, alMeasure (alDec m k).1 ≤ alMeasure m := by
  intro m
  induction m with
  | nil => simp [alDec, alMeasure]
  | cons e t ih =>
      obtain ⟨a, c⟩ := e
      by_cases hak : a = k
      · subst hak
        simp only [alDec, if_pos rfl, alMeasure]
        omega
      · simp only [alDec, if_neg hak, alMeasure]
        omega

theorem alMeasure_alDec_zero (k : Int) :
    ∀ m : DegMap, (alDec m k).2 = 0 → alMeasure (alDec m k).1 + 1 ≤ alMeasure m := by
  intro m
  induction m with
  | nil => intro h; simp [alDec] at h
  | cons e t ih =>
      obtain ⟨a, c⟩ := e
      by_cases hak : a = k
      · subst hak
        intro h
        simp only [alDec, if_pos rfl, eq_self_iff_true, if_true] at h ⊢
        simp only [alMeasure]
        omega
      · intro h
        simp only [alDec, if_neg hak] at h ⊢
        simp only [alMeasure]
        have := ih h
        omega

theorem decs_nil (k : Int) : decs [] k = 0 := rfl

theorem decs_cons (v : Pass) (T : List Pass) (k : Int) :
    decs (v :: T) k = v.mOutgoingEdges.count k + decs T k := by
  simp [decs]

theorem decs_append (T1 T2 : List Pass) (k : Int) :
    decs (T1 ++ T2) k = decs T1 k + decs T2 k := by
  simp [decs]

-- =======================================
-- processOut lemmas
-- =======================================

theorem processOut_val (vertices : List Pass) :
    ∀ (out : List Int) (m m2 : DegMap) (ps : List Pass),
      TopologicalSort.processOut vertices out m = some (m2, ps) →
      ∀ k, alGetD m2 k = alGetD m k - Int.ofNat (out.count k) := by
  intro out
  induction out with
  | nil =>
      intro m m2 ps h k
      simp only [TopologicalSort.processOut, Option.some.injEq, Prod.mk.injEq] at h
      simp [← h.1]
  | cons w t ih =>
      intro m m2 ps h k
      unfold TopologicalSort.processOut at h
      by_cases hz : (alDec m w).2 = 0
      · rw [if_pos hz] at h
        cases hf : vertices.find? (fun p => p.mId = w) with
        | none => rw [hf] at h; exact absurd h (by simp)
        | some p =>
            rw [hf] at h
            cases hrec : TopologicalSort.processOut vertices t (alDec m w).1 with
            | none => rw [hrec] at h; exact absurd h (by simp)
            | some q =>
                rw [hrec] at h
                obtain ⟨m3, ps3⟩ := q
                simp only [Option.map_some', Option.some.injEq, Prod.mk.injEq] at h
                have hv := ih (alDec m w).1 m3 ps3 hrec k
                rw [← h.1, hv, alGetD_alDec]
                by_cases hk : k = w
                · subst hk
                  rw [if_pos rfl]
                  have hc : (k :: t).count k = t.count k + 1 := by
                    simp [List.count_cons]
                  rw [hc]
                  simp only [Int.ofNat_eq_natCast]
                  push_cast
                  ring
                · rw [if_neg hk]
                  have hc : (w :: t).count k = t.count k := by
                    simp [List.count_cons, beq_iff_eq, hk]
                  rw [hc]
      · rw [if_neg hz] at h
        have hv := ih (alDec m w).1 m2 ps h k
        rw [hv, alGetD_alDec]
        by_cases hk : k = w
        · subst hk
          rw [if_pos rfl]
          have hc : (k :: t).count k = t.count k + 1 := by
            simp [List.count_cons]
          rw [hc]
          simp only [Int.ofNat_eq_natCast]
          push_cast
          ring
        · rw [if_neg hk]
          have hc : (w :: t).count k = t.count k := by
            simp [List.count_cons, beq_iff_eq, hk]
          rw [hc]

theorem processOut_measure (vertices : List Pass) :
    ∀ (out : List Int) (m m2 : DegMap) (ps : List Pass),
      TopologicalSort.processOut vertices out m = some (m2, ps) →
      2 * alMeasure m2 + ps.length ≤ 2 * alMeasure m := by
  intro out
  induction out with
  | nil =>
      intro m m2 ps h
      simp only [TopologicalSort.processOut, Option.some.injEq, Prod.mk.injEq] at h
      rw [← h.1, ← h.2]
      simp
  | cons w t ih =>
      intro m m2 ps h
      unfold TopologicalSort.processOut at h
      by_cases hz : (alDec m w).2 = 0
      · rw [if_pos hz] at h
        cases hf : vertices.find? (fun p => p.mId = w) with
        | none => rw [hf] at h; exact absurd h (by simp)
        | some p =>
            rw [hf] at h
            cases hrec : TopologicalSort.processOut vertices t (alDec m w).1 with
            | none => rw [hrec] at h; exact absurd h (by simp)
            | some q =>
                rw [hrec] at h
                obtain ⟨m3, ps3⟩ := q
                simp only [Option.map_some', Option.some.injEq, Prod.mk.injEq] at h
                have hm := ih (alDec m w).1 m3 ps3 hrec
                have hd := alMeasure_alDec_zero w m hz
                rw [← h.1, ← h.2]
                simp only [List.length_cons]
                omega
      · rw [if_neg hz] at h
        have hm := ih (alDec m w).1 m2 ps h
        have hd := alMeasure_alDec_le w m
        omega

theorem processOut_pushed (vertices : List Pass) :
    ∀ (out : List Int) (m m2 : DegMap) (ps : List Pass),
      TopologicalSort.processOut vertices out m = some (m2, ps) →
      ∀ p ∈ ps, p ∈ vertices ∧ 0 < alGetD m p.mId ∧ alGetD m2 p.mId ≤ 0 := by
  intro out
  induction out with
  | nil =>
      intro m m2 ps h p hp
      simp only [TopologicalSort.processOut, Option.some.injEq, Prod.mk.injEq] at h
      rw [← h.2] at hp
      exact absurd hp (by simp)
  | cons w t ih =>
      intro m m2 ps h p hp
      unfold TopologicalSort.processOut at h
      by_cases hz : (alDec m w).2 = 0
      · rw [if_pos hz] at h
        cases hf : vertices.find? (fun p => p.mId = w) with
        | none => rw [hf] at h; exact absurd h (by simp)
        | some p0 =>
            rw [hf] at h
            cases hrec : TopologicalSort.processOut vertices t (alDec m w).1 with
            | none => rw [hrec] at h; exact absurd h (by simp)
            | some q =>
                rw [hrec] at h
                obtain ⟨m3, ps3⟩ := q
                simp only [Option.map_some', Option.some.injEq, Prod.mk.injEq] at h
                have hid : p0.mId = w := by
                  have := List.find?_some hf
                  simpa using this
                have hw1 : alGetD m w = 1 := by
                  have := alDec_snd w m
                  omega
                rw [← h.2] at hp
                cases hp with
                | head =>
                    refine ⟨List.mem_of_find?_eq_some hf, ?_, ?_⟩
                    · rw [hid, hw1]; omega
                    · have hv := processOut_val vertices t (alDec m w).1 m3 ps3 hrec w
                      rw [← h.1, hid, hv, alGetD_alDec, if_pos rfl, hw1]
                      simp only [Int.ofNat_eq_natCast]
                      omega
                | tail _ hp3 =>
                    obtain ⟨hmem, hpos, hle⟩ := ih (alDec m w).1 m3 ps3 hrec p hp3
                    refine ⟨hmem, ?_, by rw [← h.1]; exact hle⟩
                    rw [alGetD_alDec] at hpos
                    by_cases hk : p.mId = w
                    · rw [if_pos hk] at hpos; rw [hk]; omega
                    · rw [if_neg hk] at hpos; exact hpos
      · rw [if_neg hz] at h
        obtain ⟨hmem, hpos, hle⟩ := ih (alDec m w).1 m2 ps h p hp
        refine ⟨hmem, ?_, hle⟩
        rw [alGetD_alDec] at hpos
        by_cases hk : p.mId = w
        · rw [if_pos hk] at hpos; rw [hk]; omega
        · rw [if_neg hk] at hpos; exact hpos

theorem processOut_nodup (vertices : List Pass) :
    ∀ (out : List Int) (m m2 : DegMap) (ps : List Pass),
      TopologicalSort.processOut vertices out m = some (m2, ps) →
      (ps.map Pass.mId).Nodup := by
  intro out
  induction out with
  | nil =>
      intro m m2 ps h
      simp only [TopologicalSort.processOut, Option.some.injEq, Prod.mk.injEq] at h
      rw [← h.2]
      simp
  | cons w t ih =>
      intro m m2 ps h
      unfold TopologicalSort.processOut at h
      by_cases hz : (alDec m w).2 = 0
      · rw [if_pos hz] at h
        cases hf : vertices.find? (fun p => p.mId = w) with
        | none => rw [hf] at h; exact absurd h (by simp)
        | some p0 =>
            rw [hf] at h
            cases hrec : TopologicalSort.processOut vertices t (alDec m w).1 with
            | none => rw [hrec] at h; exact absurd h (by simp)
            | some q =>
                rw [hrec] at h
                obtain ⟨m3, ps3⟩ := q
                simp only [Option.map_some', Option.some.injEq, Prod.mk.injEq] at h
                have hid : p0.mId = w := by
                  have := List.find?_some hf
                  simpa using this
                rw [← h.2]
                simp only [List.map_cons, List.nodup_cons]
                refine ⟨?_, ih (alDec m w).1 m3 ps3 hrec⟩
                intro hmem
                obtain ⟨q2, hq2, hq2id⟩ := List.mem_map.mp hmem
                obtain ⟨_, hpos, _⟩ := processOut_pushed vertices t (alDec m w).1 m3 ps3 hrec q2 hq2
                rw [hq2id, hid, alGetD_alDec, if_pos rfl] at hpos
                have := alDec_snd w m
                omega
      · rw [if_neg hz] at h
        exact ih (alDec m w).1 m2 ps h

theorem processOut_total (vertices : List Pass) :
    ∀ (out : List Int) (m : DegMap),
      (∀ k, 0 < alGetD m k → (vertices.find? (fun p => p.mId = k)).isSome = true) →
      (TopologicalSort.processOut vertices out m).isSome = true := by
  intro out
  induction out with
  | nil => intro m _; simp [TopologicalSort.processOut]
  | cons w t ih =>
      intro m hres
      unfold TopologicalSort.processOut
      have hstep : ∀ k, 0 < alGetD (alDec m w).1 k →
          (vertices.find? (fun p => p.mId = k)).isSome = true := by
        intro k hk
        rw [alGetD_alDec] at hk
        by_cases hkw : k = w
        · rw [if_pos hkw] at hk
          refine hres k ?_
          rw [hkw]
          omega
        · rw [if_neg hkw] at hk
          exact hres k hk
      by_cases hz : (alDec m w).2 = 0
      · rw [if_pos hz]
        have hw1 : 0 < alGetD m w := by
          have := alDec_snd w m
          omega
        cases hf : vertices.find? (fun p => p.mId = w) with
        | none =>
            have h2 := hres w hw1
            rw [hf] at h2
            exact absurd h2 (by simp)
        | some p0 =>
            have := ih (alDec m w).1 hstep
            cases hrec : TopologicalSort.processOut vertices t (alDec m w).1 with
            | none => rw [hrec] at this; exact absurd this (by simp)
            | some q => simp
      · rw [if_neg hz]
        exact ih (alDec m w).1 hstep

theorem processOut_covered (vertices : List Pass) :
    ∀ (out : List Int) (m m2 : DegMap) (ps : List Pass),
      TopologicalSort.processOut vertices out m = some (m2, ps) →
      ∀ k, 0 < alGetD m k → alGetD m2 k ≤ 0 → ∃ p ∈ ps, p.mId = k := by
  intro out
  induction out with
  | nil =>
      intro m m2 ps h k hpos hle
      simp only [TopologicalSort.processOut, Option.some.injEq, Prod.mk.injEq] at h
      rw [← h.1] at hle
      omega
  | cons w t ih =>
      intro m m2 ps h k hpos hle
      unfold TopologicalSort.processOut at h
      by_cases hz : (alDec m w).2 = 0
      · rw [if_pos hz] at h
        cases hf : vertices.find? (fun p => p.mId = w) with
        | none => rw [hf] at h; exact absurd h (by simp)
        | some p0 =>
            rw [hf] at h
            cases hrec : TopologicalSort.processOut vertices t (alDec m w).1 with
            | none => rw [hrec] at h; exact absurd h (by simp)
            | some q =>
                rw [hrec] at h
                obtain ⟨m3, ps3⟩ := q
                simp only [Option.map_some', Option.some.injEq, Prod.mk.injEq] at h
                have hid : p0.mId = w := by
                  have := List.find?_some hf
                  simpa using this
                by_cases hk : k = w
                · subst hk
                  refine ⟨p0, ?_, hid⟩
                  rw [← h.2]
                  exact List.mem_cons_self p0 ps3
                · have hpos2 : 0 < alGetD (alDec m w).1 k := by
                    rw [alGetD_alDec, if_neg hk]
                    exact hpos
                  have hle2 : alGetD m3 k ≤ 0 := by rw [h.1]; exact hle
                  obtain ⟨p, hp, hpk⟩ := ih (alDec m w).1 m3 ps3 hrec k hpos2 hle2
                  refine ⟨p, ?_, hpk⟩
                  rw [← h.2]
                  exact List.mem_cons_of_mem p0 hp
      · rw [if_neg hz] at h
        by_cases hk : k = w
        · subst hk
          have hsnd := alDec_snd k m
          have hpos2 : 0 < alGetD (alDec m k).1 k := by
            rw [alGetD_alDec, if_pos rfl]
            omega
          exact ih (alDec m k).1 m2 ps h k hpos2 hle
        · have hpos2 : 0 < alGetD (alDec m w).1 k := by
            rw [alGetD_alDec, if_neg hk]
            exact hpos
          exact ih (alDec m w).1 m2 ps h k hpos2 hle

-- =======================================
-- Initial in-degree map lemmas
-- =======================================

theorem alGetD_of_not_mem (k : Int) :
    ∀ m : DegMap, k ∉ m.map Prod.fst → alGetD m k = 0 := by
  intro m
  induction m with
  | nil => intro _; rfl
  | cons e t ih =>
      obtain ⟨a, c⟩ := e
      intro h
      simp only [List.map_cons, List.mem_cons] at h
      push_neg at h
      simp only [alGetD]
      rw [if_neg (fun hh => h.1 hh.symm)]
      exact ih h.2

theorem alEmplace_of_mem (a x : Int) :
    ∀ m : DegMap, a ∈ m.map Prod.fst → alEmplace m a x = m := by
  intro m
  induction m with
  | nil => intro h; exact absurd h (by simp)
  | cons e t ih =>
      obtain ⟨b, c⟩ := e
      intro h
      simp only [List.map_cons, List.mem_cons] at h
      by_cases hb : b = a
      · simp [alEmplace, hb]
      · have ht : a ∈ t.map Prod.fst := by
          cases h with
          | inl hh => exact absurd hh.symm hb
          | inr hh => exact hh
        simp [alEmplace, hb, ih ht]

theorem alEmplace_of_not_mem (a x : Int) :
    ∀ m : DegMap, a ∉ m.map Prod.fst → alEmplace m a x = m ++ [(a, x)] := by
  intro m
  induction m with
  | nil => intro _; rfl
  | cons e t ih =>
      obtain ⟨b, c⟩ := e
      intro h
      simp only [List.map_cons, List.mem_cons] at h
      push_neg at h
      have hb : ¬ b = a := fun hh => h.1 hh.symm
      simp [alEmplace, hb, ih h.2]

theorem alGetD_append_one (k : Int) (y : Int × Int) :
    ∀ m : DegMap, alGetD (m ++ [y]) k =
      if k ∈ m.map Prod.fst then alGetD m k else if y.1 = k then y.2 else 0 := by
  intro m
  induction m with
  | nil => simp [alGetD]
  | cons e t ih =>
      obtain ⟨a, c⟩ := e
      simp only [List.cons_append, alGetD, List.map_cons, List.mem_cons, List.append_eq]
      by_cases hak : a = k
      · rw [if_pos hak, if_pos hak, if_pos (Or.inl hak.symm)]
      · rw [if_neg hak, if_neg hak, ih]
        by_cases hm : k ∈ t.map Prod.fst
        · rw [if_pos hm, if_pos (Or.inr hm)]
        · rw [if_neg hm]
          have : ¬ (k = a ∨ k ∈ t.map Prod.fst) := by
            push_neg
            exact ⟨fun hh => hak hh.symm, hm⟩
          rw [if_neg this]

theorem baseDeg_cons (v : Pass) (t : List Pass) (k : Int) :
    baseDeg (v :: t) k =
      if v.mId = k then v.mIncomingEdges.length else baseDeg t k := by
  unfold baseDeg
  by_cases h : v.mId = k
  · simp [List.find?_cons, h]
  · simp [List.find?_cons, h]

theorem foldl_emplace_getD (k : Int) :
    ∀ (vertices : List Pass) (m : DegMap),
      alGetD (vertices.foldl
          (fun m v => alEmplace m v.mId (Int.ofNat v.mIncomingEdges.length)) m) k =
        if k ∈ m.map Prod.fst then alGetD m k else Int.ofNat (baseDeg vertices k) := by
  intro vertices
  induction vertices with
  | nil =>
      intro m
      by_cases hm : k ∈ m.map Prod.fst
      · simp [hm]
      · simp [hm, alGetD_of_not_mem k m hm, baseDeg]
  | cons v t ih =>
      intro m
      rw [List.foldl_cons, ih, baseDeg_cons]
      by_cases hv : v.mId ∈ m.map Prod.fst
      · rw [alEmplace_of_mem _ _ m hv]
        by_cases hm : k ∈ m.map Prod.fst
        · rw [if_pos hm, if_pos hm]
        · rw [if_neg hm, if_neg hm]
          have hvk : ¬ v.mId = k := fun hh => hm (hh ▸ hv)
          rw [if_neg hvk]
  
      · rw [alEmplace_of_not_mem _ _ m hv]
        by_cases hm : k ∈ m.map Prod.fst
        · have hm2 : k ∈ (m ++ [(v.mId, Int.ofNat v.mIncomingEdges.length)]).map Prod.fst := by
            simp only [List.map_append, List.mem_append]
            exact Or.inl hm
          rw [if_pos hm2, if_pos hm, alGetD_append_one, if_pos hm]
        · by_cases hvk : v.mId = k
          · have hm2 : k ∈ (m ++ [(v.mId, Int.ofNat v.mIncomingEdges.length)]).map Prod.fst := by
              simp [hvk.symm]
            rw [if_pos hm2, alGetD_append_one, if_neg hm, if_pos hvk, if_neg hm, if_pos hvk]
          · have hkv : ¬ k = v.mId := fun hh => hvk hh.symm
            have hm2 : ¬ k ∈ (m ++ [(v.mId, Int.ofNat v.mIncomingEdges.length)]).map Prod.fst := by
              simp only [List.map_append, List.mem_append]
              push_neg
              refine ⟨hm, by simp [hkv]⟩
            rw [if_neg hm2, if_neg hm, if_neg hvk]

theorem initMap_getD (vertices : List Pass) (k : Int) :
    alGetD (vertices.foldl
        (fun m v => alEmplace m v.mId (Int.ofNat v.mIncomingEdges.length)) []) k =
      Int.ofNat (baseDeg vertices k) := by
  rw [foldl_emplace_getD]
  simp

-- =======================================
-- The Kahn loop preserves the invariant and terminates within its fuel
-- =======================================

theorem kahnLoop_spec (vertices : List Pass) :
    ∀ (fuel : Nat) (Q : List Pass) (m : DegMap) (T : List Pass),
      2 * alMeasure m + Q.length < fuel →
      KInv vertices Q m T →
      ∃ T2 m2, TopologicalSort.kahnLoop vertices fuel Q m T = some (T2, m2) ∧
        KInv vertices [] m2 T2 := by
  intro fuel
  induction fuel with
  | zero => intro Q m T hf _; omega
  | succ fuel ih =>
      intro Q m T hf hinv
      cases Q with
      | nil => exact ⟨T, m, rfl, hinv⟩
      | cons v rest =>
          have hbase : ∀ k, 0 < alGetD m k →
              (vertices.find? (fun p => p.mId = k)).isSome = true := by
            intro k hk
            have hval := hinv.val k
            rw [hval] at hk
            simp only [Int.ofNat_eq_natCast] at hk
            have hb0 : baseDeg vertices k ≠ 0 := by
              intro hb
              rw [hb] at hk
              simp at hk
              omega
            unfold baseDeg at hb0
            cases hf2 : vertices.find? (fun p => p.mId = k) with
            | none => rw [hf2] at hb0; simp at hb0
            | some p => simp
          have htot := processOut_total vertices v.mOutgoingEdges m hbase
          obtain ⟨r, hpo⟩ := Option.isSome_iff_exists.mp htot
          obtain ⟨m2, pushed⟩ := r
          have hms := processOut_measure vertices v.mOutgoingEdges m m2 pushed hpo
          have hpush := processOut_pushed vertices v.mOutgoingEdges m m2 pushed hpo
          have hpnd := processOut_nodup vertices v.mOutgoingEdges m m2 pushed hpo
          have hval2 := processOut_val vertices v.mOutgoingEdges m m2 pushed hpo
          have hcov := processOut_covered vertices v.mOutgoingEdges m m2 pushed hpo
          have hNeq : (T ++ [v]) ++ (rest ++ pushed) = (T ++ v :: rest) ++ pushed := by
            simp
          have val2 : ∀ k, alGetD m2 k =
              Int.ofNat (baseDeg vertices k) - Int.ofNat (decs (T ++ [v]) k) := by
            intro k
            rw [hval2 k, hinv.val k, decs_append]
            simp only [decs, List.map_cons, List.map_nil, List.sum_cons, List.sum_nil,
              Int.ofNat_eq_natCast]
            push_cast
            ring
          have ndp2 : (((T ++ [v]) ++ (rest ++ pushed)).map Pass.mId).Nodup := by
            rw [hNeq, List.map_append, List.nodup_append]
            refine ⟨hinv.ndp, hpnd, ?_⟩
            intro a ha hb
            obtain ⟨x, hx, hxid⟩ := List.mem_map.mp ha
            obtain ⟨q, hq, hqid⟩ := List.mem_map.mp hb
            have h1 : alGetD m a ≤ 0 := by rw [← hxid]; exact hinv.low x hx
            have h2 : 0 < alGetD m a := by rw [← hqid]; exact (hpush q hq).2.1
            omega
          have mem2 : ∀ x ∈ (T ++ [v]) ++ (rest ++ pushed), x ∈ vertices := by
            rw [hNeq]
            intro x hx
            rcases List.mem_append.mp hx with h1 | h2
            · exact hinv.mem x h1
            · exact (hpush x h2).1
          have zer2 : ∀ w ∈ vertices, alGetD m2 w.mId ≤ 0 →
              w.mId ∈ (((T ++ [v]) ++ (rest ++ pushed)).map Pass.mId) := by
            intro w hw hle
            rw [hNeq, List.map_append, List.mem_append]
            by_cases h0 : alGetD m w.mId ≤ 0
            · exact Or.inl (hinv.zer w hw h0)
            · push_neg at h0
              obtain ⟨p, hp, hpk⟩ := hcov w.mId h0 hle
              exact Or.inr (List.mem_map.mpr ⟨p, hp, hpk⟩)
          have low2 : ∀ x ∈ (T ++ [v]) ++ (rest ++ pushed), alGetD m2 x.mId ≤ 0 := by
            rw [hNeq]
            intro x hx
            rcases List.mem_append.mp hx with h1 | h2
            · have h3 := hinv.low x h1
              rw [hval2 x.mId]
              simp only [Int.ofNat_eq_natCast]
              omega
            · exact (hpush x h2).2.2
          have hbound : baseDeg vertices v.mId ≤ decs T v.mId := by
            have hlow := hinv.low v (by simp)
            have hval := hinv.val v.mId
            rw [hval] at hlow
            simp only [Int.ofNat_eq_natCast] at hlow
            have h2 : (baseDeg vertices v.mId : Int) ≤ (decs T v.mId : Int) := by omega
            exact_mod_cast h2
          have ord2 : ∀ (t1 : List Pass) (b : Pass) (t2 : List Pass),
              T ++ [v] = t1 ++ b :: t2 →
              baseDeg vertices b.mId ≤ decs t1 b.mId := by
            intro t1 b t2 hsplit
            have hsplit2 : t1 ++ b :: t2 = T ++ [v] := hsplit.symm
            rcases List.append_eq_append_iff.mp hsplit2 with ⟨a2, hT, hbt⟩ | ⟨c2, ht1, hv2⟩
            · cases a2 with
              | nil =>
                  simp only [List.append_nil] at hT
                  simp only [List.nil_append, List.cons.injEq] at hbt
                  rw [← hT, hbt.1]
                  exact hbound
              | cons x xs =>
                  simp only [List.cons_append, List.cons.injEq] at hbt
                  exact hinv.ord t1 b xs (by rw [hT, hbt.1])
            · cases c2 with
              | nil =>
                  simp only [List.append_nil] at ht1
                  simp only [List.nil_append, List.cons.injEq] at hv2
                  rw [ht1, ← hv2.1]
                  exact hbound
              | cons x xs =>
                  simp only [List.cons_append, List.cons.injEq] at hv2
                  exact absurd hv2.2 (by simp)
          have hinv2 : KInv vertices (rest ++ pushed) m2 (T ++ [v]) :=
            ⟨val2, ndp2, mem2, zer2, low2, ord2⟩
          have hf2 : 2 * alMeasure m2 + (rest ++ pushed).length < fuel := by
            simp only [List.length_append]
            simp only [List.length_cons] at hf
            omega
          obtain ⟨T2, mf, hrun, hfin⟩ := ih (rest ++ pushed) m2 (T ++ [v]) hf2 hinv2
          refine ⟨T2, mf, ?_, hfin⟩
          unfold TopologicalSort.kahnLoop
          simp only [hpo]
          exact hrun

theorem kahn_init (vertices : List Pass) (hnd : (vertices.map Pass.mId).Nodup) :
    KInv vertices
      (vertices.filter (fun v =>
        alGetD (vertices.foldl
          (fun m v => alEmplace m v.mId (Int.ofNat v.mIncomingEdges.length)) []) v.mId == 0))
      (vertices.foldl (fun m v => alEmplace m v.mId (Int.ofNat v.mIncomingEdges.length)) [])
      [] := by
  constructor
  · intro k
    rw [initMap_getD]
    simp [decs]
  · simp only [List.nil_append]
    exact List.Nodup.sublist ((List.filter_sublist vertices).map Pass.mId) hnd
  · intro x hx
    simp only [List.nil_append] at hx
    exact List.mem_of_mem_filter hx
  · intro v hv hle
    rw [initMap_getD] at hle
    simp only [Int.ofNat_eq_natCast] at hle
    have h0 : baseDeg vertices v.mId = 0 := by omega
    simp only [List.nil_append]
    refine List.mem_map.mpr ⟨v, ?_, rfl⟩
    refine List.mem_filter.mpr ⟨hv, ?_⟩
    rw [initMap_getD, h0]
    simp
  · intro x hx
    simp only [List.nil_append] at hx
    have hp := (List.mem_filter.mp hx).2
    simp only [beq_iff_eq] at hp
    rw [hp]
  · intro t1 b t2 h
    have hlen := congrArg List.length h
    simp only [List.length_nil, List.length_append, List.length_cons] at hlen
    omega

theorem execute_spec (vertices : List Pass) (hnd : (vertices.map Pass.mId).Nodup) :
    ∃ T2 m2, KInv vertices [] m2 T2 ∧
      TopologicalSort.execute vertices =
        some (if vertices.all (fun v => alGetD m2 v.mId == 0)
              then Except.ok (T2.map (fun v => v.mId))
              else Except.error TopoError.GraphNotAcyclic) := by
  obtain ⟨T2, m2, hrun, hfin⟩ :=
    kahnLoop_spec vertices
      (2 * alMeasure (vertices.foldl
          (fun m v => alEmplace m v.mId (Int.ofNat v.mIncomingEdges.length)) []) +
        (vertices.filter (fun v =>
          alGetD (vertices.foldl
            (fun m v => alEmplace m v.mId (Int.ofNat v.mIncomingEdges.length)) []) v.mId
            == 0)).length + 1)
      (vertices.filter (fun v =>
        alGetD (vertices.foldl
          (fun m v => alEmplace m v.mId (Int.ofNat v.mIncomingEdges.length)) []) v.mId == 0))
      (vertices.foldl (fun m v => alEmplace m v.mId (Int.ofNat v.mIncomingEdges.length)) [])
      [] (by omega) (kahn_init vertices hnd)
  refine ⟨T2, m2, hfin, ?_⟩
  simp only [TopologicalSort.execute]
  simp only [hrun]
  by_cases hall : vertices.all (fun v => alGetD m2 v.mId == 0) <;> simp [hall]

-- =======================================
-- Degree counting against the edge set of a well-formed graph
-- =======================================

theorem count_map_filter {α : Type} (f : α → Int) (a : Int) :
    ∀ l : List α, (l.map f).count a = (l.filter (fun x => f x = a)).length := by
  intro l
  induction l with
  | nil => rfl
  | cons x t ih =>
      simp only [List.map_cons, List.count_cons, List.filter_cons, ih]
      by_cases h : f x = a
      · simp [h]
      · have hb : ¬ (a == f x) = true := by simpa using fun hh => h hh.symm
        simp [h, hb]

theorem filter_swap_length {α : Type} (p q : α → Bool) :
    ∀ l : List α, ((l.filter q).filter p).length = ((l.filter p).filter q).length := by
  intro l
  rw [List.filter_filter, List.filter_filter]
  congr 1
  apply List.filter_congr
  intro x _
  rw [Bool.and_comm]

theorem filter_or_length {α : Type} (p q : α → Bool) :
    ∀ l : List α, (∀ x ∈ l, ¬ (p x = true ∧ q x = true)) →
      (l.filter (fun x => p x || q x)).length = (l.filter p).length + (l.filter q).length := by
  intro l
  induction l with
  | nil => intro _; rfl
  | cons x t ih =>
      intro hdis
      have ht := ih (fun y hy => hdis y (List.mem_cons_of_mem x hy))
      have hx := hdis x (List.mem_cons_self x t)
      by_cases hp : p x
      · by_cases hq : q x
        · exact absurd ⟨hp, hq⟩ hx
        · simp only [List.filter_cons, hp, hq, Bool.or_false, if_true, if_false,
            Bool.false_eq_true, List.length_cons, ht]
          omega
      · by_cases hq : q x
        · simp only [List.filter_cons, hp, hq, Bool.false_or, if_true, if_false,
            Bool.false_eq_true, List.length_cons, ht]
          omega
        · simp only [List.filter_cons, hp, hq, Bool.or_self, if_false,
            Bool.false_eq_true, ht]

theorem WF_out_count {g : RenderGraph} (hWF : g.WF) {t : Pass}
    (ht : t ∈ g.mVertices) (k : Int) :
    t.mOutgoingEdges.count k =
      ((g.mEdges.filter (fun e => e.dstId = k)).filter
        (fun e => e.srcId = t.mId)).length := by
  have hperm := (hWF.2.1 t ht).2
  rw [hperm.count_eq, count_map_filter, filter_swap_length]

theorem decs_as_filter {g : RenderGraph} (hWF : g.WF) (k : Int) :
    ∀ L : List Pass, (∀ t ∈ L, t ∈ g.mVertices) → ((L.map Pass.mId).Nodup) →
      decs L k = ((g.mEdges.filter (fun e => e.dstId = k)).filter
          (fun e => L.any (fun t => e.srcId = t.mId))).length := by
  intro L
  induction L with
  | nil =>
      intro _ _
      simp [decs]
  | cons t L ih =>
      intro hsub hnd
      simp only [List.map_cons, List.nodup_cons] at hnd
      rw [decs_cons, WF_out_count hWF (hsub t (List.mem_cons_self t L)) k,
        ih (fun x hx => hsub x (List.mem_cons_of_mem t hx)) hnd.2]
      rw [← filter_or_length (fun (e : Edge) => decide (e.srcId = t.mId))
        (fun (e : Edge) => L.any (fun u => e.srcId = u.mId)) _ ?hdis]
      case hdis =>
        intro e _ hcon
        simp only [decide_eq_true_eq, List.any_eq_true] at hcon
        obtain ⟨h1, u, hu, h2⟩ := hcon
        exact hnd.1 (List.mem_map.mpr ⟨u, hu, by rw [← h2, ← h1]⟩)
      congr 1

theorem find?_mId_self :
    ∀ (l : List Pass), ((l.map Pass.mId).Nodup) → ∀ v ∈ l,
      l.find? (fun p => p.mId = v.mId) = some v := by
  intro l
  induction l with
  | nil => intro _ v hv; exact absurd hv (by simp)
  | cons x t ih =>
      intro hnd v hv
      simp only [List.map_cons, List.nodup_cons] at hnd
      by_cases hx : x.mId = v.mId
      · have hxv : v = x := by
          cases hv with
          | head => rfl
          | tail _ hvt =>
              exact absurd (List.mem_map.mpr ⟨v, hvt, hx.symm⟩) hnd.1
        rw [hxv]
        exact List.find?_cons_of_pos _ (by simp)
      · rw [List.find?_cons_of_neg _ (by simpa using hx)]
        cases hv with
        | head => exact absurd rfl hx
        | tail _ hvt => exact ih hnd.2 v hvt

theorem baseDeg_as_filter {g : RenderGraph} (hWF : g.WF) {L : List Pass}
    (hsub : ∀ t ∈ L, t ∈ g.mVertices) (hnd : (L.map Pass.mId).Nodup)
    {v : Pass} (hv : v ∈ L) :
    baseDeg L v.mId = (g.mEdges.filter (fun e => e.dstId = v.mId)).length := by
  have hf := find?_mId_self L hnd v hv
  unfold baseDeg
  simp only [hf]
  have hperm := (hWF.2.1 v (hsub v hv)).1
  rw [hperm.length_eq, List.length_map]

theorem all_of_filter_length {α : Type} (p : α → Bool) :
    ∀ l : List α, (l.filter p).length = l.length → ∀ x ∈ l, p x = true := by
  intro l
  induction l with
  | nil => intro _ x hx; exact absurd hx (by simp)
  | cons y t ih =>
      intro hlen x hx
      by_cases hy : p y
      · rw [List.filter_cons, if_pos hy] at hlen
        simp only [List.length_cons, Nat.add_right_cancel_iff] at hlen
        cases hx with
        | head => exact hy
        | tail _ hxt => exact ih hlen x hxt
      · rw [List.filter_cons, if_neg hy] at hlen
        have := List.length_filter_le p t
        simp only [List.length_cons] at hlen
        omega

theorem filter_lt_exists {α : Type} (p : α → Bool) :
    ∀ l : List α, (l.filter p).length < l.length → ∃ x ∈ l, p x = false := by
  intro l
  induction l with
  | nil => intro h; simp at h
  | cons y t ih =>
      intro hlen
      by_cases hy : p y
      · rw [List.filter_cons, if_pos hy] at hlen
        simp only [List.length_cons] at hlen
        obtain ⟨x, hx, hpx⟩ := ih (by omega)
        exact ⟨x, List.mem_cons_of_mem y hx, hpx⟩
      · exact ⟨y, List.mem_cons_self y t, by simpa using hy⟩

theorem mem_id_unique :
    ∀ (l : List Pass), ((l.map Pass.mId).Nodup) → ∀ {a b : Pass},
      a ∈ l → b ∈ l → a.mId = b.mId → a = b := by
  intro l
  induction l with
  | nil => intro _ a b ha; exact absurd ha (by simp)
  | cons x t ih =>
      intro hnd a b ha hb hab
      simp only [List.map_cons, List.nodup_cons] at hnd
      cases ha with
      | head =>
          cases hb with
          | head => rfl
          | tail _ hbt =>
              exact absurd (List.mem_map.mpr ⟨b, hbt, hab.symm⟩) hnd.1
      | tail _ hat =>
          cases hb with
          | head =>
              exact absurd (List.mem_map.mpr ⟨a, hat, hab⟩) hnd.1
          | tail _ hbt => exact ih hnd.2 hat hbt hab

theorem nodup_pos_unique {α : Type} :
    ∀ (l : List α), l.Nodup → ∀ (i j : Nat) (a : α),
      l.get? i = some a → l.get? j = some a → i = j := by
  intro l
  induction l with
  | nil => intro _ i j a hi; simp at hi
  | cons x t ih =>
      intro hnd i j a hi hj
      simp only [List.nodup_cons] at hnd
      cases i with
      | zero =>
          cases j with
          | zero => rfl
          | succ j2 =>
              simp only [List.get?_cons_zero, Option.some.injEq] at hi
              simp only [List.get?_cons_succ] at hj
              exact absurd (hi ▸ List.get?_mem hj) hnd.1
      | succ i2 =>
          cases j with
          | zero =>
              simp only [List.get?_cons_zero, Option.some.injEq] at hj
              simp only [List.get?_cons_succ] at hi
              exact absurd (hj ▸ List.get?_mem hi) hnd.1
          | succ j2 =>
              simp only [List.get?_cons_succ] at hi hj
              rw [ih hnd.2 i2 j2 a hi hj]

theorem get?_append_cons {α : Type} :
    ∀ (A : List α) (x : α) (B : List α), (A ++ x :: B).get? A.length = some x := by
  intro A
  induction A with
  | nil => intro x B; rfl
  | cons y t ih => intro x B; simpa using ih x B

-- =======================================
-- Success of the sort puts every surviving edge source before its destination
-- =======================================

theorem kahn_success_order {g : RenderGraph} (hWF : g.WF)
    {vertices T2 : List Pass} {mf : DegMap}
    (hsub : ∀ t ∈ vertices, t ∈ g.mVertices)
    (hnd : (vertices.map Pass.mId).Nodup)
    (hfin : KInv vertices [] mf T2)
    (hok : ∀ v ∈ vertices, alGetD mf v.mId = 0)
    {e : Edge} (he : e ∈ g.mEdges)
    (hdst : ∃ w ∈ vertices, w.mId = e.dstId) :
    ∃ i j, i < j ∧ (T2.map Pass.mId).get? i = some e.srcId ∧
      (T2.map Pass.mId).get? j = some e.dstId := by
  obtain ⟨w, hwv, hwid⟩ := hdst
  have hwT : w.mId ∈ (T2.map Pass.mId) := by
    have := hfin.zer w hwv (le_of_eq (hok w hwv))
    simpa using this
  obtain ⟨w2, hw2T2, hw2id⟩ := List.mem_map.mp hwT
  have hw2v : w2 ∈ vertices := hfin.mem w2 (List.mem_append.mpr (Or.inl hw2T2))
  have hw2w : w2 = w := mem_id_unique vertices hnd hw2v hwv hw2id
  obtain ⟨L1, L2, hT2split⟩ := List.append_of_mem (hw2w ▸ hw2T2)
  have hord := hfin.ord L1 w L2 hT2split
  have hL1sub : ∀ t ∈ L1, t ∈ g.mVertices := by
    intro t ht
    refine hsub t (hfin.mem t ?_)
    refine List.mem_append.mpr (Or.inl ?_)
    rw [hT2split]
    exact List.mem_append.mpr (Or.inl ht)
  have hT2nd : (T2.map Pass.mId).Nodup := by
    have := hfin.ndp
    simpa using this
  have hL1nd : (L1.map Pass.mId).Nodup := by
    rw [hT2split] at hT2nd
    simp only [List.map_append] at hT2nd
    exact (List.nodup_append.mp hT2nd).1
  have hbase := baseDeg_as_filter hWF hsub hnd hwv
  have hdecs := decs_as_filter hWF w.mId L1 hL1sub hL1nd
  rw [hbase, hdecs] at hord
  have hle := List.length_filter_le (fun e => L1.any (fun t => e.srcId = t.mId))
      (g.mEdges.filter (fun e => e.dstId = w.mId))
  have heq : ((g.mEdges.filter (fun e => e.dstId = w.mId)).filter
      (fun e => L1.any (fun t => e.srcId = t.mId))).length =
      (g.mEdges.filter (fun e => e.dstId = w.mId)).length := by omega
  have hall := all_of_filter_length _ _ heq
  have heF : e ∈ g.mEdges.filter (fun e => e.dstId = w.mId) :=
    List.mem_filter.mpr ⟨he, by simp [hwid]⟩
  have hesrc := hall e heF
  simp only [List.any_eq_true, decide_eq_true_eq] at hesrc
  obtain ⟨t1, ht1L1, ht1id⟩ := hesrc
  obtain ⟨A, B, hL1split⟩ := List.append_of_mem ht1L1
  refine ⟨A.length, L1.length, ?_, ?_, ?_⟩
  · rw [hL1split]
    simp only [List.length_append, List.length_cons]
    omega
  · rw [hT2split, hL1split]
    have hshape : ((A ++ t1 :: B) ++ w :: L2).map Pass.mId
        = A.map Pass.mId ++ t1.mId ::
            (B.map Pass.mId ++ w.mId :: L2.map Pass.mId) := by
      simp
    rw [hshape, ← List.length_map A Pass.mId, get?_append_cons, ht1id]
  · rw [hT2split]
    have hshape : (L1 ++ w :: L2).map Pass.mId
        = L1.map Pass.mId ++ w.mId :: L2.map Pass.mId := by
      simp
    rw [hshape, ← List.length_map L1 Pass.mId, get?_append_cons, hwid]

-- =======================================
-- Culling output: sorted, duplicate-free, resolvable ids
-- =======================================

theorem idsetInsert_mem (x z : Int) :
    ∀ s : List Int, z ∈ idsetInsert s x ↔ z = x ∨ z ∈ s := by
  intro s
  induction s with
  | nil => simp [idsetInsert]
  | cons y t ih =>
      simp only [idsetInsert]
      by_cases h1 : x < y
      · rw [if_pos h1]
        simp only [List.mem_cons]
      · rw [if_neg h1]
        by_cases h2 : x = y
        · rw [if_pos h2]
          simp only [List.mem_cons, h2]
          tauto
        · rw [if_neg h2]
          simp only [List.mem_cons, ih]
          tauto

theorem idsetInsert_sorted (x : Int) :
    ∀ s : List Int, s.Sorted (· < ·) → (idsetInsert s x).Sorted (· < ·) := by
  intro s
  induction s with
  | nil => intro _; simp [idsetInsert]
  | cons y t ih =>
      intro hs
      rw [List.sorted_cons] at hs
      simp only [idsetInsert]
      by_cases h1 : x < y
      · rw [if_pos h1, List.sorted_cons]
        refine ⟨?_, List.sorted_cons.mpr hs⟩
        intro b hb
        cases hb with
        | head => exact h1
        | tail _ hbt => exact lt_trans h1 (hs.1 b hbt)
      · rw [if_neg h1]
        by_cases h2 : x = y
        · rw [if_pos h2]
          exact List.sorted_cons.mpr hs
        · rw [if_neg h2, List.sorted_cons]
          refine ⟨?_, ih hs.2⟩
          intro b hb
          rw [idsetInsert_mem] at hb
          cases hb with
          | inl hbx =>
              rw [hbx]
              exact lt_of_le_of_ne (not_lt.mp h1) (fun hh => h2 hh.symm)
          | inr hbt => exact hs.1 b hbt

theorem foldl_idsetInsert_sorted :
    ∀ (l : List Int) (s : List Int), s.Sorted (· < ·) →
      (l.foldl (fun s id => idsetInsert s id) s).Sorted (· < ·) := by
  intro l
  induction l with
  | nil => intro s hs; exact hs
  | cons x t ih => intro s hs; exact ih _ (idsetInsert_sorted x s hs)

theorem foldl_idsetInsert_mem :
    ∀ (l : List Int) (s : List Int) (z : Int),
      z ∈ l.foldl (fun s id => idsetInsert s id) s ↔ z ∈ s ∨ z ∈ l := by
  intro l
  induction l with
  | nil => intro s z; simp
  | cons x t ih =>
      intro s z
      rw [List.foldl_cons, ih, idsetInsert_mem]
      simp only [List.mem_cons]
      tauto

theorem foldlp_idsetInsert_sorted :
    ∀ (l : List Pass) (s : List Int), s.Sorted (· < ·) →
      (l.foldl (fun s p => idsetInsert s p.mId) s).Sorted (· < ·) := by
  intro l
  induction l with
  | nil => intro s hs; exact hs
  | cons x t ih => intro s hs; exact ih _ (idsetInsert_sorted x.mId s hs)

theorem foldlp_idsetInsert_mem :
    ∀ (l : List Pass) (s : List Int) (z : Int),
      z ∈ l.foldl (fun s p => idsetInsert s p.mId) s ↔ z ∈ s ∨ ∃ p ∈ l, z = p.mId := by
  intro l
  induction l with
  | nil => intro s z; simp
  | cons x t ih =>
      intro s z
      rw [List.foldl_cons, ih, idsetInsert_mem]
      simp only [List.mem_cons]
      constructor
      · rintro ((h | h) | ⟨p, hp, hz⟩)
        · exact Or.inr ⟨x, Or.inl rfl, h⟩
        · exact Or.inl h
        · exact Or.inr ⟨p, Or.inr hp, hz⟩
      · rintro (h | ⟨p, hp | hp, hz⟩)
        · exact Or.inl (Or.inr h)
        · exact Or.inl (Or.inl (by rw [hz, hp]))
        · exact Or.inr ⟨p, hp, hz⟩

theorem cull_nodup {g : RenderGraph} {ids : List Int}
    (h : RenderGraphCompiler.cullNodes g = .ok ids) : ids.Nodup := by
  unfold RenderGraphCompiler.cullNodes at h
  cases hroot : RenderGraphCompiler.getRootNode g with
  | none => rw [hroot] at h; exact absurd h (by simp)
  | some root =>
      rw [hroot] at h
      simp only [Except.ok.injEq] at h
      rw [← h]
      have hs0 := foldlp_idsetInsert_sorted
        (g.mVertices.filter (fun p => p.flags.neverCull)) [] (by simp)
      exact (foldl_idsetInsert_sorted _ _ hs0).nodup

theorem visitNeighbors_resolvable (g : RenderGraph) :
    ∀ (outIds : List Int) (visited : List Int) (pushed : List Pass),
      (∀ z ∈ visited, (g.getPassById z).isSome = true) →
      ∀ z ∈ (BFS.visitNeighbors g outIds visited pushed).1,
        (g.getPassById z).isSome = true := by
  intro outIds
  induction outIds with
  | nil => intro visited pushed hv z hz; exact hv z hz
  | cons w t ih =>
      intro visited pushed hv z hz
      unfold BFS.visitNeighbors at hz
      by_cases hw : w ∈ visited
      · rw [if_pos hw] at hz
        exact ih visited pushed hv z hz
      · rw [if_neg hw] at hz
        cases hp : g.getPassById w with
        | some p =>
            rw [hp] at hz
            refine ih _ _ ?_ z hz
            intro y hy
            rw [idsetInsert_mem] at hy
            cases hy with
            | inl h1 => rw [h1, hp]; rfl
            | inr h2 => exact hv y h2
        | none =>
            rw [hp] at hz
            exact ih visited pushed hv z hz

theorem bfsLoop_resolvable (g : RenderGraph) :
    ∀ (fuel : Nat) (Q : List Pass) (visited : List Int),
      (∀ z ∈ visited, (g.getPassById z).isSome = true) →
      ∀ z ∈ BFS.loop g fuel Q visited, (g.getPassById z).isSome = true := by
  intro fuel
  induction fuel with
  | zero =>
      intro Q visited hv z hz
      simp only [BFS.loop] at hz
      exact hv z hz
  | succ fuel ih =>
      intro Q visited hv z hz
      cases Q with
      | nil =>
          simp only [BFS.loop] at hz
          exact hv z hz
      | cons cur rest =>
          simp only [BFS.loop] at hz
          exact ih _ _ (visitNeighbors_resolvable g cur.mOutgoingEdges visited [] hv) z hz

theorem cull_resolvable {g : RenderGraph} {ids : List Int}
    (h : RenderGraphCompiler.cullNodes g = .ok ids) :
    ∀ id ∈ ids, (g.getPassById id).isSome = true := by
  unfold RenderGraphCompiler.cullNodes at h
  cases hroot : RenderGraphCompiler.getRootNode g with
  | none => rw [hroot] at h; exact absurd h (by simp)
  | some root =>
      rw [hroot] at h
      simp only [Except.ok.injEq] at h
      intro id hid
      rw [← h, foldl_idsetInsert_mem] at hid
      cases hid with
      | inl h0 =>
          rw [foldlp_idsetInsert_mem] at h0
          cases h0 with
          | inl habs => exact absurd habs (by simp)
          | inr hp =>
              obtain ⟨p, hp1, hp2⟩ := hp
              exact getPassById_isSome_iff.mpr ⟨p, List.mem_of_mem_filter hp1, hp2.symm⟩
      | inr hr =>
          have hrootmem : root ∈ g.mVertices := by
            unfold RenderGraphCompiler.getRootNode at hroot
            exact List.mem_of_find?_eq_some hroot
          unfold BFS.execute at hr
          refine bfsLoop_resolvable g _ _ _ ?_ id hr
          intro z hz
          rw [idsetInsert_mem] at hz
          cases hz with
          | inl h1 =>
              rw [h1]
              exact getPassById_isSome_iff.mpr ⟨root, hrootmem, rfl⟩
          | inr h2 => exact absurd h2 (by simp)

-- =======================================
-- Inversion of the resolution and compile pipeline
-- =======================================

theorem toNodePtrList_spec {g : RenderGraph} :
    ∀ {ids : List Int} {vs : List Pass}, g.toNodePtrList ids = some vs →
      vs.map Pass.mId = ids ∧ ∀ v ∈ vs, v ∈ g.mVertices := by
  intro ids
  induction ids with
  | nil =>
      intro vs h
      simp only [RenderGraph.toNodePtrList, List.mapM_nil, pure, Option.some.injEq] at h
      rw [← h]
      simp
  | cons x t ih =>
      intro vs h
      unfold RenderGraph.toNodePtrList at h
      rw [List.mapM_cons] at h
      cases hx : g.getPassById x with
      | none => rw [hx] at h; simp at h
      | some p =>
          rw [hx] at h
          cases ht : t.mapM (fun id => g.getPassById id) with
          | none => rw [ht] at h; simp at h
          | some ps =>
              rw [ht] at h
              simp only [Option.bind_eq_bind, Option.some_bind, Option.pure_def,
                Option.some.injEq] at h
              obtain ⟨hmap, hmem⟩ := ih (show g.toNodePtrList t = some ps from ht)
              constructor
              · rw [← h]
                simp only [List.map_cons, hmap, (getPassById_mId hx).1]
              · intro v hv
                rw [← h] at hv
                cases hv with
                | head => exact (getPassById_mId hx).2
                | tail _ hvt => exact hmem v hvt

theorem compile_success_inv {g : RenderGraph} {opts : RGCompilerOptions} {c : Int}
    {out : RGCompilerOutput} {po : RGCompilerPhaseOutputs}
    (h : RenderGraphCompiler.compile g opts c = some out)
    (hpo : out.phaseOutputs = some po) :
    RenderGraphCompiler.cullNodes g = .ok po.cullNodes ∧
    RenderGraphCompiler.getSerialExecutionOrder g po.cullNodes =
      some (.ok po.serialExecutionOrder) ∧
    ∃ par c1, RenderGraphCompiler.getParallelizableTasks g po.serialExecutionOrder c =
        some (par, c1) ∧
      RenderGraphCompiler.getFinalTaskOrder g po.serialExecutionOrder par opts =
        some (po.taskOrder, po.parallelizableNodes) := by
  unfold RenderGraphCompiler.compile at h
  split at h
  · next err heq =>
      simp only [Option.some.injEq] at h
      rw [← h] at hpo
      simp [RenderGraphCompiler.createErrorOutput] at hpo
  · next cullIds heq1 =>
      split at h
      · exact absurd h (by simp)
      · next err heq2 =>
          simp only [Option.some.injEq] at h
          rw [← h] at hpo
          simp [RenderGraphCompiler.createErrorOutput] at hpo
      · next serialOrder heq2 =>
          split at h
          · exact absurd h (by simp)
          · next parallelizable c1 heq3 =>
              split at h
              · exact absurd h (by simp)
              · next tasks par2 heq4 =>
                  split at h
                  · exact absurd h (by simp)
                  · next optOut c2 heq5 =>
                      split at h
                      · exact absurd h (by simp)
                      · next templates heq6 =>
                          simp only [Option.some.injEq] at h
                          rw [← h] at hpo
                          simp only [Option.some.injEq] at hpo
                          rw [← hpo]
                          exact ⟨heq1, heq2, parallelizable, c1, heq3, heq4⟩

/-- Claim C4: on a well-formed graph, when compilation succeeds the serial
execution order is a topological order of the surviving sub-graph: every
edge whose endpoints both survive culling has its source placed at a
strictly earlier position than its destination. -/
theorem c4_topological_order (g : RenderGraph) (opts : RGCompilerOptions) (c : Int)
    (out : RGCompilerOutput) (po : RGCompilerPhaseOutputs) (hWF : g.WF)
    (h : RenderGraphCompiler.compile g opts c = some out)
    (hpo : out.phaseOutputs = some po) :
    ∀ e ∈ g.mEdges, e.srcId ∈ po.cullNodes → e.dstId ∈ po.cullNodes →
      ∃ i j, i < j ∧ po.serialExecutionOrder.get? i = some e.srcId ∧
        po.serialExecutionOrder.get? j = some e.dstId := by
  obtain ⟨hcull, hserial, -⟩ := compile_success_inv h hpo
  unfold RenderGraphCompiler.getSerialExecutionOrder at hserial
  cases htl : g.toNodePtrList po.cullNodes with
  | none => rw [htl] at hserial; exact absurd hserial (by simp)
  | some vs =>
      obtain ⟨hmap, hsubv⟩ := toNodePtrList_spec htl
      have hndids : po.cullNodes.Nodup := cull_nodup hcull
      have hndvs : (vs.map Pass.mId).Nodup := by rw [hmap]; exact hndids
      obtain ⟨T2, m2, hfin, hexec⟩ := execute_spec vs hndvs
      by_cases hall : vs.all (fun v => alGetD m2 v.mId == 0)
      · rw [if_pos hall] at hexec
        simp only [htl, hexec, Option.some.injEq, Except.ok.injEq] at hserial
        intro e he hsrcK hdstK
        have hdst : ∃ w ∈ vs, w.mId = e.dstId := by
          rw [← hmap] at hdstK
          obtain ⟨w, hw, hwid⟩ := List.mem_map.mp hdstK
          exact ⟨w, hw, hwid⟩
        have hok : ∀ v ∈ vs, alGetD m2 v.mId = 0 := by
          intro v hv
          have := List.all_eq_true.mp hall v hv
          simpa using this
        obtain ⟨i, j, hij, hi, hj⟩ := kahn_success_order hWF hsubv hndvs hfin hok he hdst
        refine ⟨i, j, hij, ?_, ?_⟩
        · rw [← hserial]
          exact hi
        · rw [← hserial]
          exact hj
      · rw [if_neg hall] at hexec
        simp only [htl, hexec] at hserial
        simp at hserial

/-- Witness for c4_topological_order: in the compiled repository example
the root edge (0, 2) appears in serial order with 0 before 2. -/
theorem c4_witness :
    ∃ out po, RenderGraphCompiler.compile exampleGraph {} 100 = some out ∧
      out.phaseOutputs = some po ∧
      ∃ i j, i < j ∧ po.serialExecutionOrder.get? i = some 0 ∧
        po.serialExecutionOrder.get? j = some 2 := by
  refine ⟨_, _, rfl, rfl, ?_⟩
  have he : (⟨23, 0, 2, 1, "scene", 3, "scene"⟩ : Edge) ∈ exampleGraph.mEdges := by decide
  exact c4_topological_order exampleGraph {} 100 _ _ (by decide) rfl rfl
    _ he (by decide) (by decide)

-- =======================================
-- Cycle machinery: strict orders and the pigeonhole cycle extraction
-- =======================================

theorem transGen_lt_of_step {rel : Int → Int → Prop}
    (hstep : ∀ a b, rel a b → a < b) :
    ∀ a b, Relation.TransGen rel a b → a < b := by
  intro a b h
  induction h with
  | single h1 => exact hstep _ _ h1
  | tail h1 h2 ih => exact lt_trans ih (hstep _ _ h2)

theorem chain_iterate {rel : Int → Int → Prop} (f : Int → Int) (v0 : Int)
    (S : Finset Int) (hS : ∀ v ∈ S, f v ∈ S ∧ rel (f v) v) (hv0 : v0 ∈ S) :
    ∀ n, f^[n] v0 ∈ S := by
  intro n
  induction n with
  | zero => simpa using hv0
  | succ n ih =>
      rw [Function.iterate_succ_apply']
      exact (hS _ ih).1

theorem chain_transGen {rel : Int → Int → Prop} (f : Int → Int) (v0 : Int)
    (S : Finset Int) (hS : ∀ v ∈ S, f v ∈ S ∧ rel (f v) v) (hv0 : v0 ∈ S) :
    ∀ (d i : Nat), 0 < d → Relation.TransGen rel (f^[i + d] v0) (f^[i] v0) := by
  intro d
  induction d with
  | zero => intro i h; omega
  | succ d ih =>
      intro i hd
      by_cases hd0 : d = 0
      · subst hd0
        have he : f^[i + 1] v0 = f (f^[i] v0) := Function.iterate_succ_apply' f i v0
        rw [he]
        exact Relation.TransGen.single (hS _ (chain_iterate f v0 S hS hv0 i)).2
      · have h1 : Relation.TransGen rel (f^[i + d] v0) (f^[i] v0) := ih i (by omega)
        have h2 : rel (f^[i + d + 1] v0) (f^[i + d] v0) := by
          have he : f^[i + d + 1] v0 = f (f^[i + d] v0) :=
            Function.iterate_succ_apply' f (i + d) v0
          rw [he]
          exact (hS _ (chain_iterate f v0 S hS hv0 (i + d))).2
        have he2 : i + (d + 1) = i + d + 1 := by omega
        rw [he2]
        exact Relation.TransGen.head h2 h1

theorem cycle_of_in_neighbors (rel : Int → Int → Prop) (S : Finset Int)
    (hne : S.Nonempty) (h : ∀ v ∈ S, ∃ u ∈ S, rel u v) :
    ∃ a, Relation.TransGen rel a a := by
  classical
  choose! f hf1 hf2 using h
  have hS : ∀ v ∈ S, f v ∈ S ∧ rel (f v) v := fun v hv => ⟨hf1 v hv, hf2 v hv⟩
  obtain ⟨v0, hv0⟩ := hne
  have hmaps : ∀ i ∈ Finset.range (S.card + 1), f^[i] v0 ∈ S :=
    fun i _ => chain_iterate f v0 S hS hv0 i
  have hcard : S.card < (Finset.range (S.card + 1)).card := by simp
  obtain ⟨i, hi, j, hj, hij, heq⟩ :=
    Finset.exists_ne_map_eq_of_card_lt_of_maps_to hcard hmaps
  have key : ∀ a b : Nat, a < b → f^[a] v0 = f^[b] v0 →
      ∃ x, Relation.TransGen rel x x := by
    intro a b hab he2
    refine ⟨f^[a] v0, ?_⟩
    have h3 := chain_transGen f v0 S hS hv0 (b - a) a (by omega)
    rw [show a + (b - a) = b from by omega] at h3
    rw [← he2] at h3
    exact h3
  rcases Nat.lt_or_ge i j with hlt | hge
  · exact key i j hlt heq
  · exact key j i (by omega) heq.symm

/-- Claim C3 counterexample: on gC3 the culling keeps the ids 0 and 2, the
induced sub-graph on those ids is acyclic (its only induced edge goes from
0 to 2), yet the serial-order phase reports CyclicDependency, because the
in-degree of pass 2 counts the edge from the culled pass 4 which is never
decremented. -/
theorem c3_counterexample :
    RenderGraphCompiler.cullNodes gC3 = .ok [0, 2] ∧
    RenderGraphCompiler.getSerialExecutionOrder gC3 [0, 2] =
      some (.error .CyclicDependency) ∧
    ¬ InducedCycle gC3 [0, 2] := by
  refine ⟨by rfl, by rfl, ?_⟩
  rintro ⟨a, htg⟩
  have hstep : ∀ x y, EdgeRelOn gC3 [0, 2] x y → x < y := by
    rintro x y ⟨hx, hy, e, he, hsrc, hdst⟩
    have he2 : e = (⟨6, 0, 2, 1, "scene", 3, "a0"⟩ : Edge) ∨
        e = (⟨7, 4, 2, 5, "x0", 3, "a0"⟩ : Edge) := by
      simpa [gC3] using he
    cases he2 with
    | inl h1 =>
        rw [h1] at hsrc hdst
        simp only [] at hsrc hdst
        rw [← hsrc, ← hdst]
        decide
    | inr h2 =>
        rw [h2] at hsrc
        rw [← hsrc] at hx
        simp at hx
  exact absurd (transGen_lt_of_step hstep a a htg) (lt_irrefl a)

/-- Claim C3 (amended): for a well-formed graph, over the ids kept by a
successful culling whose incoming edge set is closed under the kept ids
(every edge into a kept pass starts at a kept pass), the serial-order
phase fails with CyclicDependency exactly when the sub-graph induced by
the kept ids contains a directed cycle.  Without the closure condition
the equivalence fails, see c3_counterexample. -/
theorem c3_amended (g : RenderGraph) (ids : List Int) (hWF : g.WF)
    (hcull : RenderGraphCompiler.cullNodes g = .ok ids)
    (hclosed : ∀ e ∈ g.mEdges, e.dstId ∈ ids → e.srcId ∈ ids) :
    (RenderGraphCompiler.getSerialExecutionOrder g ids =
      some (.error .CyclicDependency)) ↔ InducedCycle g ids := by
  have hres : ∀ id ∈ ids, (g.getPassById id).isSome = true := cull_resolvable hcull
  have hndids : ids.Nodup := cull_nodup hcull
  obtain ⟨vs, htl⟩ := mapM_isSome (fun id => g.getPassById id) ids hres
  have htl2 : g.toNodePtrList ids = some vs := htl
  obtain ⟨hmap, hsubv⟩ := toNodePtrList_spec htl2
  have hndvs : (vs.map Pass.mId).Nodup := by rw [hmap]; exact hndids
  obtain ⟨T2, m2, hfin, hexec⟩ := execute_spec vs hndvs
  have hT2nd : (T2.map Pass.mId).Nodup := by
    have := hfin.ndp
    simpa using this
  have hT2sub : ∀ t ∈ T2, t ∈ g.mVertices :=
    fun t ht => hsubv t (hfin.mem t (List.mem_append.mpr (Or.inl ht)))
  by_cases hall : vs.all (fun v => alGetD m2 v.mId == 0)
  · rw [if_pos hall] at hexec
    have hlhs : RenderGraphCompiler.getSerialExecutionOrder g ids =
        some (.ok (T2.map (fun v => v.mId))) := by
      unfold RenderGraphCompiler.getSerialExecutionOrder
      simp only [htl2, hexec]
    rw [hlhs]
    constructor
    · intro hcon
      simp at hcon
    · intro hcyc
      exfalso
      obtain ⟨a, htg⟩ := hcyc
      have hok : ∀ v ∈ vs, alGetD m2 v.mId = 0 := by
        intro v hv
        have := List.all_eq_true.mp hall v hv
        simpa using this
      have hpos : ∀ x, x ∈ ids → ∃ i, (T2.map Pass.mId).get? i = some x := by
        intro x hx
        rw [← hmap] at hx
        obtain ⟨w, hw, hwid⟩ := List.mem_map.mp hx
        have hwT : w.mId ∈ T2.map Pass.mId := by
          have := hfin.zer w hw (le_of_eq (hok w hw))
          simpa using this
        rw [hwid] at hwT
        exact List.mem_iff_get?.mp hwT
      have hstep : ∀ x y, EdgeRelOn g ids x y →
          ∀ i j, (T2.map Pass.mId).get? i = some x →
            (T2.map Pass.mId).get? j = some y → i < j := by
        intro x y h1 i j hi hj
        obtain ⟨hx, hy, e, he, hsrc, hdst⟩ := h1
        have hdst2 : ∃ w ∈ vs, w.mId = e.dstId := by
          have hd : e.dstId ∈ ids := by rw [hdst]; exact hy
          rw [← hmap] at hd
          obtain ⟨w, hw, hwid⟩ := List.mem_map.mp hd
          exact ⟨w, hw, hwid⟩
        obtain ⟨i0, j0, hij0, hi0, hj0⟩ :=
          kahn_success_order hWF hsubv hndvs hfin hok he hdst2
        have hi0x : (T2.map Pass.mId).get? i0 = some x := by rw [hi0, hsrc]
        have hj0y : (T2.map Pass.mId).get? j0 = some y := by rw [hj0, hdst]
        rw [nodup_pos_unique _ hT2nd i i0 x hi hi0x,
          nodup_pos_unique _ hT2nd j j0 y hj hj0y]
        exact hij0
      have hmono : ∀ x y, Relation.TransGen (EdgeRelOn g ids) x y →
          ∀ i j, (T2.map Pass.mId).get? i = some x →
            (T2.map Pass.mId).get? j = some y → i < j := by
        intro x y htg2
        induction htg2 with
        | single h1 => exact hstep _ _ h1
        | tail h1 h2 ih =>
            intro i j hi hj
            obtain ⟨b2, hb2⟩ := hpos _ h2.1
            exact lt_trans (ih i b2 hi hb2) (hstep _ _ h2 b2 j hb2 hj)
      have hsrcmem : ∀ x y : Int, Relation.TransGen (EdgeRelOn g ids) x y → x ∈ ids := by
        intro x y htg2
        induction htg2 with
        | single h1 => exact h1.1
        | tail h1 h2 ih => exact ih
      obtain ⟨ia, hia⟩ := hpos a (hsrcmem a a htg)
      exact absurd (hmono a a htg ia ia hia hia) (lt_irrefl ia)
  · rw [if_neg hall] at hexec
    have hlhs : RenderGraphCompiler.getSerialExecutionOrder g ids =
        some (.error .CyclicDependency) := by
      unfold RenderGraphCompiler.getSerialExecutionOrder
      simp only [htl2, hexec]
    rw [hlhs]
    simp only [true_iff]
    -- build the cycle from the blocked vertices
    have hge : ∀ x ∈ vs, 0 ≤ alGetD m2 x.mId := by
      intro x hx
      rw [hfin.val x.mId]
      have h1 := baseDeg_as_filter hWF hsubv hndvs hx
      have h2 := decs_as_filter hWF x.mId T2 hT2sub hT2nd
      have h3 := List.length_filter_le (fun e => T2.any (fun t => e.srcId = t.mId))
        (g.mEdges.filter (fun e => e.dstId = x.mId))
      rw [h1, h2]
      simp only [Int.ofNat_eq_natCast]
      omega
    have hallf : ∃ v ∈ vs, ¬ alGetD m2 v.mId = 0 := by
      by_contra hcon
      push_neg at hcon
      exact hall (List.all_eq_true.mpr (fun v hv => by simp [hcon v hv]))
    obtain ⟨v, hv, hvne2⟩ := hallf
    have hnotinT : ∀ x, x ∈ vs → ¬ alGetD m2 x.mId = 0 →
        x.mId ∉ T2.map Pass.mId := by
      intro x hx hxne hxin
      obtain ⟨t, htT, htid⟩ := List.mem_map.mp hxin
      have hle := hfin.low t (List.mem_append.mpr (Or.inl htT))
      rw [htid] at hle
      have h0 := hge x hx
      omega
    have hRstep : ∀ w, w ∈ vs → w.mId ∉ T2.map Pass.mId →
        ∃ u, u ∈ vs ∧ u.mId ∉ T2.map Pass.mId ∧ EdgeRelOn g ids u.mId w.mId := by
      intro w hw hwnot
      have hwpos : 0 < alGetD m2 w.mId := by
        by_contra hcon
        push_neg at hcon
        have := hfin.zer w hw hcon
        simp only [List.append_nil] at this
        exact hwnot this
      rw [hfin.val w.mId] at hwpos
      have h1 := baseDeg_as_filter hWF hsubv hndvs hw
      have h2 := decs_as_filter hWF w.mId T2 hT2sub hT2nd
      rw [h1, h2] at hwpos
      simp only [Int.ofNat_eq_natCast] at hwpos
      have hlt : ((g.mEdges.filter (fun e => e.dstId = w.mId)).filter
          (fun e => T2.any (fun t => e.srcId = t.mId))).length <
          (g.mEdges.filter (fun e => e.dstId = w.mId)).length := by omega
      obtain ⟨e, heF, hef⟩ := filter_lt_exists _ _ hlt
      have he : e ∈ g.mEdges := List.mem_of_mem_filter heF
      have hedst : e.dstId = w.mId := by
        have := (List.mem_filter.mp heF).2
        simpa using this
      have hwids : w.mId ∈ ids := by
        rw [← hmap]
        exact List.mem_map.mpr ⟨w, hw, rfl⟩
      have hsrcids : e.srcId ∈ ids := hclosed e he (hedst ▸ hwids)
      have hsrcvs : ∃ u ∈ vs, u.mId = e.srcId := by
        rw [← hmap] at hsrcids
        obtain ⟨u, hu, huid⟩ := List.mem_map.mp hsrcids
        exact ⟨u, hu, huid⟩
      obtain ⟨u, hu, huid⟩ := hsrcvs
      refine ⟨u, hu, ?_, ?_⟩
      · intro huin
        obtain ⟨t, htT, htid⟩ := List.mem_map.mp huin
        have : T2.any (fun t => e.srcId = t.mId) = true :=
          List.any_eq_true.mpr ⟨t, htT, by simp [htid, huid]⟩
        rw [this] at hef
        exact absurd hef (by simp)
      · exact ⟨by rw [huid]; exact hsrcids, hwids, e, he, huid.symm ▸ rfl, hedst⟩
    have hvnot : v.mId ∉ T2.map Pass.mId := hnotinT v hv hvne2
    -- set of blocked ids
    classical
    have hScyc := cycle_of_in_neighbors (EdgeRelOn g ids)
      (((vs.filter (fun x => ¬ x.mId ∈ T2.map Pass.mId)).map Pass.mId).toFinset)
      ?hne ?hstep2
    case hne =>
      refine ⟨v.mId, ?_⟩
      rw [List.mem_toFinset]
      exact List.mem_map.mpr ⟨v, List.mem_filter.mpr ⟨hv, by simpa using hvnot⟩, rfl⟩
    case hstep2 =>
      intro y hy
      rw [List.mem_toFinset] at hy
      obtain ⟨w, hwR, hwid⟩ := List.mem_map.mp hy
      have hwmem := List.mem_filter.mp hwR
      have hwnot : w.mId ∉ T2.map Pass.mId := by
        have := hwmem.2
        simpa using this
      obtain ⟨u, hu, hunot, hrel⟩ := hRstep w hwmem.1 hwnot
      refine ⟨u.mId, ?_, ?_⟩
      · rw [List.mem_toFinset]
        exact List.mem_map.mpr ⟨u, List.mem_filter.mpr ⟨hu, by simpa using hunot⟩, rfl⟩
      · rw [← hwid]
        exact hrel
    exact hScyc

/-- Witness for c3_amended at the repository example graph, whose culled
id set is closed under incoming edges. -/
theorem c3_amended_witness :
    (RenderGraphCompiler.getSerialExecutionOrder exampleGraph [0, 2, 8, 13, 17, 21] =
      some (.error .CyclicDependency)) ↔
      InducedCycle exampleGraph [0, 2, 8, 13, 17, 21] :=
  c3_amended exampleGraph [0, 2, 8, 13, 17, 21] (by decide) (by rfl) (by decide)

-- =======================================
-- Parallelizability map lemmas
-- =======================================

theorem smapFind_insert (k k2 : Int) (v : List Int) :
    ∀ m : SMap, smapFind (smapInsert m k v) k2 =
      if k2 = k then some v else smapFind m k2 := by
  intro m
  induction m with
  | nil =>
      by_cases h : k2 = k
      · simp [smapInsert, smapFind, h]
      · have h2 : ¬ k = k2 := fun hh => h hh.symm
        simp [smapInsert, smapFind, List.find?_cons, h, h2]
  | cons e t ih =>
      obtain ⟨a, w⟩ := e
      simp only [smapInsert]
      by_cases h1 : k < a
      · rw [if_pos h1]
        by_cases h : k2 = k
        · simp [smapFind, List.find?_cons, h]
        · have h2 : ¬ k = k2 := fun hh => h hh.symm
          simp [smapFind, List.find?_cons, h, h2]
      · rw [if_neg h1]
        by_cases hka : k = a
        · rw [if_pos hka]
          by_cases h : k2 = k
          · simp [smapFind, List.find?_cons, h]
          · have h2 : ¬ k = k2 := fun hh => h hh.symm
            have h3 : ¬ a = k2 := by rw [← hka]; exact h2
            simp [smapFind, List.find?_cons, h, h2, h3]
        · rw [if_neg hka]
          by_cases ha2 : a = k2
          · have hk2k : ¬ k2 = k := by
              rw [← ha2]
              exact fun hh => hka hh.symm
            simp [smapFind, List.find?_cons, ha2, hk2k]
          · have hd : (decide (a = k2)) = false := by simp [ha2]
            have ih2 := ih
            simp only [smapFind] at ih2
            simp only [smapFind, List.find?_cons, hd, cond_false]
            exact ih2

theorem smapFind_erase (k k2 : Int) :
    ∀ m : SMap, smapFind (smapErase m k) k2 =
      if k2 = k then none else smapFind m k2 := by
  intro m
  induction m with
  | nil => by_cases h : k2 = k <;> simp [smapErase, smapFind, h]
  | cons e t ih =>
      obtain ⟨a, w⟩ := e
      simp only [smapErase, List.filter_cons]
      by_cases hak : a = k
      · rw [if_neg (by simpa using hak)]
        rw [show smapErase t k = t.filter (fun e => ¬ e.1 = k) from rfl] at ih
        rw [ih]
        by_cases h : k2 = k
        · rw [if_pos h, if_pos h]
        · rw [if_neg h, if_neg h]
          have hd : (decide (a = k2)) = false := by
            simp only [decide_eq_false_iff_not]
            rw [hak]
            exact fun hh => h hh.symm
          simp only [smapFind, List.find?_cons, hd, cond_false]
      · rw [if_pos (by simpa using hak)]
        by_cases ha2 : a = k2
        · have hk2 : ¬ k2 = k := by
            rw [← ha2]
            exact hak
          simp [smapFind, List.find?_cons, ha2, hk2]
        · have hd : (decide (a = k2)) = false := by simp [ha2]
          have ih2 := ih
          simp only [smapFind, smapErase] at ih2
          simp only [smapFind, List.find?_cons, hd, cond_false]
          exact ih2

theorem smapGetOrInsert_fst (m : SMap) (k : Int) :
    (smapGetOrInsert m k).1 = (smapFind m k).getD [] := by
  unfold smapGetOrInsert
  cases h : smapFind m k <;> simp [h]

theorem smapGetOrInsert_snd_find (m : SMap) (k k2 : Int) :
    smapFind (smapGetOrInsert m k).2 k2 =
      if k2 = k then some ((smapFind m k).getD []) else smapFind m k2 := by
  unfold smapGetOrInsert
  cases h : smapFind m k with
  | some v =>
      by_cases h2 : k2 = k
      · simp only [if_pos h2, h2, h]
        rfl
      · simp [h2]
  | none =>
      simp only []
      rw [smapFind_insert]
      by_cases h2 : k2 = k
      · simp [h2, h]
      · simp [h2]

theorem enumFrom_get? {α : Type} :
    ∀ (l : List α) (n : Nat) (pr : Nat × α), pr ∈ l.enumFrom n →
      n ≤ pr.1 ∧ l.get? (pr.1 - n) = some pr.2 := by
  intro l
  induction l with
  | nil => intro n pr h; simp [List.enumFrom] at h
  | cons x t ih =>
      intro n pr h
      simp only [List.enumFrom] at h
      rcases List.mem_cons.mp h with h1 | h2
      · rw [h1]
        simp
      · obtain ⟨hle, hget⟩ := ih (n + 1) pr h2
        refine ⟨by omega, ?_⟩
        have hgap : pr.1 - n = (pr.1 - (n + 1)) + 1 := by omega
        rw [hgap]
        simpa using hget

theorem enum_get? {α : Type} (l : List α) (pr : Nat × α) (h : pr ∈ l.enum) :
    l.get? pr.1 = some pr.2 := by
  have h2 := enumFrom_get? l 0 pr (by simpa [List.enum] using h)
  simpa using h2.2

theorem foldl_smapInsert_MP {α : Type} (serial : List Int)
    (key : α → Int) (val : α → List Int) (cond : α → Bool) :
    ∀ (l : List α),
      (∀ x ∈ l, ∀ q ∈ val x, ¬ q = key x ∧
        ∃ i j, i ≤ j ∧ serial.get? i = some (key x) ∧ serial.get? j = some q) →
      ∀ m0 : SMap, MProp serial m0 →
      MProp serial (l.foldl (fun m x =>
        if cond x then m else smapInsert m (key x) (val x)) m0) := by
  intro l
  induction l with
  | nil => intro _ m0 h0; exact h0
  | cons x t ih =>
      intro hval m0 h0
      rw [List.foldl_cons]
      refine ih (fun y hy => hval y (List.mem_cons_of_mem x hy)) _ ?_
      by_cases hc : cond x
      · rw [if_pos hc]; exact h0
      · rw [if_neg hc]
        intro k l2 hfind q hql
        rw [smapFind_insert] at hfind
        by_cases hk : k = key x
        · rw [if_pos hk] at hfind
          simp only [Option.some.injEq] at hfind
          rw [← hfind] at hql
          have h2 := hval x (List.mem_cons_self x t) q hql
          rw [hk]
          exact h2
        · rw [if_neg hk] at hfind
          exact h0 k l2 hfind q hql

theorem scanParallel_MP (sh : RenderGraph) (nodes : List Pass) (serial : List Int)
    (hmap : nodes.map Pass.mId = serial) :
    MProp serial (RenderGraphCompiler.scanParallel sh nodes.enum) := by
  have hins : ∀ pair ∈ nodes.enum,
      ∀ q ∈ ((nodes.enum.filter (fun qq =>
          ¬ (pair.2.mId = qq.2.mId ∨ qq.2.flags.sentinel = true ∨ qq.1 < pair.1 ∨
             sh.containsAnyEdge pair.2 qq.2 = true))).map (fun qq => qq.2.mId)),
        ¬ q = pair.2.mId ∧ ∃ i j, i ≤ j ∧ serial.get? i = some pair.2.mId ∧
          serial.get? j = some q := by
    intro pair hpair q hq
    obtain ⟨qq, hqqmem, hqqid⟩ := List.mem_map.mp hq
    have hqqen := List.mem_of_mem_filter hqqmem
    have hpred := (List.mem_filter.mp hqqmem).2
    simp only [decide_eq_true_eq] at hpred
    push_neg at hpred
    constructor
    · rw [← hqqid]
      exact fun hh => hpred.1 hh.symm
    · refine ⟨pair.1, qq.1, by omega, ?_, ?_⟩
      · rw [← hmap, List.get?_map, enum_get? nodes pair hpair]
        rfl
      · rw [← hmap, List.get?_map, enum_get? nodes qq hqqen, ← hqqid]
        rfl
  have hgen := foldl_smapInsert_MP serial
    (fun pair : Nat × Pass => pair.2.mId)
    (fun pair : Nat × Pass => ((nodes.enum.filter (fun qq =>
        ¬ (pair.2.mId = qq.2.mId ∨ qq.2.flags.sentinel = true ∨ qq.1 < pair.1 ∨
           sh.containsAnyEdge pair.2 qq.2 = true))).map (fun qq => qq.2.mId)))
    (fun pair : Nat × Pass => pair.2.flags.sentinel)
    nodes.enum hins [] (by intro k l h; simp [smapFind] at h)
  exact hgen

theorem smapErase_MP {serial : List Int} {m : SMap} (h : MProp serial m) (k : Int) :
    MProp serial (smapErase m k) := by
  intro k2 l hfind q hq
  rw [smapFind_erase] at hfind
  by_cases h2 : k2 = k
  · rw [if_pos h2] at hfind; exact absurd hfind (by simp)
  · rw [if_neg h2] at hfind; exact h k2 l hfind q hq

theorem removeEmpty_MP {serial : List Int} {m : SMap} (h : MProp serial m) :
    MProp serial (RenderGraphCompiler.removeEmpty m) := by
  unfold RenderGraphCompiler.removeEmpty
  suffices hgen : ∀ (ks : List Int) (m0 : SMap), MProp serial m0 →
      MProp serial (ks.foldl (fun acc k =>
        if (smapFind acc k).getD [] = ([] : List Int) then smapErase acc k else acc) m0) by
    exact hgen _ m h
  intro ks
  induction ks with
  | nil => intro m0 h0; exact h0
  | cons k t ih =>
      intro m0 h0
      rw [List.foldl_cons]
      refine ih _ ?_
      by_cases hc : (smapFind m0 k).getD [] = ([] : List Int)
      · rw [if_pos hc]; exact smapErase_MP h0 k
      · rw [if_neg hc]; exact h0

theorem getParallelizableTasks_MP {g : RenderGraph} {serial : List Int} {c c1 : Int}
    {par : SMap}
    (h : RenderGraphCompiler.getParallelizableTasks g serial c = some (par, c1)) :
    MProp serial par := by
  unfold RenderGraphCompiler.getParallelizableTasks at h
  split at h
  · exact absurd h (by simp)
  · next shadow0 cg heq1 =>
      dsimp only [] at h
      split at h
      · exact absurd h (by simp)
      · next shadow c2 heq2 =>
          split at h
          · exact absurd h (by simp)
          · next shadowNodes heq3 =>
              simp only [Option.some.injEq, Prod.mk.injEq] at h
              rw [← h.1]
              have hmapS : shadowNodes.map Pass.mId = serial :=
                (toNodePtrList_spec
                  (show shadow.toNodePtrList serial = some shadowNodes from heq3)).1
              exact removeEmpty_MP (scanParallel_MP shadow shadowNodes serial hmapS)

theorem mapM_pair_spec {g : RenderGraph} :
    ∀ {l : List Int} {rs : List (Int × Pass)},
      l.mapM (fun oid => (g.getPassById oid).map (fun p => (oid, p))) = some rs →
      ∀ pr ∈ rs, pr.1 ∈ l ∧ g.getPassById pr.1 = some pr.2 := by
  intro l
  induction l with
  | nil =>
      intro rs h pr hpr
      simp only [List.mapM_nil, pure, Option.some.injEq] at h
      rw [← h] at hpr
      simp at hpr
  | cons x t ih =>
      intro rs h pr hpr
      rw [List.mapM_cons] at h
      cases hx : g.getPassById x with
      | none => rw [hx] at h; simp at h
      | some p =>
          rw [hx] at h
          cases ht : t.mapM (fun oid => (g.getPassById oid).map (fun p => (oid, p))) with
          | none => rw [ht] at h; simp at h
          | some ps =>
              rw [ht] at h
              simp only [Option.map_some', Option.bind_eq_bind, Option.some_bind,
                Option.pure_def, Option.some.injEq] at h
              rw [← h] at hpr
              rcases List.mem_cons.mp hpr with h1 | h2
              · rw [h1]
                exact ⟨List.mem_cons_self x t, hx⟩
              · have h3 := ih ht pr h2
                exact ⟨List.mem_cons_of_mem x h3.1, h3.2⟩

theorem taskWalk_inv (g : RenderGraph) (chances : Int) (serial : List Int)
    (hser : serial.Nodup) :
    ∀ (rest done : List Pass) (tasks : List RGTask)
      (consumed : List Int) (count : Int) (m : SMap),
      ((done ++ rest).map Pass.mId = serial) →
      ((tasks.map (fun t => t.pass.mId)).Nodup) →
      (∀ t ∈ tasks, t.pass.mId ∈ consumed) →
      (∀ t ∈ tasks, ∀ ap, t.asyncPass = some ap → ap.mId ∈ consumed) →
      (∀ t ∈ tasks, ∃ i, i < done.length ∧ serial.get? i = some t.pass.mId) →
      MProp serial m →
      (∀ s ∈ tasks, ∀ ap, s.asyncPass = some ap →
        ∀ t ∈ tasks, ¬ t.pass.mId = ap.mId) →
      ∀ {tasks2 : List RGTask} {m2 : SMap},
      RenderGraphCompiler.taskWalk g chances rest tasks consumed count m =
        some (tasks2, m2) →
      ((tasks2.map (fun t => t.pass.mId)).Nodup ∧
        ∀ s ∈ tasks2, ∀ ap, s.asyncPass = some ap →
          ∀ t ∈ tasks2, ¬ t.pass.mId = ap.mId) := by
  intro rest
  induction rest with
  | nil =>
      intro done tasks consumed count m _ hA2 _ _ _ _ hA7 tasks2 m2 h
      simp only [RenderGraphCompiler.taskWalk, Option.some.injEq, Prod.mk.injEq] at h
      rw [← h.1]
      exact ⟨hA2, hA7⟩
  | cons node rest ih =>
      intro done tasks consumed count m hsplit hA2 hA3 hA4 hA5 hA6 hA7 tasks2 m2 h
      unfold RenderGraphCompiler.taskWalk at h
      by_cases hcons : node.mId ∈ consumed
      · rw [if_pos hcons] at h
        refine ih (done ++ [node]) tasks consumed count m ?_ hA2 hA3 hA4 ?_ hA6 hA7 h
        · rw [← hsplit]; simp
        · intro t ht
          obtain ⟨i, hi, hgi⟩ := hA5 t ht
          refine ⟨i, ?_, hgi⟩
          simp only [List.length_append, List.length_cons]
          omega
      · rw [if_neg hcons] at h
        have hnodepos : serial.get? done.length = some node.mId := by
          rw [← hsplit, List.get?_map, get?_append_cons done node rest]
          rfl
        have hfresh : node.mId ∉ tasks.map (fun t => t.pass.mId) := by
          intro hin
          obtain ⟨t, htT, htid⟩ := List.mem_map.mp hin
          exact hcons (htid ▸ hA3 t htT)
        have hsplit2 : ((done ++ [node]) ++ rest).map Pass.mId = serial := by
          rw [← hsplit]; simp
        have hA2push : ∀ (nt : RGTask), nt.pass.mId = node.mId →
            ((tasks ++ [nt]).map (fun t => t.pass.mId)).Nodup := by
          intro nt hnt
          rw [List.map_append, List.nodup_append]
          refine ⟨hA2, by simp, ?_⟩
          intro a ha hb
          simp only [List.map_cons, List.map_nil, List.mem_singleton] at hb
          rw [hb, hnt] at ha
          exact hfresh ha
        have hA5push : ∀ (nt : RGTask), nt.pass.mId = node.mId →
            ∀ t ∈ tasks ++ [nt], ∃ i, i < (done ++ [node]).length ∧
              serial.get? i = some t.pass.mId := by
          intro nt hnt t ht
          rcases List.mem_append.mp ht with h1 | h2
          · obtain ⟨i, hi, hgi⟩ := hA5 t h1
            refine ⟨i, ?_, hgi⟩
            simp only [List.length_append, List.length_cons]
            omega
          · have ht2 : t = nt := by simpa using h2
            rw [ht2, hnt]
            exact ⟨done.length, by simp, hnodepos⟩
        have hA3push_none : ∀ t ∈ tasks ++ [(⟨node, none⟩ : RGTask)],
            t.pass.mId ∈ idsetInsert consumed node.mId := by
          intro t ht
          rcases List.mem_append.mp ht with h1 | h2
          · exact (idsetInsert_mem _ _ _).mpr (Or.inr (hA3 t h1))
          · have ht2 : t = (⟨node, none⟩ : RGTask) := by simpa using h2
            rw [ht2]
            exact (idsetInsert_mem _ _ _).mpr (Or.inl rfl)
        have hA4push_none : ∀ t ∈ tasks ++ [(⟨node, none⟩ : RGTask)],
            ∀ ap, t.asyncPass = some ap → ap.mId ∈ idsetInsert consumed node.mId := by
          intro t ht ap hap
          rcases List.mem_append.mp ht with h1 | h2
          · exact (idsetInsert_mem _ _ _).mpr (Or.inr (hA4 t h1 ap hap))
          · have ht2 : t = (⟨node, none⟩ : RGTask) := by simpa using h2
            rw [ht2] at hap
            simp at hap
        have hA7push_none : ∀ s ∈ tasks ++ [(⟨node, none⟩ : RGTask)], ∀ ap,
            s.asyncPass = some ap →
            ∀ t ∈ tasks ++ [(⟨node, none⟩ : RGTask)], ¬ t.pass.mId = ap.mId := by
          intro s hs ap hap t ht
          rcases List.mem_append.mp hs with hs1 | hs2
          · rcases List.mem_append.mp ht with ht1 | ht2
            · exact hA7 s hs1 ap hap t ht1
            · have ht3 : t = (⟨node, none⟩ : RGTask) := by simpa using ht2
              rw [ht3]
              intro hcon
              have h4 := hA4 s hs1 ap hap
              rw [← hcon] at h4
              exact hcons h4
          · have hs3 : s = (⟨node, none⟩ : RGTask) := by simpa using hs2
            rw [hs3] at hap
            simp at hap
        by_cases hfast : ¬ (smapFind m node.mId).isSome = true ∧ chances ≤ count
        · rw [if_pos hfast] at h
          exact ih (done ++ [node]) (tasks ++ [⟨node, none⟩])
            (idsetInsert consumed node.mId) count m hsplit2
            (hA2push ⟨node, none⟩ rfl) hA3push_none hA4push_none
            (hA5push ⟨node, none⟩ rfl) hA6 hA7push_none h
        · rw [if_neg hfast] at h
          dsimp only [] at h
          have hA6new : MProp serial (smapGetOrInsert m node.mId).2 := by
            intro k2 l2 hf2 q hq2
            rw [smapGetOrInsert_snd_find] at hf2
            by_cases hk2 : k2 = node.mId
            · rw [if_pos hk2] at hf2
              simp only [Option.some.injEq] at hf2
              cases hfm : smapFind m node.mId with
              | none =>
                  rw [hfm] at hf2
                  simp only [Option.getD_none] at hf2
                  rw [← hf2] at hq2
                  exact absurd hq2 (by simp)
              | some l0 =>
                  rw [hfm] at hf2
                  simp only [Option.getD_some] at hf2
                  rw [hk2]
                  exact hA6 node.mId l0 hfm q (by rw [hf2]; exact hq2)
            · rw [if_neg hk2] at hf2
              exact hA6 k2 l2 hf2 q hq2
          split at h
          · exact absurd h (by simp)
          · next resolved heq4 =>
              split at h
              · next sel heqh =>
                  have hselres : sel ∈ resolved :=
                    List.mem_of_mem_filter
                      (List.mem_of_mem_head? (Option.mem_def.mpr heqh))
                  have hsel := mapM_pair_spec heq4 sel hselres
                  have hsel2id : sel.2.mId = sel.1 := (getPassById_mId hsel.2).1
                  have hfind : ∃ l0, smapFind m node.mId = some l0 ∧ sel.1 ∈ l0 := by
                    have hfst := smapGetOrInsert_fst m node.mId
                    cases hfm : smapFind m node.mId with
                    | none =>
                        rw [hfm] at hfst
                        simp only [Option.getD_none] at hfst
                        have := hsel.1
                        rw [hfst] at this
                        exact absurd this (by simp)
                    | some l0 =>
                        rw [hfm] at hfst
                        simp only [Option.getD_some] at hfst
                        refine ⟨l0, rfl, ?_⟩
                        have := hsel.1
                        rw [hfst] at this
                        exact this
                  obtain ⟨l0, hl0find, hl0mem⟩ := hfind
                  obtain ⟨hqne, i0, j0, hij0, hi0, hj0⟩ :=
                    hA6 node.mId l0 hl0find sel.1 hl0mem
                  have hi0eq : i0 = done.length :=
                    nodup_pos_unique serial hser i0 done.length node.mId hi0 hnodepos
                  have hjgt : done.length < j0 := by
                    rcases Nat.lt_or_ge done.length j0 with hlt | hge
                    · exact hlt
                    · exfalso
                      have hj0eq : j0 = done.length := by omega
                      have h1 := hj0
                      rw [hj0eq] at h1
                      have h2 := hnodepos.symm.trans h1
                      exact hqne (Option.some.inj h2).symm
                  have hselfresh : ∀ t ∈ tasks, ¬ t.pass.mId = sel.1 := by
                    intro t ht hcon
                    obtain ⟨it, hit, hgit⟩ := hA5 t ht
                    rw [hcon] at hgit
                    have := nodup_pos_unique serial hser it j0 sel.1 hgit hj0
                    omega
                  have hA3push_sel : ∀ t ∈ tasks ++ [(⟨node, some sel.2⟩ : RGTask)],
                      t.pass.mId ∈ idsetInsert (idsetInsert consumed node.mId) sel.1 := by
                    intro t ht
                    rcases List.mem_append.mp ht with h1 | h2
                    · exact (idsetInsert_mem _ _ _).mpr
                        (Or.inr ((idsetInsert_mem _ _ _).mpr (Or.inr (hA3 t h1))))
                    · have ht2 : t = (⟨node, some sel.2⟩ : RGTask) := by simpa using h2
                      rw [ht2]
                      exact (idsetInsert_mem _ _ _).mpr
                        (Or.inr ((idsetInsert_mem _ _ _).mpr (Or.inl rfl)))
                  have hA4push_sel : ∀ t ∈ tasks ++ [(⟨node, some sel.2⟩ : RGTask)],
                      ∀ ap, t.asyncPass = some ap →
                      ap.mId ∈ idsetInsert (idsetInsert consumed node.mId) sel.1 := by
                    intro t ht ap hap
                    rcases List.mem_append.mp ht with h1 | h2
                    · exact (idsetInsert_mem _ _ _).mpr
                        (Or.inr ((idsetInsert_mem _ _ _).mpr (Or.inr (hA4 t h1 ap hap))))
                    · have ht2 : t = (⟨node, some sel.2⟩ : RGTask) := by simpa using h2
                      rw [ht2] at hap
                      have hap2 : sel.2 = ap := Option.some.inj hap
                      rw [← hap2, hsel2id]
                      exact (idsetInsert_mem _ _ _).mpr (Or.inl rfl)
                  have hA7push_sel : ∀ s ∈ tasks ++ [(⟨node, some sel.2⟩ : RGTask)], ∀ ap,
                      s.asyncPass = some ap →
                      ∀ t ∈ tasks ++ [(⟨node, some sel.2⟩ : RGTask)],
                        ¬ t.pass.mId = ap.mId := by
                    intro s hs ap hap t ht
                    rcases List.mem_append.mp hs with hs1 | hs2
                    · rcases List.mem_append.mp ht with ht1 | ht2
                      · exact hA7 s hs1 ap hap t ht1
                      · have ht3 : t = (⟨node, some sel.2⟩ : RGTask) := by simpa using ht2
                        rw [ht3]
                        intro hcon
                        have h4 := hA4 s hs1 ap hap
                        rw [← hcon] at h4
                        exact hcons h4
                    · have hs3 : s = (⟨node, some sel.2⟩ : RGTask) := by simpa using hs2
                      rw [hs3] at hap
                      have hap2 : sel.2 = ap := Option.some.inj hap
                      rcases List.mem_append.mp ht with ht1 | ht2
                      · rw [← hap2, hsel2id]
                        exact hselfresh t ht1
                      · have ht3 : t = (⟨node, some sel.2⟩ : RGTask) := by simpa using ht2
                        rw [ht3, ← hap2, hsel2id]
                        intro hcon
                        exact hqne hcon.symm
                  exact ih (done ++ [node]) (tasks ++ [⟨node, some sel.2⟩])
                    (idsetInsert (idsetInsert consumed node.mId) sel.1) (count + 1)
                    (smapGetOrInsert m node.mId).2 hsplit2
                    (hA2push ⟨node, some sel.2⟩ rfl) hA3push_sel hA4push_sel
                    (hA5push ⟨node, some sel.2⟩ rfl) hA6new hA7push_sel h
              · exact ih (done ++ [node]) (tasks ++ [⟨node, none⟩])
                  (idsetInsert consumed node.mId) (count + 1)
                  (smapGetOrInsert m node.mId).2 hsplit2
                  (hA2push ⟨node, none⟩ rfl) hA3push_none hA4push_none
                  (hA5push ⟨node, none⟩ rfl) hA6new hA7push_none h

/-- Claim C1 (amended): with parallelization enabled, on a well-formed
graph every successful compilation yields a task list whose main-queue
pass ids are pairwise distinct and in which no async companion repeats a
main-queue id; an async companion may however serve several tasks, see
c1_counterexample. -/
theorem c1_amended (g : RenderGraph) (c : Int) (out : RGCompilerOutput)
    (po : RGCompilerPhaseOutputs) (hWF : g.WF)
    (h : RenderGraphCompiler.compile g { allowParallelization := true } c = some out)
    (hpo : out.phaseOutputs = some po) :
    ((po.taskOrder.map (fun t => t.pass.mId)).Nodup ∧
      ∀ s ∈ po.taskOrder, ∀ ap, s.asyncPass = some ap →
        ∀ t ∈ po.taskOrder, ¬ t.pass.mId = ap.mId) := by
  obtain ⟨hcull, hserial, par, c1, hpar, hfinal⟩ := compile_success_inv h hpo
  have hserND : po.serialExecutionOrder.Nodup := by
    unfold RenderGraphCompiler.getSerialExecutionOrder at hserial
    cases htl : g.toNodePtrList po.cullNodes with
    | none => rw [htl] at hserial; exact absurd hserial (by simp)
    | some vs =>
        obtain ⟨hmap, hsubv⟩ := toNodePtrList_spec htl
        have hndvs : (vs.map Pass.mId).Nodup := by
          rw [hmap]; exact cull_nodup hcull
        obtain ⟨T2, m2, hfin, hexec⟩ := execute_spec vs hndvs
        by_cases hall : vs.all (fun v => alGetD m2 v.mId == 0)
        · rw [if_pos hall] at hexec
          simp only [htl, hexec, Option.some.injEq, Except.ok.injEq] at hserial
          rw [← hserial]
          have hnd := hfin.ndp
          simp only [List.append_nil] at hnd
          exact hnd
        · rw [if_neg hall] at hexec
          simp only [htl, hexec] at hserial
          simp at hserial
  unfold RenderGraphCompiler.getFinalTaskOrder at hfinal
  cases hnodes : g.toNodePtrList po.serialExecutionOrder with
  | none => rw [hnodes] at hfinal; exact absurd hfinal (by simp)
  | some nodes =>
      simp only [hnodes] at hfinal
      rw [if_neg (by simp)] at hfinal
      obtain ⟨hmapn, -⟩ := toNodePtrList_spec hnodes
      exact taskWalk_inv g (Int.ofNat par.length) po.serialExecutionOrder hserND
        nodes [] [] [] 0 par (by simpa using hmapn) (by simp) (by simp) (by simp)
        (by simp) (getParallelizableTasks_MP hpar) (by simp) hfinal

/-- Witness for c1_amended at the graph gC1 with parallelization on. -/
theorem c1_amended_witness :
    ∃ out po, RenderGraphCompiler.compile gC1 { allowParallelization := true } 100 =
        some out ∧ out.phaseOutputs = some po ∧
      ((po.taskOrder.map (fun t => t.pass.mId)).Nodup ∧
        ∀ s ∈ po.taskOrder, ∀ ap, s.asyncPass = some ap →
          ∀ t ∈ po.taskOrder, ¬ t.pass.mId = ap.mId) := by
  refine ⟨_, _, rfl, rfl, ?_⟩
  exact c1_amended gC1 100 _ _ (by decide) rfl rfl
